import Mathlib

/-!
# Balance parser (`parsers/balance.go`): a shallow embedding

The Go program replays a block chain and maintains two indexes, the unspent
outputs (`unspentMap_`) and the address balances (`balanceMap_`).

Modelling conventions.

* A Go `map[K]V` is an association list `List (K × V)`.  `GoMap.get`,
  `GoMap.set` and `GoMap.del` are `m[k]`, `m[k] = v` and `delete(m, k)`.
  The order of the list is the order in which `range` visits the map
  (Go leaves that order unspecified).  A list stands for a real Go map when
  its keys are pairwise distinct (`GoMap.NodupKeys`).
* `uint64`, `uint32` and `uint16` values are natural numbers reduced modulo
  `2^64`, `2^32`, `2^16` wherever the Go code can wrap; `int64` values are
  integers normalised by `toInt64` (two's complement).
* `btc.Uint256` is a natural number; the all-zero hash is `0`.
* A channel is the list of the values sent on it, in order.
-/

namespace Parsers

/-! ## Go maps -/

namespace GoMap

variable {K V : Type} [DecidableEq K]

/-- Map lookup `v, ok := m[k]`: the first entry under key `k`. -/
def get : List (K × V) → K → Option V
  | [], _ => none
  | (k', v) :: t, k => if k' = k then some v else get t k

/-- Map assignment `m[k] = v`: an existing entry is overwritten in place,
a new key is added. -/
def set : List (K × V) → K → V → List (K × V)
  | [], k, v => [(k, v)]
  | (k', v') :: t, k, v => if k' = k then (k, v) :: t else (k', v') :: set t k v

/-- Map deletion `delete(m, k)`. -/
def del : List (K × V) → K → List (K × V)
  | [], _ => []
  | (k', v') :: t, k => if k' = k then del t k else (k', v') :: del t k

/-- The keys of the list are pairwise distinct: the list is a Go map. -/
def NodupKeys (m : List (K × V)) : Prop := (m.map Prod.fst).Nodup

/-- The sum of `w v` over the entries of the map. -/
def total (w : V → Nat) : List (K × V) → Nat
  | [] => 0
  | (_, v) :: t => w v + total w t

end GoMap

/-! ## Machine integers -/

/-- Conversion to `int64` (two's complement wrap-around): the representative
of `x` modulo `2 ^ 64` between `-2 ^ 63` and `2 ^ 63 - 1`. -/
def toInt64 (x : Int) : Int :=
  (9223372036854775808 + x) % 18446744073709551616 - 9223372036854775808

/-! ## Data types of the source -/

/-- Constant `HALVING_BLOCKS`. -/
def HALVING_BLOCKS : Nat := 210000

/-- Constant `MAX_REWARD = 50.0 * 1e8`. -/
def MAX_REWARD : Nat := 5000000000

/-- A 32-byte hash `btc.Uint256`. -/
abbrev Uint256 := Nat

/-- Type `tOutput`. -/
structure tOutput where
  addr : String
  val : Nat
  deriving DecidableEq, Repr

/-- Type `tOutputMap`: output index (`uint16`) to output. -/
abbrev tOutputMap := List (Nat × tOutput)

/-- Type `tUnspentMap`: transaction id to its unspent outputs. -/
abbrev tUnspentMap := List (Uint256 × tOutputMap)

/-- Type `tBalanceMap`: address to balance (`uint64`). -/
abbrev tBalanceMap := List (String × Nat)

/-- A transaction input of the decoder (`btc.TxIn`): the outpoint it spends. -/
structure TxIn where
  Hash : Uint256
  Vout : Nat
  deriving DecidableEq, Repr

/-- A transaction output of the decoder (`btc.TxOut`).  `Addr` is the address
string the loader derives from `Pk_script`: `a.String()` when
`btc.NewAddrFromPkScript` recognises the script, and `string(o.Pk_script)`
otherwise. -/
structure TxOut where
  Value : Nat
  Addr : String
  deriving DecidableEq, Repr

/-- A decoded transaction (`btc.Tx`) with its hash and the decoder's
`IsCoinBase()` verdict. -/
structure Tx where
  Hash : Uint256
  IsCoinBase : Bool
  TxIn : List TxIn
  TxOut : List TxOut
  deriving DecidableEq, Repr

/-- A decoded block (`btc.Block`). -/
structure Block where
  Hash : Uint256
  ParentHash : Uint256
  BlockTime : Nat
  Txs : List Tx
  deriving DecidableEq, Repr

/-- Type `tChangeSet`. -/
structure tChangeSet where
  sumOut : Nat
  spentMap : List (Uint256 × List Nat)
  balanceMap : List (Uint256 × tOutputMap)
  block : Block
  deriving DecidableEq, Repr

/-- Type `tBalanceChange`. -/
structure tBalanceChange where
  addr : String
  change : Int
  deriving DecidableEq, Repr

/-! ## The balance applier: `processBalance` -/

/-- The value `m[addr]` of a balance map, `0` for an absent address. -/
def balanceOf (m : tBalanceMap) (a : String) : Nat := (GoMap.get m a).getD 0

/-- The signed balance computed in the body of `processBalance`:
`int64(_b.balanceMap_[change.addr]) + change.change`. -/
def newBalance (m : tBalanceMap) (c : tBalanceChange) : Int :=
  toInt64 (toInt64 (balanceOf m c.addr) + c.change)

/-- One iteration of the loop of `processBalance`; `none` is `log.Fatalln`. -/
def processBalanceStep (m : tBalanceMap) (c : tBalanceChange) : Option tBalanceMap :=
  if 0 < newBalance m c then some (GoMap.set m c.addr (newBalance m c).toNat)
  else if newBalance m c = 0 then some (GoMap.del m c.addr)
  else none

/-- The loop of `processBalance` over the changes received on
`balanceChangeCh_`, in order. -/
def processBalance : tBalanceMap → List tBalanceChange → Option tBalanceMap
  | m, [] => some m
  | m, c :: cs =>
    match processBalanceStep m c with
    | some m' => processBalance m' cs
    | none => none

/-! ## The block loader: `loadBlock` -/

/-- The loop `for _, v := range t.TxOut { sumOut += v.Value }` (on `uint64`). -/
def sumTxOut : Nat → List TxOut → Nat
  | acc, [] => acc
  | acc, v :: vs => sumTxOut ((acc + v.Value) % 2 ^ 64) vs

/-- The loop of `loadBlock` over `t.TxIn`:
`unspentMap[hash] = append(unspentMap[hash], uint16(i.Input.Vout))`. -/
def loadInputs : List (Uint256 × List Nat) → List TxIn → List (Uint256 × List Nat)
  | m, [] => m
  | m, i :: is =>
    loadInputs (GoMap.set m i.Hash ((GoMap.get m i.Hash).getD [] ++ [i.Vout % 2 ^ 16])) is

/-- The loop of `loadBlock` over `t.TxOut`; `i` is the position of the head of
the list in the transaction.  Outputs of value `0` are skipped, the others are
stored under `uint16(i)`. -/
def loadOutputs : tOutputMap → Nat → List TxOut → tOutputMap
  | m, _, [] => m
  | m, i, o :: os =>
    if o.Value = 0 then loadOutputs m (i + 1) os
    else loadOutputs (GoMap.set m (i % 2 ^ 16) ⟨o.Addr, o.Value⟩) (i + 1) os

/-- The body of the loop of `loadBlock` over `bl.Txs`. -/
def loadTx (c : tChangeSet) (t : Tx) : tChangeSet :=
  { sumOut := if t.IsCoinBase then sumTxOut c.sumOut t.TxOut else c.sumOut
    spentMap := if t.IsCoinBase then c.spentMap else loadInputs c.spentMap t.TxIn
    balanceMap := GoMap.set c.balanceMap t.Hash (loadOutputs [] 0 t.TxOut)
    block := c.block }

/-- Function `loadBlock` after decoding: the change set sent on `changeSetCh_`. -/
def loadBlock (bl : Block) : tChangeSet :=
  bl.Txs.foldl loadTx ⟨0, [], [], bl⟩

/-! ## The chain sequencer: `processBlock` -/

/-- What the sequencer sends towards the applier and the report writer, in
order: a balance change on `balanceChangeCh_`, or the synchronisation of a
month rollover (`close(balanceChangeCh_)`, `<-balanceReadyCh_`,
`saveReport(blockTime)`) with the sums `saveReport` reads. -/
inductive tEvent where
  | change (c : tBalanceChange)
  | report (blockTime sumReward sumFee : Nat)
  deriving DecidableEq, Repr

/-- The fields of `BalanceParser` used by `processBlock`, the local variables
`prev` and `lastMonth` of `processBlock`, and two histories: `out`, what was
sent so far, and `applied`, the change sets applied so far.
`halvings_` stands for the `float64` field `halvingRate_`, which only ever
holds `2 ^ (-halvings_)`. -/
structure BalanceParser where
  unspentMap_ : tUnspentMap
  prevMap_ : List (Uint256 × tChangeSet)
  blockNO_ : Nat
  sumReward_ : Nat
  sumFee_ : Nat
  halvings_ : Nat
  prev : Uint256
  lastMonth : Nat
  out : List tEvent
  applied : List tChangeSet
  deriving DecidableEq, Repr

/-- The changes sent for the outputs of one transaction in the credit loop:
`tBalanceChange{output.addr, int64(output.val)}`. -/
def creditOutputs (outputs : tOutputMap) : List tBalanceChange :=
  outputs.map fun e => ⟨e.2.addr, toInt64 e.2.val⟩

/-- The credit loop `for txID, outputs := range changeSet.balanceMap`: the
unspent map afterwards and the changes sent. -/
def creditPhase : tUnspentMap → List (Uint256 × tOutputMap) → tUnspentMap × List tBalanceChange
  | u, [] => (u, [])
  | u, (txID, outputs) :: rest =>
    ((creditPhase (GoMap.set u txID outputs) rest).1,
      creditOutputs outputs ++ (creditPhase (GoMap.set u txID outputs) rest).2)

/-- The loop `for _, i := range spent` of the debit phase on the output map
`unspent` of one transaction: the output map afterwards and the changes sent,
`tBalanceChange{output.addr, -int64(output.val)}`. -/
def debitOutputs : tOutputMap → List Nat → tOutputMap × List tBalanceChange
  | unspent, [] => (unspent, [])
  | unspent, i :: is =>
    match GoMap.get unspent i with
    | some output =>
      ((debitOutputs (GoMap.del unspent i) is).1,
        ⟨output.addr, toInt64 (-toInt64 output.val)⟩ :: (debitOutputs (GoMap.del unspent i) is).2)
    | none => debitOutputs unspent is

/-- The body of the debit loop for one entry `txID, spent` of
`changeSet.spentMap`.  The Go map `unspent` is shared with `unspentMap_`, so
the deletions show in `unspentMap_[txID]`. -/
def debitTx (u : tUnspentMap) (txID : Uint256) (spent : List Nat) :
    tUnspentMap × List tBalanceChange :=
  match GoMap.get u txID with
  | some unspent =>
    (if (debitOutputs unspent spent).1.length = 0 then GoMap.del u txID
      else GoMap.set u txID (debitOutputs unspent spent).1,
      (debitOutputs unspent spent).2)
  | none => (u, [])

/-- The debit loop `for txID, spent := range changeSet.spentMap`. -/
def debitPhase : tUnspentMap → List (Uint256 × List Nat) → tUnspentMap × List tBalanceChange
  | u, [] => (u, [])
  | u, (txID, spent) :: rest =>
    ((debitPhase (debitTx u txID spent).1 rest).1,
      (debitTx u txID spent).2 ++ (debitPhase (debitTx u txID spent).1 rest).2)

/-- The number of halvings after
`if (_b.blockNO_+1)%HALVING_BLOCKS == 0 { _b.halvingRate_ /= 2 }`
(`blockNO_` is a `uint32`). -/
def nextHalvings (b : BalanceParser) : Nat :=
  if (b.blockNO_ + 1) % 2 ^ 32 % HALVING_BLOCKS = 0 then b.halvings_ + 1 else b.halvings_

/-- The local `reward := uint64(_b.halvingRate_ * MAX_REWARD)`.  The product
`2 ^ (-h) * 5000000000` is exact in `float64` while it is at least `1`
(`5000000000 = 2 ^ 9 * 5 ^ 10` has a 24-bit odd part) and lies below `1` from
`h = 33` on; the conversion truncates, so the value is `MAX_REWARD / 2 ^ h`. -/
def blockReward (b : BalanceParser) : Nat := MAX_REWARD / 2 ^ nextHalvings b

/-- The local `fee := changeSet.sumOut - reward` (on `uint64`). -/
def blockFee (b : BalanceParser) (c : tChangeSet) : Nat :=
  (c.sumOut % 2 ^ 64 + 2 ^ 64 - blockReward b) % 2 ^ 64

/-- What one application of a change set sends: the report of a month
rollover, if any, then the credits, then the debits. -/
def applyEvents (monthOf : Nat → Nat) (b : BalanceParser) (c : tChangeSet) : List tEvent :=
  (if monthOf c.block.BlockTime ≠ b.lastMonth then
      [tEvent.report c.block.BlockTime ((b.sumReward_ + blockReward b) % 2 ^ 64)
        ((b.sumFee_ + blockFee b c) % 2 ^ 64)]
    else []) ++
  ((creditPhase b.unspentMap_ c.balanceMap).2 ++
    (debitPhase (creditPhase b.unspentMap_ c.balanceMap).1 c.spentMap).2).map tEvent.change

/-- The branch of the loop of `processBlock` taken when `prevMap_[prev]`
holds the change set `c`: `c` is applied.  `monthOf t` is
`time.Unix(t, 0).Month()` in the local time zone of the process. -/
def processBlockApply (monthOf : Nat → Nat) (b : BalanceParser) (c : tChangeSet) :
    BalanceParser :=
  { unspentMap_ := (debitPhase (creditPhase b.unspentMap_ c.balanceMap).1 c.spentMap).1
    prevMap_ := GoMap.del b.prevMap_ b.prev
    blockNO_ := (b.blockNO_ + 1) % 2 ^ 32
    sumReward_ :=
      if monthOf c.block.BlockTime ≠ b.lastMonth then 0
      else (b.sumReward_ + blockReward b) % 2 ^ 64
    sumFee_ :=
      if monthOf c.block.BlockTime ≠ b.lastMonth then 0
      else (b.sumFee_ + blockFee b c) % 2 ^ 64
    halvings_ := nextHalvings b
    prev := c.block.Hash
    lastMonth := monthOf c.block.BlockTime
    out := b.out ++ applyEvents monthOf b c
    applied := b.applied ++ [c] }

/-- The branch of the loop of `processBlock` taken when a change set is
received: `_b.prevMap_[*parent] = changeSet`. -/
def processBlockRecv (b : BalanceParser) (c : tChangeSet) : BalanceParser :=
  { b with prevMap_ := GoMap.set b.prevMap_ c.block.ParentHash c }

/-- The loop of `processBlock`, one iteration per unit of `fuel`; `ch` holds
the change sets still to be received on `changeSetCh_` before it is closed.
`none` means the fuel ran out before the loop ended. -/
def processBlockLoop (monthOf : Nat → Nat) :
    Nat → BalanceParser → List tChangeSet → Option BalanceParser
  | 0, _, _ => none
  | fuel + 1, b, ch =>
    match GoMap.get b.prevMap_ b.prev with
    | some c => processBlockLoop monthOf fuel (processBlockApply monthOf b c) ch
    | none =>
      match ch with
      | [] => some b
      | c :: rest => processBlockLoop monthOf fuel (processBlockRecv b c) rest

/-- The state set up by `Parse` and the head of `processBlock`: empty maps,
block number `0`, sums `0`, halving rate `1.0`, `prev` the zero hash and
`lastMonth = time.January`. -/
def initial : BalanceParser :=
  { unspentMap_ := [], prevMap_ := [], blockNO_ := 0, sumReward_ := 0, sumFee_ := 0,
    halvings_ := 0, prev := 0, lastMonth := 1, out := [], applied := [] }

/-- Function `processBlock` run on the change sets `ch` delivered on
`changeSetCh_` before it is closed.  Every iteration either applies a pending
change set or receives one, so `2 * ch.length + 1` iterations suffice. -/
def processBlock (monthOf : Nat → Nat) (ch : List tChangeSet) : Option BalanceParser :=
  processBlockLoop monthOf (2 * ch.length + 1) initial ch

/-- The change sets `cs` applied one after the other. -/
def applyAll (monthOf : Nat → Nat) (b : BalanceParser) (cs : List tChangeSet) : BalanceParser :=
  cs.foldl (processBlockApply monthOf) b

/-- The balance changes among the events sent. -/
def changes : List tEvent → List tBalanceChange
  | [] => []
  | tEvent.change c :: es => c :: changes es
  | tEvent.report _ _ _ :: es => changes es

/-! ## Quantities of the indexes -/

/-- The sum of the balances of a balance map. -/
def sumBalance (m : tBalanceMap) : Nat := GoMap.total (fun v => v) m

/-- The sum of the values of an output map. -/
def sumOutputs (outs : tOutputMap) : Nat := GoMap.total (fun o => o.val) outs

/-- The sum of the values of all outputs held in an unspent map. -/
def sumUnspent (u : tUnspentMap) : Nat := GoMap.total sumOutputs u

/-! ## The report writer: `saveReport` -/

/-- Modelled from the spec: the type `lib.TopList` of this repository is not
among the sources.  After `Init(n)` and a `Push(v)` for every value of
`pushed`, `Sorted()` is taken to return the `n` largest values pushed, or all
of them when there are fewer, in descending order. -/
def topListSorted (n : Nat) (pushed : List Nat) : List Nat :=
  (pushed.insertionSort fun a b => b ≤ a).take n

/-- The running state of the loop `for k, v := range top` of `saveReport`:
the `uint64` variable `sum` and the `sum` column of the rows appended so far to
`balance100.csv`, `balance1000.csv` and `balance10000.csv`. -/
structure tTopRows where
  sum : Nat
  row100 : Option Nat
  row1000 : Option Nat
  row10000 : Option Nat
  deriving DecidableEq, Repr

/-- The body of the loop `for k, v := range top`. -/
def topStep (k : Nat) (s : tTopRows) (v : Nat) : tTopRows :=
  if k = 99 then { s with sum := (s.sum + v) % 2 ^ 64, row100 := some ((s.sum + v) % 2 ^ 64) }
  else if k = 999 then
    { s with sum := (s.sum + v) % 2 ^ 64, row1000 := some ((s.sum + v) % 2 ^ 64) }
  else if k = 9999 then
    { s with sum := (s.sum + v) % 2 ^ 64, row10000 := some ((s.sum + v) % 2 ^ 64) }
  else { s with sum := (s.sum + v) % 2 ^ 64 }

/-- The loop `for k, v := range top`, `k` being the index of the head of the list. -/
def topLoop : Nat → tTopRows → List Nat → tTopRows
  | _, s, [] => s
  | k, s, v :: vs => topLoop (k + 1) (topStep k s v) vs

/-- The loop `for _, v := range _b.balanceMap_ { balanceSum += v }` (on `uint64`). -/
def balanceSumLoop : Nat → List Nat → Nat
  | acc, [] => acc
  | acc, v :: vs => balanceSumLoop ((acc + v) % 2 ^ 64) vs

/-- The rows appended to the report files by one call of `saveReport`.
Every row starts with the date derived from `blockTime`; the third column of
the top-N rows, the `float64` quotient `sum / balanceSum`, is left out.
`balanceNum`, `balanceSum` are the row of `balance.csv`; `top100` to
`top100000` are the `sum` column of the rows of `balance100.csv` to
`balance100000.csv`, `none` when no row is appended; `sumReward`, `sumFee`
are the row of `reward.csv`. -/
structure tReport where
  blockTime : Nat
  balanceNum : Nat
  balanceSum : Nat
  top100 : Option Nat
  top1000 : Option Nat
  top10000 : Option Nat
  top100000 : Option Nat
  sumReward : Nat
  sumFee : Nat
  deriving DecidableEq, Repr

/-- Function `saveReport` on the balance map `m`, with the sums
`_b.sumReward_` and `_b.sumFee_` it reads. -/
def saveReport (m : tBalanceMap) (blockTime sumReward sumFee : Nat) : tReport :=
  { blockTime := blockTime
    balanceNum := m.length
    balanceSum := balanceSumLoop 0 (m.map Prod.snd)
    top100 := (topLoop 0 ⟨0, none, none, none⟩ (topListSorted 100000 (m.map Prod.snd))).row100
    top1000 := (topLoop 0 ⟨0, none, none, none⟩ (topListSorted 100000 (m.map Prod.snd))).row1000
    top10000 :=
      (topLoop 0 ⟨0, none, none, none⟩ (topListSorted 100000 (m.map Prod.snd))).row10000
    top100000 :=
      if 100000 ≤ (topListSorted 100000 (m.map Prod.snd)).length then
        some (topLoop 0 ⟨0, none, none, none⟩ (topListSorted 100000 (m.map Prod.snd))).sum
      else none
    sumReward := sumReward
    sumFee := sumFee }

/-- The applier and the report writer consuming the events sent by the
sequencer, in order: a change is applied to the balance map, a report event
runs `saveReport` on the balance map as it is then.  `none` is the fatal
error of the applier. -/
def consume : tBalanceMap → List tReport → List tEvent → Option (tBalanceMap × List tReport)
  | m, rs, [] => some (m, rs)
  | m, rs, tEvent.change c :: es =>
    match processBalanceStep m c with
    | some m' => consume m' rs es
    | none => none
  | m, rs, tEvent.report t r f :: es => consume m (rs ++ [saveReport m t r f]) es

/-- The report events among the events sent: block time, reward sum, fee sum. -/
def reports : List tEvent → List (Nat × Nat × Nat)
  | [] => []
  | tEvent.change _ :: es => reports es
  | tEvent.report t r f :: es => (t, r, f) :: reports es

/-- The reward accounted so far: the reward sums handed to `saveReport` at the
month rollovers, plus the running sum `sumReward_`. -/
def totalReward (b : BalanceParser) : Nat :=
  ((reports b.out).map fun r => r.2.1).sum + b.sumReward_

/-! ## Text of the checkpoint files

A Go string is the list of its bytes, each held in a `Char`; the address of a
balance or of an output is the `String` made of these.  What `gzip` writes is
read back unchanged. -/

/-- Function `strings.Split(s, sep)` for a separator `sep` of one byte. -/
def split (sep : Char) : List Char → List (List Char)
  | [] => [[]]
  | c :: cs =>
    if c = sep then [] :: split sep cs
    else
      match split sep cs with
      | [] => [[c]]
      | t :: ts => (c :: t) :: ts

/-- The verb `%v` on an unsigned integer, also used by `fmt.Sprintln`: the
decimal digits. -/
def formatUint (n : Nat) : List Char := Nat.toDigits 10 n

/-- The value of a decimal digit, `none` for any other byte. -/
def digitValue (c : Char) : Option Nat :=
  if 48 ≤ c.toNat ∧ c.toNat ≤ 57 then some (c.toNat - 48) else none

/-- The value of a string of decimal digits read after the value `acc`,
`none` when a byte is not a digit. -/
def parseDigits : Nat → List Char → Option Nat
  | acc, [] => some acc
  | acc, c :: cs =>
    match digitValue c with
    | some d => parseDigits (acc * 10 + d) cs
    | none => none

/-- Function `strconv.ParseUint(s, 10, 0)` on a 64-bit platform: `none` is an
error (empty string, a byte that is not a digit, a value of `2 ^ 64` or more). -/
def ParseUint (s : List Char) : Option Nat :=
  match s with
  | [] => none
  | _ :: _ =>
    match parseDigits 0 s with
    | some n => if n < 2 ^ 64 then some n else none
    | none => none

/-- Function `strconv.Atoi(s)` on a 64-bit platform: an optional sign, then
decimal digits, the value in the range of `int`; `none` is an error. -/
def Atoi (s : List Char) : Option Int :=
  match s with
  | [] => none
  | c :: t =>
    if c = '-' then
      match t with
      | [] => none
      | _ :: _ =>
        match parseDigits 0 t with
        | some n => if n ≤ 2 ^ 63 then some (-(n : Int)) else none
        | none => none
    else if c = '+' then
      match t with
      | [] => none
      | _ :: _ =>
        match parseDigits 0 t with
        | some n => if n < 2 ^ 63 then some (n : Int) else none
        | none => none
    else
      match parseDigits 0 s with
      | some n => if n < 2 ^ 63 then some (n : Int) else none
      | none => none

/-- The end-of-line handling of `bufio.ScanLines`: a trailing carriage return
is dropped. -/
def dropCR (l : List Char) : List Char :=
  if l.getLast? = some '\r' then l.dropLast else l

/-- The lines `bufio.Scanner` returns for the text that follows, `cur` being
the part of the current line already read. -/
def scanLinesAux : List Char → List Char → List (List Char)
  | cur, [] => if cur = [] then [] else [dropCR cur]
  | cur, c :: cs =>
    if c = '\n' then dropCR cur :: scanLinesAux [] cs else scanLinesAux (cur ++ [c]) cs

/-- The successive values of `scanner.Text()` over a text. -/
def scanLines (text : List Char) : List (List Char) := scanLinesAux [] text

/-- The line `fmt.Sprintln(k, v)` of `saveBalance` for the entry `k, v`. -/
def balanceLine (e : String × Nat) : List Char :=
  e.1.data ++ ' ' :: (formatUint e.2 ++ ['\n'])

/-- The lines collected by `saveBalance` before `sort.Sort`, in the order of
the iteration over the balance map. -/
def balanceLines (m : tBalanceMap) : List (List Char) := m.map balanceLine

/-- Method `tSortedBalance.Less` on the two lines `si = s[i]` and `sj = s[j]`.
The slice `s[i][:len(s[i])-1]` is taken as `dropLast`, which differs from Go
only on an empty line, where Go panics; `saveBalance` writes no empty line. -/
def tSortedBalance.Less (si sj : List Char) : Bool :=
  if (split ' ' si.dropLast).length = 2 ∧ (split ' ' sj.dropLast).length = 2 then
    match ParseUint ((split ' ' si.dropLast).getD 1 []) with
    | some v1 =>
      match ParseUint ((split ' ' sj.dropLast).getD 1 []) with
      | some v2 => decide (v1 > v2)
      | none => decide (si.length < sj.length)
    | none => decide (si.length < sj.length)
  else decide (si.length < sj.length)

/-- The body of the loop of `loadBalance` for the line `l`. -/
def loadBalanceLine (m : tBalanceMap) (l : List Char) : tBalanceMap :=
  if (split ' ' l).length = 2 then
    match ParseUint ((split ' ' l).getD 1 []) with
    | some balance => GoMap.set m (String.mk ((split ' ' l).getD 0 [])) balance
    | none => m
  else m

/-- Function `loadBalance` on the text of `balance.gz`, starting from the
balance map `m`. -/
def loadBalance (m : tBalanceMap) (text : List Char) : tBalanceMap :=
  (scanLines text).foldl loadBalanceLine m

/-- Method `String()` of `btc.Uint256`: 64 hexadecimal digits.  A hash is
identified with the number these digits write. -/
def uint256String (h : Uint256) : List Char :=
  (List.range 64).map fun i => Nat.digitChar (h / 16 ^ (63 - i) % 16)

/-- The value of a hexadecimal digit, as `hex.DecodeString` reads it. -/
def hexValue (c : Char) : Option Nat :=
  if 48 ≤ c.toNat ∧ c.toNat ≤ 57 then some (c.toNat - 48)
  else if 97 ≤ c.toNat ∧ c.toNat ≤ 102 then some (c.toNat - 87)
  else if 65 ≤ c.toNat ∧ c.toNat ≤ 70 then some (c.toNat - 55)
  else none

/-- The number written by a string of hexadecimal digits read after `acc`. -/
def parseHex : Nat → List Char → Option Nat
  | acc, [] => some acc
  | acc, c :: cs =>
    match hexValue c with
    | some d => parseHex (acc * 16 + d) cs
    | none => none

/-- Function `btc.NewUint256FromString`: `none` is the `nil` it returns
unless the string is 64 hexadecimal digits. -/
def NewUint256FromString (s : List Char) : Option Uint256 :=
  if s.length = 64 then parseHex 0 s else none

/-- The text `fmt.Sprintf(",%v %v %v", i, o.addr, o.val)` of `saveUnspent`. -/
def outputText (e : Nat × tOutput) : List Char :=
  ',' :: (formatUint e.1 ++ ' ' :: (e.2.addr.data ++ ' ' :: formatUint e.2.val))

/-- The record written by `saveUnspent` for the entry `tx, outputs`. -/
def unspentRecord (e : Uint256 × tOutputMap) : List Char :=
  uint256String e.1 ++ ((e.2.map outputText).flatten ++ ['\n'])

/-- Function `saveUnspent`: the text of `unspent.gz`, the records in the order
of the iteration over the unspent map. -/
def saveUnspent (u : tUnspentMap) : List Char := (u.map unspentRecord).flatten

/-- The body of the loop `for _, output := range outputs` of `loadUnspent`. -/
def loadOutput (out : tOutputMap) (output : List Char) : tOutputMap :=
  if (split ' ' output).length = 3 then
    match Atoi ((split ' ' output).getD 0 []) with
    | some index =>
      match ParseUint ((split ' ' output).getD 2 []) with
      | some val =>
        GoMap.set out (index % 65536).toNat ⟨String.mk ((split ' ' output).getD 1 []), val⟩
      | none => out
    | none => out
  else out

/-- The body of the loop of `loadUnspent` for the line `l`; `none` is the
panic on `*btc.NewUint256FromString(tokens[0])` when the function returns
`nil`. -/
def loadUnspentLine (u : tUnspentMap) (l : List Char) : Option tUnspentMap :=
  if (split ',' l).length = 2 then
    match NewUint256FromString ((split ',' l).getD 0 []) with
    | some txID => some (GoMap.set u txID (((split ',' l).drop 1).foldl loadOutput []))
    | none => none
  else some u

/-- The loop of `loadUnspent` over the lines. -/
def loadUnspentLines : tUnspentMap → List (List Char) → Option tUnspentMap
  | u, [] => some u
  | u, l :: ls =>
    match loadUnspentLine u l with
    | some u' => loadUnspentLines u' ls
    | none => none

/-- Function `loadUnspent` on the text of `unspent.gz`, starting from the
unspent map `u`. -/
def loadUnspent (u : tUnspentMap) (text : List Char) : Option tUnspentMap :=
  loadUnspentLines u (scanLines text)

/-- The contract of `sort.Sort` taken for granted: `output` holds the elements
of `input`, and when `less` is a strict weak ordering on them, no element of
`output` is `less` than an earlier one. -/
def StrictWeakOn {α : Type} (less : α → α → Bool) (l : List α) : Prop :=
  (∀ a ∈ l, less a a = false) ∧
  (∀ a ∈ l, ∀ b ∈ l, less a b = true → less b a = false) ∧
  (∀ a ∈ l, ∀ b ∈ l, ∀ c ∈ l, less a b = true → less b c = true → less a c = true) ∧
  (∀ a ∈ l, ∀ b ∈ l, ∀ c ∈ l, less a b = false → less b c = false → less a c = false)

/-- The result `output` of `sort.Sort` on `input` with the method `less`. -/
def SortOutput {α : Type} (less : α → α → Bool) (input output : List α) : Prop :=
  output.Perm input ∧
    (StrictWeakOn less input → output.Pairwise fun a b => less b a = false)

/-! ## Checkpoint discovery: `loadMap`, and `Parse` -/

/-- An entry of the listing of `outDir` (`os.FileInfo`): `IsDir()` and the
bytes of `Name()`. -/
structure FileInfo where
  IsDir : Bool
  Name : List Char
  deriving DecidableEq, Repr

/-- Whether a byte is matched by `\d`: an ASCII decimal digit. -/
def isDigit (c : Char) : Bool := (digitValue c).isSome

/-- The match of `(\d+)\.(\d+)` that starts at the head of `s`, if there is
one: its two groups.  Both `\d+` are greedy, and a shorter first group is
followed by a digit, never by the dot, so the groups are the whole run of
digits before the dot and the whole run after it. -/
def matchHere (s : List Char) : Option (List Char × List Char) :=
  match s.dropWhile isDigit with
  | [] => none
  | c :: rest =>
    if s.takeWhile isDigit ≠ [] ∧ c = '.' ∧ rest.takeWhile isDigit ≠ [] then
      some (s.takeWhile isDigit, rest.takeWhile isDigit)
    else none

/-- The call `r.FindStringSubmatch(f.Name())` for `r` compiled from
`(\d+)\.(\d+)`: the groups `matches[1]`, `matches[2]` of the leftmost match,
which may start anywhere in the name; `none` when there is no match
(`len(matches) == 3` fails). -/
def FindStringSubmatch : List Char → Option (List Char × List Char)
  | [] => none
  | c :: cs =>
    match matchHere (c :: cs) with
    | some g => some g
    | none => FindStringSubmatch cs

/-- The entry of a subdirectory of `outDir` named `N.M`, both numbers in
decimal, for `d = (N, M)`. -/
def checkpointDir (d : Nat × Nat) : FileInfo :=
  ⟨true, formatUint d.1 ++ '.' :: formatUint d.2⟩

/-- The variables of the loop of `loadMap`: `start`, `fi` and `_b.fileNO_`
(`-1` as set by `Parse`). -/
structure tLoadMap where
  start : Int
  fi : Option FileInfo
  fileNO_ : Int
  deriving DecidableEq, Repr

/-- The loop `for _, f := range files` of `loadMap`; `endBlock` is the `uint32`
field `endBlock_`, and `blockNO % 4294967296` is `uint32(blockNO)`. -/
def loadMapLoop (endBlock : Nat) : tLoadMap → List FileInfo → tLoadMap
  | s, [] => s
  | s, f :: fs =>
    if f.IsDir then
      match FindStringSubmatch f.Name with
      | some groups =>
        match Atoi groups.1 with
        | some fileNO =>
          match Atoi groups.2 with
          | some blockNO =>
            if blockNO % 4294967296 < (endBlock : Int) then
              if blockNO > s.start then loadMapLoop endBlock ⟨blockNO, some f, fileNO⟩ fs
              else loadMapLoop endBlock s fs
            else if blockNO % 4294967296 = (endBlock : Int) then ⟨blockNO, some f, fileNO⟩
            else loadMapLoop endBlock s fs
          | none => loadMapLoop endBlock s fs
        | none => loadMapLoop endBlock s fs
      | none => loadMapLoop endBlock s fs
    else loadMapLoop endBlock s fs

/-- Function `loadMap`: the directory whose `unspent.gz` and `balance.gz` are
loaded, `none` when nothing is loaded (`start > 0` fails). -/
def loadMap (endBlock : Nat) (files : List FileInfo) : Option FileInfo :=
  if 0 < (loadMapLoop endBlock ⟨0, none, -1⟩ files).start then
    (loadMapLoop endBlock ⟨0, none, -1⟩ files).fi
  else none

/-- The loop `for i := 0; i < endBlock; i++` of `Parse` over the block
database: the blocks fetched and handed to `loadBlock`, until `FetchNextBlock`
returns nothing or the bound is reached. -/
def fetchLoop : Nat → List Block → List Block
  | 0, _ => []
  | _ + 1, [] => []
  | n + 1, dat :: db => dat :: fetchLoop n db

/-- What `Parse` does with `outDir` and with the block database. -/
structure tParse where
  endBlock_ : Nat
  cleared : Bool
  loaded : List Block
  deriving DecidableEq, Repr

/-- Function `Parse(_blockNO, _dataDir, _outDir)` on the listing `files` of
`_outDir` and the blocks `db` of the database: `_blockNO` is stored in
`endBlock_`; `os.RemoveAll(_outDir)` is called whatever `files` holds and
`loadMap` is not called; the loop runs up to the local
`endBlock := 100 * 10000`. -/
def Parse (_blockNO : Nat) (_files : List FileInfo) (db : List Block) : tParse :=
  { endBlock_ := _blockNO
    cleared := true
    loaded := fetchLoop (100 * 10000) db }

/-! ## Iteration orders of a change set -/

/-- The sum of the changes of a list that concern the address `a`. -/
def sumFor (a : String) : List tBalanceChange → Int
  | [] => 0
  | d :: ds => (if d.addr = a then d.change else 0) + sumFor a ds

/-- The number of changes of a list that concern the address `a`. -/
def countFor (a : String) : List tBalanceChange → Nat
  | [] => 0
  | d :: ds => (if d.addr = a then 1 else 0) + countFor a ds

/-- Two lists hold the same Go map, visited in two orders: their keys are
pairwise distinct and every key has the same value in both. -/
def SameMap {K V : Type} [DecidableEq K] (m m' : List (K × V)) : Prop :=
  GoMap.NodupKeys m ∧ GoMap.NodupKeys m' ∧ ∀ k, GoMap.get m k = GoMap.get m' k

/-- Two lists hold the same map from transaction ids to output maps, the
transactions and the outputs of each transaction being visited in two
orders. -/
def SameOutputs (u u' : List (Uint256 × tOutputMap)) : Prop :=
  GoMap.NodupKeys u ∧ GoMap.NodupKeys u' ∧
    (∀ k, GoMap.get u k = none ↔ GoMap.get u' k = none) ∧
    ∀ k o o', GoMap.get u k = some o → GoMap.get u' k = some o' → SameMap o o'

/-- The change set `c'` is the change set `c` with the entries of
`balanceMap`, the outputs inside each output map and the keys of `spentMap`
visited in another order. -/
def Reordered (c c' : tChangeSet) : Prop :=
  c'.sumOut = c.sumOut ∧ c'.block = c.block ∧
    SameOutputs c.balanceMap c'.balanceMap ∧ SameMap c.spentMap c'.spentMap

/-- Two unspent maps are equal as maps: the same transaction ids are present,
and every output index of a transaction has the same output in both. -/
def EqUnspent (u u' : tUnspentMap) : Prop :=
  (∀ k, GoMap.get u k = none ↔ GoMap.get u' k = none) ∧
    ∀ k o o', GoMap.get u k = some o → GoMap.get u' k = some o' →
      ∀ i, GoMap.get o i = GoMap.get o' i

/-- Every output value held is below `2 ^ 63`, so that `int64(val)` is `val`. -/
def AllBelow (u : List (Uint256 × tOutputMap)) : Prop :=
  ∀ e ∈ u, ∀ o ∈ e.2, o.2.val < 2 ^ 63

/-- The change set `c` with the entries of `balanceMap`, the outputs inside
each output map and the keys of `spentMap` visited in the opposite order. -/
def reversed (c : tChangeSet) : tChangeSet :=
  { c with
    balanceMap := (c.balanceMap.map fun e => (e.1, e.2.reverse)).reverse
    spentMap := c.spentMap.reverse }

/-! ## Example blocks -/

/-- A month function under which every block time falls in January. -/
def january : Nat → Nat := fun _ => 1

/-- A coinbase transaction paying 50 coins to `addrG`. -/
def txA : Tx := ⟨7, true, [⟨0, 4294967295⟩], [⟨5000000000, "addrG"⟩]⟩

/-- A second coinbase transaction paying 50 coins to `addrG`. -/
def txB : Tx := ⟨8, true, [⟨0, 4294967295⟩], [⟨5000000000, "addrG"⟩]⟩

/-- A transaction spending output `0` of `txA`: 10 coins to `addrB`, 40 back
to `addrG`. -/
def txC : Tx := ⟨9, false, [⟨7, 0⟩], [⟨1000000000, "addrB"⟩, ⟨4000000000, "addrG"⟩]⟩

/-- A transaction spending output `0` of `txC`, created in the same block. -/
def txD : Tx := ⟨10, false, [⟨9, 0⟩], [⟨1000000000, "addrC"⟩]⟩

/-- A coinbase transaction whose only output has value `0`. -/
def txZ : Tx := ⟨7, true, [⟨0, 4294967295⟩], [⟨0, "addrZ"⟩]⟩

/-- A transaction spending output `0` of `txZ`; its only output has value `0`. -/
def txY : Tx := ⟨9, false, [⟨7, 0⟩], [⟨0, "addrY"⟩]⟩

/-- A genesis block holding `txA`. -/
def block1 : Block := ⟨101, 0, 0, [txA]⟩

/-- A child of `block1` holding `txB` and `txC`. -/
def block2 : Block := ⟨102, 101, 0, [txB, txC]⟩

/-- A child of `block1` whose coinbase transaction is `txA` again (the same
transaction, hence the same id, as happened on the Bitcoin chain before
BIP30). -/
def block2dup : Block := ⟨102, 101, 0, [txA]⟩

/-- A child of `block1` in which `txD` spends an output of `txC` of the same
block. -/
def block2chain : Block := ⟨102, 101, 0, [txB, txC, txD]⟩

/-- A genesis block whose coinbase transaction `txZ` has only a zero-value
output. -/
def block1zero : Block := ⟨101, 0, 0, [txZ]⟩

/-- A child of `block1zero` in which `txY` spends the zero-value output. -/
def block2zero : Block := ⟨102, 101, 0, [txB, txY]⟩

/-- A transaction spending output `0` of `txB` and output `1` of `txC`. -/
def txF : Tx :=
  ⟨11, false, [⟨8, 0⟩, ⟨9, 1⟩], [⟨3000000000, "addrB"⟩, ⟨6000000000, "addrC"⟩]⟩

/-- A child of `block2` in which `txD` and `txF` spend the outputs of `txB` and
`txC`. -/
def block3 : Block := ⟨103, 102, 0, [txD, txF]⟩

/-- The balances after `block1` and `block2`. -/
def balances2 : tBalanceMap := [("addrG", 9000000000), ("addrB", 1000000000)]

/-! ## Predicates used in the statements -/

/-- The `k` largest balances of a balance map, in descending order (all of
them when the map holds fewer). -/
def largest (k : Nat) (m : tBalanceMap) : List Nat :=
  ((m.map Prod.snd).insertionSort fun a b => b ≤ a).take k

/-- Every balance held in the map is strictly positive. -/
def PositiveBalances (m : tBalanceMap) : Prop := ∀ e ∈ m, 0 < e.2

/-- A balance map as the applier keeps it: keys pairwise distinct and every
balance below `2 ^ 63`, the range in which `int64(balance)` is the balance. -/
def GoodBalances (m : tBalanceMap) : Prop :=
  GoMap.NodupKeys m ∧ ∀ e ∈ m, e.2 < 2 ^ 63

/-- A map from transaction ids to output maps whose keys are pairwise
distinct at both levels and whose values are below `2 ^ 63`, the range in
which `int64(val)` is `val`. -/
def GoodOutputs (u : List (Uint256 × tOutputMap)) : Prop :=
  GoMap.NodupKeys u ∧ ∀ e ∈ u, GoMap.NodupKeys e.2 ∧ ∀ o ∈ e.2, o.2.val < 2 ^ 63

/-- Every change is in the open interval from `-2 ^ 63` to `2 ^ 63`. -/
def InRange (ds : List tBalanceChange) : Prop :=
  ∀ d ∈ ds, -(2 : Int) ^ 63 < d.change ∧ d.change < 2 ^ 63

/-- The sum of the changes of a list. -/
def sumChanges : List tBalanceChange → Int
  | [] => 0
  | d :: ds => d.change + sumChanges ds

/-- Along the application of `cs` from `b`, no change set creates a
transaction id that the unspent map holds at that moment. -/
def FreshRun (monthOf : Nat → Nat) : BalanceParser → List tChangeSet → Prop
  | _, [] => True
  | b, c :: cs =>
    (∀ e ∈ c.balanceMap, GoMap.get b.unspentMap_ e.1 = none) ∧
      FreshRun monthOf (processBlockApply monthOf b c) cs

/-- The change sets `cs` are parent-linked from the hash `p`: the first has
parent hash `p` and each following one has as parent hash the block hash of
the one before it. -/
def Linked : Uint256 → List tChangeSet → Prop
  | _, [] => True
  | p, c :: cs => c.block.ParentHash = p ∧ Linked c.block.Hash cs

/-- The block hash of the last change set of `cs`, and `p` when `cs` is empty. -/
def tipHash : Uint256 → List tChangeSet → Uint256
  | p, [] => p
  | _, c :: cs => tipHash c.block.Hash cs

/-- A linear chain: parent-linked from the zero hash, with block hashes
pairwise distinct and different from the zero hash. -/
def IsChain (cs : List tChangeSet) : Prop :=
  Linked 0 cs ∧ (cs.map fun c => c.block.Hash).Nodup ∧ (0 : Uint256) ∉ cs.map fun c => c.block.Hash

/-- The state `b` with an empty pending buffer. -/
def erasePending (b : BalanceParser) : BalanceParser := { b with prevMap_ := [] }

/-- The change sets held in the pending buffer. -/
def pending (b : BalanceParser) : List tChangeSet := b.prevMap_.map Prod.snd

/-- The invariant of the loop of `processBlock` while the change sets of a
linear chain are delivered in some order: `todo` is the part of the chain not
yet applied, every pending change set is filed under its parent hash and
belongs to `todo`, every change set of `todo` is either pending or still to be
received, what is still to be received belongs to `todo` and holds no
repetition and nothing pending, and applying `todo` to the current state
without its pending buffer gives the state `target`. -/
def ChainInv (monthOf : Nat → Nat) (target : BalanceParser) (b : BalanceParser)
    (ch : List tChangeSet) : Prop :=
  ∃ todo : List tChangeSet,
    Linked b.prev todo ∧
    (todo.map fun c => c.block.ParentHash).Nodup ∧
    (∀ e ∈ b.prevMap_, e.1 = e.2.block.ParentHash ∧ e.2 ∈ todo) ∧
    (∀ c ∈ todo, c ∈ ch ∨ GoMap.get b.prevMap_ c.block.ParentHash = some c) ∧
    (∀ c ∈ ch, c ∈ todo) ∧
    (∀ e ∈ b.prevMap_, e.2 ∉ ch) ∧
    ch.Nodup ∧
    applyAll monthOf (erasePending b) todo = target

/-! ## Lemmas on Go maps -/

namespace GoMap

variable {K V : Type} [DecidableEq K]

theorem get_set_self (m : List (K × V)) (k : K) (v : V) : get (set m k v) k = some v := by
  induction m with
  | nil => simp [set, get]
  | cons e t ih =>
    obtain ⟨k', v'⟩ := e
    by_cases h : k' = k
    · simp [set, get, h]
    · simp [set, get, h, ih]

theorem get_set_ne (m : List (K × V)) (k k' : K) (v : V) (h : k' ≠ k) :
    get (set m k v) k' = get m k' := by
  induction m with
  | nil => simp [set, get, Ne.symm h]
  | cons e t ih =>
    obtain ⟨k₀, v₀⟩ := e
    by_cases h₀ : k₀ = k
    · subst h₀
      simp [set, get, Ne.symm h]
    · by_cases h₁ : k₀ = k'
      · subst h₁
        simp [set, get, h₀]
      · simp [set, get, h₀, h₁, ih]

theorem get_del_self (m : List (K × V)) (k : K) : get (del m k) k = none := by
  induction m with
  | nil => simp [del, get]
  | cons e t ih =>
    obtain ⟨k', v'⟩ := e
    by_cases h : k' = k
    · simp [del, h, ih]
    · simp [del, get, h, ih]

theorem get_del_ne (m : List (K × V)) (k k' : K) (h : k' ≠ k) :
    get (del m k) k' = get m k' := by
  induction m with
  | nil => simp [del, get]
  | cons e t ih =>
    obtain ⟨k₀, v₀⟩ := e
    by_cases h₀ : k₀ = k
    · subst h₀
      simp [del, get, Ne.symm h, ih]
    · by_cases h₁ : k₀ = k'
      · subst h₁
        simp [del, get, h₀]
      · simp [del, get, h₀, h₁, ih]

theorem mem_of_get {m : List (K × V)} {k : K} {v : V} (h : get m k = some v) :
    (k, v) ∈ m := by
  induction m with
  | nil => simp [get] at h
  | cons e t ih =>
    obtain ⟨k', v'⟩ := e
    by_cases h' : k' = k
    · subst h'
      simp [get] at h
      simp [h]
    · simp [get, h'] at h
      exact List.mem_cons_of_mem _ (ih h)

theorem get_eq_none_iff {m : List (K × V)} {k : K} :
    get m k = none ↔ k ∉ m.map Prod.fst := by
  induction m with
  | nil => simp [get]
  | cons e t ih =>
    obtain ⟨k', v'⟩ := e
    by_cases h' : k' = k
    · subst h'
      simp [get]
    · have h'' : ¬ k = k' := fun h => h' h.symm
      simp only [get, h', if_false, ih, List.map_cons, List.mem_cons, h'', false_or]

theorem get_of_mem {m : List (K × V)} {k : K} {v : V} (hn : NodupKeys m)
    (h : (k, v) ∈ m) : get m k = some v := by
  induction m with
  | nil => simp at h
  | cons e t ih =>
    obtain ⟨k', v'⟩ := e
    have hn' : k' ∉ t.map Prod.fst ∧ NodupKeys t := by
      simpa [NodupKeys] using hn
    rcases List.mem_cons.mp h with h | h
    · cases h
      simp [get]
    · have hk : k' ≠ k := by
        rintro rfl
        exact hn'.1 (List.mem_map_of_mem Prod.fst h)
      simp [get, hk, ih hn'.2 h]

theorem mem_set {m : List (K × V)} {k : K} {v : V} {e : K × V} (h : e ∈ set m k v) :
    e = (k, v) ∨ e ∈ m := by
  induction m with
  | nil => simpa [set] using h
  | cons e' t ih =>
    obtain ⟨k', v'⟩ := e'
    by_cases h' : k' = k
    · simp only [set, h', if_true, List.mem_cons] at h
      rcases h with h | h
      · exact Or.inl h
      · exact Or.inr (List.mem_cons_of_mem _ h)
    · simp only [set, h', if_false, List.mem_cons] at h
      rcases h with h | h
      · exact Or.inr (h ▸ List.mem_cons_self _ _)
      · rcases ih h with h | h
        · exact Or.inl h
        · exact Or.inr (List.mem_cons_of_mem _ h)

theorem mem_del {m : List (K × V)} {k : K} {e : K × V} (h : e ∈ del m k) :
    e ∈ m ∧ e.1 ≠ k := by
  induction m with
  | nil => simp [del] at h
  | cons e' t ih =>
    obtain ⟨k', v'⟩ := e'
    by_cases h' : k' = k
    · simp only [del, h', if_true] at h
      exact ⟨List.mem_cons_of_mem _ (ih h).1, (ih h).2⟩
    · simp only [del, h', if_false, List.mem_cons] at h
      rcases h with h | h
      · subst h
        exact ⟨List.mem_cons_self _ _, h'⟩
      · exact ⟨List.mem_cons_of_mem _ (ih h).1, (ih h).2⟩

theorem keys_set_subset {m : List (K × V)} {k : K} {v : V} {x : K}
    (h : x ∈ (set m k v).map Prod.fst) : x = k ∨ x ∈ m.map Prod.fst := by
  obtain ⟨e, he, rfl⟩ := List.mem_map.mp h
  rcases mem_set he with h | h
  · exact Or.inl (by rw [h])
  · exact Or.inr (List.mem_map_of_mem Prod.fst h)

theorem nodupKeys_set {m : List (K × V)} (k : K) (v : V) (hn : NodupKeys m) :
    NodupKeys (set m k v) := by
  induction m with
  | nil => simp [set, NodupKeys]
  | cons e t ih =>
    obtain ⟨k', v'⟩ := e
    have hn' : k' ∉ t.map Prod.fst ∧ NodupKeys t := by
      simpa [NodupKeys] using hn
    by_cases h' : k' = k
    · subst h'
      simpa [set, NodupKeys] using hn
    · have h1 : k' ∉ (set t k v).map Prod.fst := by
        intro hx
        rcases keys_set_subset hx with hx | hx
        · exact h' hx
        · exact hn'.1 hx
      have h2 := ih hn'.2
      simp only [set, h', if_false, NodupKeys, List.map_cons, List.nodup_cons]
      exact ⟨h1, h2⟩

theorem nodupKeys_del {m : List (K × V)} (k : K) (hn : NodupKeys m) :
    NodupKeys (del m k) := by
  induction m with
  | nil => simp [del, NodupKeys]
  | cons e t ih =>
    obtain ⟨k', v'⟩ := e
    have hn' : k' ∉ t.map Prod.fst ∧ NodupKeys t := by
      simpa [NodupKeys] using hn
    by_cases h' : k' = k
    · simpa [del, h'] using ih hn'.2
    · have h1 : k' ∉ (del t k).map Prod.fst := by
        intro hx
        obtain ⟨e, he, hk⟩ := List.mem_map.mp hx
        exact hn'.1 (hk ▸ List.mem_map_of_mem Prod.fst (mem_del he).1)
      simp only [del, h', if_false, NodupKeys, List.map_cons, List.nodup_cons]
      exact ⟨h1, ih hn'.2⟩

theorem del_eq_self {m : List (K × V)} {k : K} (h : get m k = none) : del m k = m := by
  induction m with
  | nil => simp [del]
  | cons e t ih =>
    obtain ⟨k', v'⟩ := e
    by_cases h' : k' = k
    · simp [get, h'] at h
    · simp only [get, h', if_false] at h
      simp [del, h', ih h]

theorem set_eq_self {m : List (K × V)} {k : K} {v : V} (h : get m k = some v) :
    set m k v = m := by
  induction m with
  | nil => simp [get] at h
  | cons e t ih =>
    obtain ⟨k', v'⟩ := e
    by_cases h' : k' = k
    · subst h'
      simp [get] at h
      simp [set, h]
    · simp only [get, h', if_false] at h
      simp [set, h', ih h]

theorem length_del_le (m : List (K × V)) (k : K) : (del m k).length ≤ m.length := by
  induction m with
  | nil => simp [del]
  | cons e t ih =>
    obtain ⟨k', v'⟩ := e
    by_cases h' : k' = k
    · simp only [del, h', if_true, List.length_cons]
      omega
    · simp only [del, h', if_false, List.length_cons]
      omega

theorem length_del_lt {m : List (K × V)} {k : K} {v : V} (h : get m k = some v) :
    (del m k).length < m.length := by
  induction m with
  | nil => simp [get] at h
  | cons e t ih =>
    obtain ⟨k', v'⟩ := e
    by_cases h' : k' = k
    · have := length_del_le t k
      simp only [del, h', if_true, List.length_cons]
      omega
    · simp only [get, h', if_false] at h
      have := ih h
      simp only [del, h', if_false, List.length_cons]
      omega

theorem length_set_le (m : List (K × V)) (k : K) (v : V) :
    (set m k v).length ≤ m.length + 1 := by
  induction m with
  | nil => simp [set]
  | cons e t ih =>
    obtain ⟨k', v'⟩ := e
    by_cases h' : k' = k
    · simp [set, h']
    · simp only [set, h', if_false, List.length_cons]
      omega

/-- Writing `v` under `k` changes the total by `w v` minus the weight of the
entry overwritten. -/
theorem total_set (w : V → Nat) (m : List (K × V)) (k : K) (v : V) :
    total w (set m k v) + ((get m k).map w).getD 0 = total w m + w v := by
  induction m with
  | nil => simp [set, get, total]
  | cons e t ih =>
    obtain ⟨k', v'⟩ := e
    by_cases h' : k' = k
    · simp only [set, get, h', if_true, total, Option.map_some', Option.getD_some]
      omega
    · simp only [set, get, h', if_false, total]
      omega

/-- Deleting `k` from a map lowers the total by the weight of its entry. -/
theorem total_del (w : V → Nat) {m : List (K × V)} (k : K) (hn : NodupKeys m) :
    total w (del m k) + ((get m k).map w).getD 0 = total w m := by
  induction m with
  | nil => simp [del, get, total]
  | cons e t ih =>
    obtain ⟨k', v'⟩ := e
    have hn' : k' ∉ t.map Prod.fst ∧ NodupKeys t := by
      simpa [NodupKeys] using hn
    by_cases h' : k' = k
    · subst h'
      have h1 : get t k' = none := get_eq_none_iff.mpr hn'.1
      simp only [del, get, if_true, total, Option.map_some', Option.getD_some, del_eq_self h1]
      omega
    · have := ih hn'.2
      simp only [del, get, h', if_false, total]
      omega

end GoMap

/-! ## C1: the step of the balance applier -/

/-- C1. One step of `processBalance` on a balance map `m`, an address `a` and a
signed 64-bit change `d`, with `b` the signed balance the code computes
(`int64(m[a]) + d`, which is `m[a] + d` whenever that sum and `m[a]` are in
the `int64` range): if `b > 0` the step yields `m` with `a` mapped to `b` and
every other address unchanged; if `b = 0` it yields `m` without `a` and every
other address unchanged; if `b < 0` the step is fatal. -/
theorem processBalanceStep_spec (m : tBalanceMap) (a : String) (d : Int) :
    (balanceOf m a < 2 ^ 63 → -(2 : Int) ^ 63 ≤ balanceOf m a + d →
        (balanceOf m a : Int) + d < 2 ^ 63 →
        newBalance m ⟨a, d⟩ = balanceOf m a + d) ∧
    (0 < newBalance m ⟨a, d⟩ →
      ∃ m', processBalanceStep m ⟨a, d⟩ = some m' ∧
        GoMap.get m' a = some (newBalance m ⟨a, d⟩).toNat ∧
        ((newBalance m ⟨a, d⟩).toNat : Int) = newBalance m ⟨a, d⟩ ∧
        ∀ a', a' ≠ a → GoMap.get m' a' = GoMap.get m a') ∧
    (newBalance m ⟨a, d⟩ = 0 →
      ∃ m', processBalanceStep m ⟨a, d⟩ = some m' ∧
        GoMap.get m' a = none ∧
        ∀ a', a' ≠ a → GoMap.get m' a' = GoMap.get m a') ∧
    (newBalance m ⟨a, d⟩ < 0 → processBalanceStep m ⟨a, d⟩ = none) := by
  refine ⟨?_, ?_, ?_, ?_⟩
  · intro h1 h2 h3
    have e1 : toInt64 (balanceOf m a : Int) = balanceOf m a := by
      unfold toInt64
      omega
    simp only [newBalance, e1]
    unfold toInt64
    omega
  · intro hb
    refine ⟨GoMap.set m a (newBalance m ⟨a, d⟩).toNat, ?_, ?_, ?_, ?_⟩
    · simp [processBalanceStep, hb]
    · exact GoMap.get_set_self _ _ _
    · exact Int.toNat_of_nonneg (le_of_lt hb)
    · intro a' ha'
      exact GoMap.get_set_ne _ _ _ _ ha'
  · intro hb
    refine ⟨GoMap.del m a, ?_, ?_, ?_⟩
    · simp [processBalanceStep, hb]
    · exact GoMap.get_del_self _ _
    · intro a' ha'
      exact GoMap.get_del_ne _ _ _ ha'
  · intro hb
    have h1 : ¬ (0 < newBalance m ⟨a, d⟩) := not_lt.mpr (le_of_lt hb)
    have h2 : ¬ (newBalance m ⟨a, d⟩ = 0) := ne_of_lt hb
    simp [processBalanceStep, h1, h2]

/-! ## The balance applier -/

theorem processBalance_append (m : tBalanceMap) (l₁ l₂ : List tBalanceChange) :
    processBalance m (l₁ ++ l₂) = (processBalance m l₁).bind fun m₁ => processBalance m₁ l₂ := by
  induction l₁ generalizing m with
  | nil => rfl
  | cons c cs ih =>
    rw [List.cons_append, processBalance.eq_2, processBalance.eq_2]
    cases processBalanceStep m c with
    | none => rfl
    | some m' => exact ih m'

/-- A property kept by every step of the applier holds after the whole loop. -/
theorem processBalance_induction (P : tBalanceMap → Prop)
    (hstep : ∀ m c m', P m → processBalanceStep m c = some m' → P m') :
    ∀ (cs : List tBalanceChange) (m m' : tBalanceMap),
      P m → processBalance m cs = some m' → P m' := by
  intro cs
  induction cs with
  | nil =>
    intro m m' hP h
    simp only [processBalance, Option.some.injEq] at h
    exact h ▸ hP
  | cons c cs ih =>
    intro m m' hP h
    simp only [processBalance] at h
    cases hs : processBalanceStep m c with
    | none => simp [hs] at h
    | some m₁ =>
      simp only [hs] at h
      exact ih m₁ m' (hstep m c m₁ hP hs) h

theorem processBalanceStep_positive (m : tBalanceMap) (c : tBalanceChange) (m' : tBalanceMap)
    (hP : PositiveBalances m) (h : processBalanceStep m c = some m') : PositiveBalances m' := by
  unfold processBalanceStep at h
  split at h
  · rename_i hb
    simp only [Option.some.injEq] at h
    subst h
    intro e he
    rcases GoMap.mem_set he with he | he
    · subst he
      show 0 < (newBalance m c).toNat
      omega
    · exact hP e he
  · split at h
    · simp only [Option.some.injEq] at h
      subst h
      intro e he
      exact hP e (GoMap.mem_del he).1
    · simp at h

/-- C2. In every state the applier reaches from the empty balance map without
a fatal error, every address present maps to a strictly positive amount. -/
theorem processBalance_all_positive (cs : List tBalanceChange) (m : tBalanceMap)
    (h : processBalance [] cs = some m) :
    (∀ a v, GoMap.get m a = some v → 0 < v) ∧ PositiveBalances m := by
  have hP : PositiveBalances m :=
    processBalance_induction PositiveBalances processBalanceStep_positive cs [] m
      (fun e he => by simp at he) h
  exact ⟨fun a v hv => hP (a, v) (GoMap.mem_of_get hv), hP⟩

theorem processBalance_all_positive_witness :
    processBalance [] [⟨"a", 5⟩, ⟨"b", 7⟩, ⟨"a", -5⟩] = some [("b", 7)] ∧
      ((∀ a v, GoMap.get [("b", 7)] a = some v → 0 < v) ∧ PositiveBalances [("b", 7)]) :=
  ⟨by decide, processBalance_all_positive [⟨"a", 5⟩, ⟨"b", 7⟩, ⟨"a", -5⟩] [("b", 7)] (by decide)⟩

theorem processBalanceStep_spec_witness :
    (∃ m', processBalanceStep [("a", 5)] ⟨"a", -3⟩ = some m' ∧
        GoMap.get m' "a" = some (newBalance [("a", 5)] ⟨"a", -3⟩).toNat ∧
        ((newBalance [("a", 5)] ⟨"a", -3⟩).toNat : Int) = newBalance [("a", 5)] ⟨"a", -3⟩ ∧
        ∀ a', a' ≠ "a" → GoMap.get m' a' = GoMap.get [("a", 5)] a') ∧
    newBalance [("a", 5)] ⟨"a", -3⟩ = 2 ∧
    (∃ m', processBalanceStep [("a", 5)] ⟨"a", -5⟩ = some m' ∧
        GoMap.get m' "a" = none ∧
        ∀ a', a' ≠ "a" → GoMap.get m' a' = GoMap.get [("a", 5)] a') ∧
    processBalanceStep [("a", 5)] ⟨"a", -6⟩ = none :=
  ⟨(processBalanceStep_spec [("a", 5)] "a" (-3)).2.1 (by decide),
    (processBalanceStep_spec [("a", 5)] "a" (-3)).1 (by decide) (by decide) (by decide),
    (processBalanceStep_spec [("a", 5)] "a" (-5)).2.2.1 (by decide),
    (processBalanceStep_spec [("a", 5)] "a" (-6)).2.2.2 (by decide)⟩

theorem processBalanceStep_good (m : tBalanceMap) (c : tBalanceChange) (m' : tBalanceMap)
    (hm : GoodBalances m) (hlo : -(2 : Int) ^ 63 < c.change) (hhi : c.change < 2 ^ 63)
    (h : processBalanceStep m c = some m') :
    GoodBalances m' ∧ (sumBalance m' : Int) = sumBalance m + c.change := by
  have hg : balanceOf m c.addr < 2 ^ 63 := by
    unfold balanceOf
    cases hget : GoMap.get m c.addr with
    | none => simp
    | some v => simpa using hm.2 _ (GoMap.mem_of_get hget)
  have hbal : balanceOf m c.addr = ((GoMap.get m c.addr).map fun v => v).getD 0 := by
    simp [balanceOf]
  have e1 : toInt64 (balanceOf m c.addr : Int) = balanceOf m c.addr := by
    unfold toInt64
    omega
  have hnb : newBalance m c = toInt64 ((balanceOf m c.addr : Int) + c.change) := by
    simp only [newBalance, e1]
  unfold processBalanceStep at h
  split at h
  · rename_i hb
    simp only [Option.some.injEq] at h
    subst h
    have hval : newBalance m c = balanceOf m c.addr + c.change := by
      rw [hnb] at hb ⊢
      unfold toInt64 at hb ⊢
      omega
    have hlt : (newBalance m c).toNat < 2 ^ 63 := by
      rw [hnb]
      unfold toInt64
      omega
    refine ⟨⟨GoMap.nodupKeys_set _ _ hm.1, ?_⟩, ?_⟩
    · intro e he
      rcases GoMap.mem_set he with he | he
      · subst he
        exact hlt
      · exact hm.2 e he
    · have ht := GoMap.total_set (fun v : Nat => v) m c.addr (newBalance m c).toNat
      rw [← hbal] at ht
      unfold sumBalance
      omega
  · split at h
    · rename_i hb0
      simp only [Option.some.injEq] at h
      subst h
      have hval : (balanceOf m c.addr : Int) + c.change = 0 := by
        rw [hnb] at hb0
        unfold toInt64 at hb0
        omega
      refine ⟨⟨GoMap.nodupKeys_del _ hm.1, fun e he => hm.2 e (GoMap.mem_del he).1⟩, ?_⟩
      have ht := GoMap.total_del (fun v : Nat => v) c.addr hm.1
      rw [← hbal] at ht
      unfold sumBalance
      omega
    · simp at h

theorem processBalance_good (ds : List tBalanceChange) :
    ∀ (m m' : tBalanceMap), GoodBalances m → InRange ds → processBalance m ds = some m' →
      GoodBalances m' ∧ (sumBalance m' : Int) = sumBalance m + sumChanges ds := by
  induction ds with
  | nil =>
    intro m m' hm _ h
    simp only [processBalance, Option.some.injEq] at h
    subst h
    exact ⟨hm, by simp [sumChanges]⟩
  | cons d ds ih =>
    intro m m' hm hr h
    simp only [processBalance] at h
    cases hs : processBalanceStep m d with
    | none => simp [hs] at h
    | some m₁ =>
      simp only [hs] at h
      have hd := hr d (List.mem_cons_self _ _)
      have h1 := processBalanceStep_good m d m₁ hm hd.1 hd.2 hs
      have h2 := ih m₁ m' h1.1 (fun x hx => hr x (List.mem_cons_of_mem _ hx)) h
      refine ⟨h2.1, ?_⟩
      simp only [sumChanges]
      omega

/-! ## Credits and debits of one change set -/

theorem toInt64_of_lt (v : Nat) (h : v < 2 ^ 63) : toInt64 (v : Int) = v := by
  unfold toInt64
  omega

theorem toInt64_neg_of_lt (v : Nat) (h : v < 2 ^ 63) : toInt64 (-toInt64 (v : Int)) = -(v : Int) := by
  rw [toInt64_of_lt v h]
  unfold toInt64
  omega

theorem sumChanges_append (l₁ l₂ : List tBalanceChange) :
    sumChanges (l₁ ++ l₂) = sumChanges l₁ + sumChanges l₂ := by
  induction l₁ with
  | nil => simp [sumChanges]
  | cons d ds ih =>
    show d.change + sumChanges (ds ++ l₂) = d.change + sumChanges ds + sumChanges l₂
    rw [ih]
    omega

theorem inRange_append {l₁ l₂ : List tBalanceChange} (h₁ : InRange l₁) (h₂ : InRange l₂) :
    InRange (l₁ ++ l₂) := by
  intro d hd
  rcases List.mem_append.mp hd with hd | hd
  · exact h₁ d hd
  · exact h₂ d hd

theorem creditOutputs_good (outs : tOutputMap) (h : ∀ o ∈ outs, o.2.val < 2 ^ 63) :
    sumChanges (creditOutputs outs) = sumOutputs outs ∧ InRange (creditOutputs outs) := by
  induction outs with
  | nil =>
    refine ⟨by simp [creditOutputs, sumChanges, sumOutputs, GoMap.total], ?_⟩
    intro d hd
    simp [creditOutputs] at hd
  | cons e t ih =>
    obtain ⟨i, o⟩ := e
    have ho : o.val < 2 ^ 63 := h (i, o) (List.mem_cons_self _ _)
    have ih' := ih (fun x hx => h x (List.mem_cons_of_mem _ hx))
    have hc : creditOutputs ((i, o) :: t) = ⟨o.addr, toInt64 o.val⟩ :: creditOutputs t := by
      simp [creditOutputs]
    have hs : sumOutputs ((i, o) :: t) = o.val + sumOutputs t := by
      simp [sumOutputs, GoMap.total]
    rw [hc, hs]
    refine ⟨?_, ?_⟩
    · simp only [sumChanges, toInt64_of_lt o.val ho, ih'.1]
      push_cast
      rfl
    · intro d hd
      rcases List.mem_cons.mp hd with hd | hd
      · subst hd
        simp only [toInt64_of_lt o.val ho]
        omega
      · exact ih'.2 d hd

theorem debitOutputs_good (idxs : List Nat) :
    ∀ outs : tOutputMap, GoMap.NodupKeys outs → (∀ o ∈ outs, o.2.val < 2 ^ 63) →
      GoMap.NodupKeys (debitOutputs outs idxs).1 ∧
      (∀ o ∈ (debitOutputs outs idxs).1, o ∈ outs) ∧
      (sumOutputs (debitOutputs outs idxs).1 : Int) =
        sumOutputs outs + sumChanges (debitOutputs outs idxs).2 ∧
      InRange (debitOutputs outs idxs).2 := by
  induction idxs with
  | nil =>
    intro outs hn _
    refine ⟨hn, fun o ho => ho, by simp [debitOutputs, sumChanges], ?_⟩
    intro d hd
    simp [debitOutputs] at hd
  | cons i is ih =>
    intro outs hn hv
    cases hget : GoMap.get outs i with
    | none =>
      have hd : debitOutputs outs (i :: is) = debitOutputs outs is := by
        simp only [debitOutputs, hget]
      rw [hd]
      exact ih outs hn hv
    | some output =>
      have hd : debitOutputs outs (i :: is) =
          ((debitOutputs (GoMap.del outs i) is).1,
            ⟨output.addr, toInt64 (-toInt64 output.val)⟩ ::
              (debitOutputs (GoMap.del outs i) is).2) := by
        simp only [debitOutputs, hget]
      have hval : output.val < 2 ^ 63 := hv (i, output) (GoMap.mem_of_get hget)
      have ih' := ih (GoMap.del outs i) (GoMap.nodupKeys_del i hn)
        (fun o ho => hv o (GoMap.mem_del ho).1)
      have ht := GoMap.total_del (fun o : tOutput => o.val) i hn
      simp only [hget, Option.map_some', Option.getD_some] at ht
      rw [hd]
      refine ⟨ih'.1, fun o ho => (GoMap.mem_del (ih'.2.1 o ho)).1, ?_, ?_⟩
      · have h3 := ih'.2.2.1
        simp only [sumChanges, toInt64_neg_of_lt output.val hval]
        unfold sumOutputs at h3 ⊢
        omega
      · intro d hd'
        rcases List.mem_cons.mp hd' with hd' | hd'
        · subst hd'
          simp only [toInt64_neg_of_lt output.val hval]
          omega
        · exact ih'.2.2.2 d hd'

theorem debitTx_good (u : tUnspentMap) (txID : Uint256) (spent : List Nat) (hu : GoodOutputs u) :
    GoodOutputs (debitTx u txID spent).1 ∧
    (sumUnspent (debitTx u txID spent).1 : Int) =
      sumUnspent u + sumChanges (debitTx u txID spent).2 ∧
    InRange (debitTx u txID spent).2 := by
  cases hget : GoMap.get u txID with
  | none =>
    have hd : debitTx u txID spent = (u, []) := by
      simp only [debitTx, hget]
    rw [hd]
    refine ⟨hu, by simp [sumChanges], ?_⟩
    intro d hd'
    simp at hd'
  | some unspent =>
    have hmem := GoMap.mem_of_get hget
    have hgo := hu.2 (txID, unspent) hmem
    have h := debitOutputs_good spent unspent hgo.1 hgo.2
    have hd : debitTx u txID spent =
        (if (debitOutputs unspent spent).1.length = 0 then GoMap.del u txID
          else GoMap.set u txID (debitOutputs unspent spent).1,
          (debitOutputs unspent spent).2) := by
      simp only [debitTx, hget]
    rw [hd]
    refine ⟨?_, ?_, h.2.2.2⟩
    · by_cases hl : (debitOutputs unspent spent).1.length = 0
      · simp only [hl, if_true]
        exact ⟨GoMap.nodupKeys_del _ hu.1, fun e he => hu.2 e (GoMap.mem_del he).1⟩
      · simp only [hl, if_false]
        refine ⟨GoMap.nodupKeys_set _ _ hu.1, ?_⟩
        intro e he
        rcases GoMap.mem_set he with he | he
        · subst he
          exact ⟨h.1, fun o ho => hgo.2 o (h.2.1 o ho)⟩
        · exact hu.2 e he
    · have h3 := h.2.2.1
      by_cases hl : (debitOutputs unspent spent).1.length = 0
      · have hnil : (debitOutputs unspent spent).1 = [] := List.length_eq_zero.mp hl
        have ht := GoMap.total_del sumOutputs txID hu.1
        simp only [hget, Option.map_some', Option.getD_some] at ht
        have h0 : sumOutputs ([] : tOutputMap) = 0 := rfl
        rw [hnil, h0] at h3
        simp only [hl, if_true]
        unfold sumUnspent
        omega
      · have ht := GoMap.total_set sumOutputs u txID (debitOutputs unspent spent).1
        simp only [hget, Option.map_some', Option.getD_some] at ht
        simp only [hl, if_false]
        unfold sumUnspent
        omega

theorem debitPhase_good (sm : List (Uint256 × List Nat)) :
    ∀ u : tUnspentMap, GoodOutputs u →
      GoodOutputs (debitPhase u sm).1 ∧
      (sumUnspent (debitPhase u sm).1 : Int) = sumUnspent u + sumChanges (debitPhase u sm).2 ∧
      InRange (debitPhase u sm).2 := by
  induction sm with
  | nil =>
    intro u hu
    refine ⟨hu, by simp [debitPhase, sumChanges], ?_⟩
    intro d hd
    simp [debitPhase] at hd
  | cons e rest ih =>
    intro u hu
    obtain ⟨txID, spent⟩ := e
    have h1 := debitTx_good u txID spent hu
    have h2 := ih (debitTx u txID spent).1 h1.1
    simp only [debitPhase]
    refine ⟨h2.1, ?_, inRange_append h1.2.2 h2.2.2⟩
    rw [sumChanges_append]
    omega

theorem creditPhase_good (cm : List (Uint256 × tOutputMap)) :
    ∀ u : tUnspentMap, GoodOutputs u → GoodOutputs cm →
      (∀ e ∈ cm, GoMap.get u e.1 = none) →
      GoodOutputs (creditPhase u cm).1 ∧
      (sumUnspent (creditPhase u cm).1 : Int) = sumUnspent u + sumChanges (creditPhase u cm).2 ∧
      InRange (creditPhase u cm).2 := by
  induction cm with
  | nil =>
    intro u hu _ _
    refine ⟨hu, by simp [creditPhase, sumChanges], ?_⟩
    intro d hd
    simp [creditPhase] at hd
  | cons e rest ih =>
    intro u hu hc hfresh
    obtain ⟨txID, outputs⟩ := e
    have hn : txID ∉ rest.map Prod.fst ∧ GoMap.NodupKeys rest := by
      simpa [GoMap.NodupKeys] using hc.1
    have ho := hc.2 (txID, outputs) (List.mem_cons_self _ _)
    have hu1 : GoodOutputs (GoMap.set u txID outputs) := by
      refine ⟨GoMap.nodupKeys_set _ _ hu.1, ?_⟩
      intro x hx
      rcases GoMap.mem_set hx with hx | hx
      · subst hx
        exact ho
      · exact hu.2 x hx
    have hrest : GoodOutputs rest :=
      ⟨hn.2, fun x hx => hc.2 x (List.mem_cons_of_mem _ hx)⟩
    have hfresh1 : ∀ x ∈ rest, GoMap.get (GoMap.set u txID outputs) x.1 = none := by
      intro x hx
      have hne : x.1 ≠ txID := by
        intro hxe
        exact hn.1 (hxe ▸ List.mem_map_of_mem Prod.fst hx)
      rw [GoMap.get_set_ne _ _ _ _ hne]
      exact hfresh x (List.mem_cons_of_mem _ hx)
    have h2 := ih (GoMap.set u txID outputs) hu1 hrest hfresh1
    have hcr := creditOutputs_good outputs ho.2
    have ht := GoMap.total_set sumOutputs u txID outputs
    have hnone : GoMap.get u txID = none := hfresh (txID, outputs) (List.mem_cons_self _ _)
    simp only [hnone, Option.map_none', Option.getD_none] at ht
    simp only [creditPhase]
    refine ⟨h2.1, ?_, inRange_append hcr.2 h2.2.2⟩
    rw [sumChanges_append, hcr.1]
    have h3 := h2.2.1
    unfold sumUnspent at h3 ⊢
    omega

/-! ## The loader builds good maps -/

theorem loadOutputs_good (outs : List TxOut) (h : ∀ o ∈ outs, o.Value < 2 ^ 63) :
    ∀ (m : tOutputMap) (i : Nat), GoMap.NodupKeys m → (∀ e ∈ m, e.2.val < 2 ^ 63) →
      GoMap.NodupKeys (loadOutputs m i outs) ∧ ∀ e ∈ loadOutputs m i outs, e.2.val < 2 ^ 63 := by
  induction outs with
  | nil =>
    intro m i hn hv
    exact ⟨hn, hv⟩
  | cons o os ih =>
    intro m i hn hv
    have ih' := ih (fun x hx => h x (List.mem_cons_of_mem _ hx))
    by_cases h0 : o.Value = 0
    · simp only [loadOutputs, h0, if_true]
      exact ih' m (i + 1) hn hv
    · simp only [loadOutputs, h0, if_false]
      refine ih' _ (i + 1) (GoMap.nodupKeys_set _ _ hn) ?_
      intro e he
      rcases GoMap.mem_set he with he | he
      · subst he
        exact h o (List.mem_cons_self _ _)
      · exact hv e he

theorem foldl_loadTx_good (txs : List Tx)
    (h : ∀ t ∈ txs, ∀ o ∈ t.TxOut, o.Value < 2 ^ 63) :
    ∀ c : tChangeSet, GoodOutputs c.balanceMap → GoodOutputs (txs.foldl loadTx c).balanceMap := by
  induction txs with
  | nil =>
    intro c hc
    exact hc
  | cons t ts ih =>
    intro c hc
    refine ih (fun x hx => h x (List.mem_cons_of_mem _ hx)) (loadTx c t) ?_
    refine ⟨GoMap.nodupKeys_set _ _ hc.1, ?_⟩
    intro e he
    rcases GoMap.mem_set he with he | he
    · subst he
      exact loadOutputs_good t.TxOut (h t (List.mem_cons_self _ _)) [] 0
        (by simp [GoMap.NodupKeys]) (fun e he => by simp at he)
    · exact hc.2 e he

theorem loadBlock_good (bl : Block) (h : ∀ t ∈ bl.Txs, ∀ o ∈ t.TxOut, o.Value < 2 ^ 63) :
    GoodOutputs (loadBlock bl).balanceMap :=
  foldl_loadTx_good bl.Txs h ⟨0, [], [], bl⟩
    ⟨by simp [GoMap.NodupKeys], fun e he => by simp at he⟩

/-! ## The stream sent by the sequencer -/

theorem changes_append (l₁ l₂ : List tEvent) : changes (l₁ ++ l₂) = changes l₁ ++ changes l₂ := by
  induction l₁ with
  | nil => rfl
  | cons e es ih =>
    cases e with
    | change c =>
      show c :: changes (es ++ l₂) = c :: changes es ++ changes l₂
      rw [ih]
      rfl
    | report t r f =>
      show changes (es ++ l₂) = changes es ++ changes l₂
      exact ih

theorem changes_map_change (ds : List tBalanceChange) : changes (ds.map tEvent.change) = ds := by
  induction ds with
  | nil => rfl
  | cons d ds ih =>
    show d :: changes (ds.map tEvent.change) = d :: ds
    rw [ih]

theorem changes_applyEvents (monthOf : Nat → Nat) (b : BalanceParser) (c : tChangeSet) :
    changes (applyEvents monthOf b c) =
      (creditPhase b.unspentMap_ c.balanceMap).2 ++
        (debitPhase (creditPhase b.unspentMap_ c.balanceMap).1 c.spentMap).2 := by
  unfold applyEvents
  rw [changes_append, changes_map_change]
  by_cases h : monthOf c.block.BlockTime ≠ b.lastMonth
  · rw [if_pos h]
    rfl
  · rw [if_neg h]
    rfl

theorem applyAll_out (monthOf : Nat → Nat) (cs : List tChangeSet) :
    ∀ b : BalanceParser, ∃ ext, (applyAll monthOf b cs).out = b.out ++ ext := by
  induction cs with
  | nil =>
    intro b
    exact ⟨[], by simp [applyAll]⟩
  | cons c cs ih =>
    intro b
    obtain ⟨ext, he⟩ := ih (processBlockApply monthOf b c)
    refine ⟨applyEvents monthOf b c ++ ext, ?_⟩
    have : applyAll monthOf b (c :: cs) = applyAll monthOf (processBlockApply monthOf b c) cs := rfl
    rw [this, he]
    simp [processBlockApply]

/-- One application keeps the unspent map good and moves its total by the sum
of the changes sent. -/
theorem processBlockApply_good (monthOf : Nat → Nat) (b : BalanceParser) (c : tChangeSet)
    (hu : GoodOutputs b.unspentMap_) (hc : GoodOutputs c.balanceMap)
    (hfresh : ∀ e ∈ c.balanceMap, GoMap.get b.unspentMap_ e.1 = none) :
    GoodOutputs (processBlockApply monthOf b c).unspentMap_ ∧
    (sumUnspent (processBlockApply monthOf b c).unspentMap_ : Int) =
      sumUnspent b.unspentMap_ + sumChanges (changes (applyEvents monthOf b c)) ∧
    InRange (changes (applyEvents monthOf b c)) := by
  have h1 := creditPhase_good c.balanceMap b.unspentMap_ hu hc hfresh
  have h2 := debitPhase_good c.spentMap (creditPhase b.unspentMap_ c.balanceMap).1 h1.1
  rw [changes_applyEvents]
  refine ⟨h2.1, ?_, inRange_append h1.2.2 h2.2.2⟩
  rw [sumChanges_append]
  have h3 := h1.2.1
  have h4 := h2.2.1
  show (sumUnspent (debitPhase (creditPhase b.unspentMap_ c.balanceMap).1 c.spentMap).1 : Int) = _
  omega

theorem applyAll_sum (monthOf : Nat → Nat) (cs : List tChangeSet) :
    ∀ (b : BalanceParser) (m₀ m : tBalanceMap),
      GoodOutputs b.unspentMap_ → GoodBalances m₀ →
      processBalance [] (changes b.out) = some m₀ →
      sumBalance m₀ = sumUnspent b.unspentMap_ →
      (∀ c ∈ cs, GoodOutputs c.balanceMap) → FreshRun monthOf b cs →
      processBalance [] (changes (applyAll monthOf b cs).out) = some m →
      sumBalance m = sumUnspent (applyAll monthOf b cs).unspentMap_ := by
  induction cs with
  | nil =>
    intro b m₀ m _ _ h0 hs _ _ h
    have : applyAll monthOf b [] = b := rfl
    rw [this] at h ⊢
    rw [h0] at h
    cases h
    exact hs
  | cons c cs ih =>
    intro b m₀ m hu hm h0 hs hc hf h
    have hstep : applyAll monthOf b (c :: cs) = applyAll monthOf (processBlockApply monthOf b c) cs :=
      rfl
    rw [hstep] at h ⊢
    obtain ⟨ext, he⟩ := applyAll_out monthOf cs (processBlockApply monthOf b c)
    have hout : (processBlockApply monthOf b c).out = b.out ++ applyEvents monthOf b c := rfl
    rw [he, changes_append, processBalance_append] at h
    cases h1 : processBalance [] (changes (processBlockApply monthOf b c).out) with
    | none => simp [h1] at h
    | some m₁ =>
      have h1' := h1
      rw [hout, changes_append, processBalance_append, h0] at h1'
      simp only [Option.some_bind] at h1'
      have hg := processBlockApply_good monthOf b c hu (hc c (List.mem_cons_self _ _)) hf.1
      have hb := processBalance_good _ m₀ m₁ hm hg.2.2 h1'
      have hsum : sumBalance m₁ = sumUnspent (processBlockApply monthOf b c).unspentMap_ := by
        have h3 := hg.2.1
        have h4 := hb.2
        omega
      refine ih (processBlockApply monthOf b c) m₁ m hg.1 hb.1 h1 hsum
        (fun x hx => hc x (List.mem_cons_of_mem _ hx)) hf.2 ?_
      rw [he, changes_append, processBalance_append]
      exact h

/-! ## C3: balances against unspent outputs -/

/-- C3, amended.  After the sequencer has applied, from the empty indexes, any
sequence of change sets produced by the loader from blocks whose output values
are below `2 ^ 63`, none of which creates a transaction id that the unspent
map still holds when it is applied, and the applier has consumed all the
changes sent without a fatal error, the sum of the balances equals the sum of
the values of the unspent outputs. -/
theorem sum_balance_eq_sum_unspent (monthOf : Nat → Nat) (blocks : List Block)
    (m : tBalanceMap)
    (hval : ∀ bl ∈ blocks, ∀ t ∈ bl.Txs, ∀ o ∈ t.TxOut, o.Value < 2 ^ 63)
    (hfresh : FreshRun monthOf initial (blocks.map loadBlock))
    (hA : processBalance []
      (changes (applyAll monthOf initial (blocks.map loadBlock)).out) = some m) :
    sumBalance m = sumUnspent (applyAll monthOf initial (blocks.map loadBlock)).unspentMap_ := by
  refine applyAll_sum monthOf (blocks.map loadBlock) initial [] m ?_ ?_ rfl rfl ?_ hfresh hA
  · exact ⟨by simp [initial, GoMap.NodupKeys], fun e he => by simp [initial] at he⟩
  · exact ⟨by simp [GoMap.NodupKeys], fun e he => by simp at he⟩
  · intro c hc
    obtain ⟨bl, hbl, rfl⟩ := List.mem_map.mp hc
    exact loadBlock_good bl (hval bl hbl)

theorem sum_balance_eq_sum_unspent_witness :
    sumBalance [("addrG", 9000000000), ("addrB", 1000000000)] =
      sumUnspent (applyAll january initial ([block1, block2].map loadBlock)).unspentMap_ :=
  sum_balance_eq_sum_unspent january [block1, block2]
    [("addrG", 9000000000), ("addrB", 1000000000)] (by decide)
    ⟨by decide, by decide, trivial⟩ (by decide)

/-- C3 fails as stated: when a block repeats the coinbase transaction of an
earlier block, the second credit is applied but the unspent map keeps a single
entry, so after the two blocks the balances sum to 100 coins and the unspent
outputs to 50. -/
theorem sum_balance_ne_sum_unspent_duplicate_txid :
    (processBlock january [loadBlock block1, loadBlock block2dup]).map
        (fun st => (st.applied, st.unspentMap_, processBalance [] (changes st.out))) =
      some ([loadBlock block1, loadBlock block2dup],
        [(7, [(0, ⟨"addrG", 5000000000⟩)])], some [("addrG", 10000000000)]) ∧
    sumBalance [("addrG", 10000000000)] ≠ sumUnspent [(7, [(0, ⟨"addrG", 5000000000⟩)])] := by
  constructor
  · rfl
  · decide

/-! ## C4: empty output maps -/

/-- C4 (code defect).  For a block whose only transaction has a single output of
value `0`, the loader produces the entry `7 ↦ {}` in `balanceMap`, and the
sequencer stores it: the unspent map then holds a transaction id with an empty
output map. -/
theorem zero_value_tx_leaves_empty_output_map :
    (loadBlock block1zero).balanceMap = [(7, [])] ∧
    (processBlock january [loadBlock block1zero]).map (fun st => st.unspentMap_) =
      some [(7, [])] := by
  constructor
  · decide
  · decide

/-! ## The loop of the sequencer -/

/-- A loop invariant rule for `processBlock`: with enough fuel the loop ends,
and a property kept by both branches holds at the end, where the channel is
closed and nothing is pending under `prev`. -/
theorem processBlockLoop_rule (monthOf : Nat → Nat) (P : BalanceParser → List tChangeSet → Prop)
    (hApply : ∀ b ch c, P b ch → GoMap.get b.prevMap_ b.prev = some c →
      P (processBlockApply monthOf b c) ch)
    (hRecv : ∀ b c ch, P b (c :: ch) → GoMap.get b.prevMap_ b.prev = none →
      P (processBlockRecv b c) ch) :
    ∀ (fuel : Nat) (b : BalanceParser) (ch : List tChangeSet), P b ch →
      2 * ch.length + b.prevMap_.length + 1 ≤ fuel →
      ∃ st, processBlockLoop monthOf fuel b ch = some st ∧ P st [] ∧
        GoMap.get st.prevMap_ st.prev = none := by
  intro fuel
  induction fuel with
  | zero =>
    intro b ch _ hf
    omega
  | succ fuel ih =>
    intro b ch hP hf
    cases hget : GoMap.get b.prevMap_ b.prev with
    | some c =>
      have hl := GoMap.length_del_lt hget
      have hstep : processBlockLoop monthOf (fuel + 1) b ch =
          processBlockLoop monthOf fuel (processBlockApply monthOf b c) ch := by
        simp only [processBlockLoop, hget]
      rw [hstep]
      refine ih _ ch (hApply b ch c hP hget) ?_
      show 2 * ch.length + (GoMap.del b.prevMap_ b.prev).length + 1 ≤ fuel
      omega
    | none =>
      cases ch with
      | nil =>
        refine ⟨b, ?_, hP, hget⟩
        simp only [processBlockLoop, hget]
      | cons c rest =>
        have hl := GoMap.length_set_le b.prevMap_ c.block.ParentHash c
        have hstep : processBlockLoop monthOf (fuel + 1) b (c :: rest) =
            processBlockLoop monthOf fuel (processBlockRecv b c) rest := by
          simp only [processBlockLoop, hget]
        rw [hstep]
        refine ih _ rest (hRecv b c rest hP hget) ?_
        show 2 * rest.length + (GoMap.set b.prevMap_ c.block.ParentHash c).length + 1 ≤ fuel
        simp only [List.length_cons] at hf
        omega

/-- The rule for `processBlock` itself. -/
theorem processBlock_rule (monthOf : Nat → Nat) (P : BalanceParser → List tChangeSet → Prop)
    (hApply : ∀ b ch c, P b ch → GoMap.get b.prevMap_ b.prev = some c →
      P (processBlockApply monthOf b c) ch)
    (hRecv : ∀ b c ch, P b (c :: ch) → GoMap.get b.prevMap_ b.prev = none →
      P (processBlockRecv b c) ch)
    (ch : List tChangeSet) (hinit : P initial ch) :
    ∃ st, processBlock monthOf ch = some st ∧ P st [] ∧
      GoMap.get st.prevMap_ st.prev = none :=
  processBlockLoop_rule monthOf P hApply hRecv (2 * ch.length + 1) initial ch hinit
    (by simp [initial])

theorem linked_append (cs : List tChangeSet) (c : tChangeSet) :
    ∀ p, Linked p cs → c.block.ParentHash = tipHash p cs → Linked p (cs ++ [c]) := by
  induction cs with
  | nil =>
    intro p _ h
    exact ⟨h, trivial⟩
  | cons x xs ih =>
    intro p hl h
    exact ⟨hl.1, ih x.block.Hash hl.2 h⟩

theorem tipHash_append (cs : List tChangeSet) (c : tChangeSet) :
    ∀ p, tipHash p (cs ++ [c]) = c.block.Hash := by
  induction cs with
  | nil =>
    intro p
    rfl
  | cons x xs ih =>
    intro p
    exact ih x.block.Hash

/-! ## C5: parent-linked application order -/

/-- C5. Whatever change sets are delivered, in whatever order, `processBlock`
ends and the sequence of change sets it has applied is parent-linked from the
zero hash: the first has the zero hash as parent hash and each following one has
as parent hash the block hash of the one applied just before it. -/
theorem processBlock_applies_parent_linked (monthOf : Nat → Nat) (ch : List tChangeSet) :
    ∃ st, processBlock monthOf ch = some st ∧ Linked 0 st.applied := by
  obtain ⟨st, hst, hP, _⟩ := processBlock_rule monthOf
    (fun b _ => Linked 0 b.applied ∧ b.prev = tipHash 0 b.applied ∧
      ∀ e ∈ b.prevMap_, e.1 = e.2.block.ParentHash)
    (by
      intro b ch c hP hget
      have hmem := hP.2.2 _ (GoMap.mem_of_get hget)
      refine ⟨linked_append b.applied c 0 hP.1 ?_, (tipHash_append b.applied c 0).symm, ?_⟩
      · rw [← hP.2.1]
        exact hmem.symm
      · intro e he
        exact hP.2.2 e (GoMap.mem_del he).1)
    (by
      intro b c ch hP _
      refine ⟨hP.1, hP.2.1, ?_⟩
      intro e he
      rcases GoMap.mem_set he with he | he
      · rw [he]
      · exact hP.2.2 e he)
    ch ⟨trivial, rfl, fun e he => by simp [initial] at he⟩
  exact ⟨st, hst, hP.1⟩

/-! ## Delivery of a linear chain in any order -/

theorem erasePending_apply (monthOf : Nat → Nat) (b : BalanceParser) (c : tChangeSet) :
    erasePending (processBlockApply monthOf b c) =
      processBlockApply monthOf (erasePending b) c := rfl

theorem applyAll_applied (monthOf : Nat → Nat) (cs : List tChangeSet) :
    ∀ b : BalanceParser, (applyAll monthOf b cs).applied = b.applied ++ cs := by
  induction cs with
  | nil =>
    intro b
    simp [applyAll]
  | cons c cs ih =>
    intro b
    have h : applyAll monthOf b (c :: cs) = applyAll monthOf (processBlockApply monthOf b c) cs :=
      rfl
    rw [h, ih]
    simp [processBlockApply]

theorem applyAll_prevMap (monthOf : Nat → Nat) (cs : List tChangeSet) :
    ∀ b : BalanceParser, b.prevMap_ = [] → (applyAll monthOf b cs).prevMap_ = [] := by
  induction cs with
  | nil =>
    intro b hb
    exact hb
  | cons c cs ih =>
    intro b hb
    have h : applyAll monthOf b (c :: cs) = applyAll monthOf (processBlockApply monthOf b c) cs :=
      rfl
    rw [h]
    refine ih _ ?_
    show GoMap.del b.prevMap_ b.prev = []
    rw [hb]
    rfl

theorem parents_subset (cs : List tChangeSet) :
    ∀ p, Linked p cs → ∀ x ∈ cs.map (fun c => c.block.ParentHash),
      x = p ∨ x ∈ cs.map (fun c => c.block.Hash) := by
  induction cs with
  | nil =>
    intro p _ x hx
    simp at hx
  | cons c t ih =>
    intro p hl x hx
    simp only [List.map_cons, List.mem_cons] at hx
    rcases hx with hx | hx
    · exact Or.inl (hx.trans hl.1)
    · rcases ih c.block.Hash hl.2 x hx with h | h
      · exact Or.inr (h ▸ List.mem_cons_self _ _)
      · exact Or.inr (List.mem_cons_of_mem _ h)

theorem parents_nodup (cs : List tChangeSet) :
    ∀ p, Linked p cs → (cs.map fun c => c.block.Hash).Nodup →
      p ∉ cs.map (fun c => c.block.Hash) →
      (cs.map fun c => c.block.ParentHash).Nodup := by
  induction cs with
  | nil =>
    intro p _ _ _
    simp
  | cons c t ih =>
    intro p hl hn hp
    simp only [List.map_cons, List.nodup_cons] at hn
    simp only [List.map_cons, List.mem_cons, not_or] at hp
    simp only [List.map_cons, List.nodup_cons]
    refine ⟨?_, ih c.block.Hash hl.2 hn.2 hn.1⟩
    intro hmem
    rcases parents_subset t c.block.Hash hl.2 _ hmem with h | h
    · exact hp.1 (hl.1 ▸ h)
    · exact hp.2 (hl.1 ▸ h)

theorem chainInv_apply (monthOf : Nat → Nat) (target : BalanceParser)
    (b : BalanceParser) (ch : List tChangeSet) (c : tChangeSet)
    (hP : ChainInv monthOf target b ch) (hget : GoMap.get b.prevMap_ b.prev = some c) :
    ChainInv monthOf target (processBlockApply monthOf b c) ch := by
  obtain ⟨todo, hL, hN, hA, hB, hC, hD, hE, hT⟩ := hP
  have hmem := GoMap.mem_of_get hget
  have hc := hA _ hmem
  cases todo with
  | nil => simp at hc
  | cons c₀ rest =>
    have hinj := List.inj_on_of_nodup_map hN
    have hcc : c = c₀ :=
      hinj hc.2 (List.mem_cons_self _ _) (hc.1.symm.trans hL.1.symm)
    subst hcc
    simp only [List.map_cons, List.nodup_cons] at hN
    have hnotin : c ∉ rest := fun h =>
      hN.1 (List.mem_map_of_mem (fun c => c.block.ParentHash) h)
    refine ⟨rest, hL.2, hN.2, ?_, ?_, ?_, ?_, hE, ?_⟩
    · intro e he
      have he' := GoMap.mem_del he
      have h1 := hA e he'.1
      refine ⟨h1.1, ?_⟩
      rcases List.mem_cons.mp h1.2 with h | h
      · exfalso
        apply he'.2
        rw [h1.1, h]
        exact hL.1
      · exact h
    · intro x hx
      rcases hB x (List.mem_cons_of_mem _ hx) with h | h
      · exact Or.inl h
      · right
        have hne : x.block.ParentHash ≠ b.prev := by
          intro heq
          have : x = c :=
            hinj (List.mem_cons_of_mem _ hx) (List.mem_cons_self _ _) (heq.trans hL.1.symm)
          exact hnotin (this ▸ hx)
        show GoMap.get (GoMap.del b.prevMap_ b.prev) x.block.ParentHash = some x
        rw [GoMap.get_del_ne _ _ _ hne]
        exact h
    · intro x hx
      rcases List.mem_cons.mp (hC x hx) with h | h
      · exfalso
        exact hD _ hmem (h ▸ hx)
      · exact h
    · intro e he
      exact hD e (GoMap.mem_del he).1
    · rw [erasePending_apply]
      exact hT

theorem chainInv_recv (monthOf : Nat → Nat) (target : BalanceParser)
    (b : BalanceParser) (c : tChangeSet) (ch : List tChangeSet)
    (hP : ChainInv monthOf target b (c :: ch)) :
    ChainInv monthOf target (processBlockRecv b c) ch := by
  obtain ⟨todo, hL, hN, hA, hB, hC, hD, hE, hT⟩ := hP
  have hinj := List.inj_on_of_nodup_map hN
  have hcin : c ∈ todo := hC c (List.mem_cons_self _ _)
  simp only [List.nodup_cons] at hE
  refine ⟨todo, hL, hN, ?_, ?_, ?_, ?_, hE.2, hT⟩
  · intro e he
    rcases GoMap.mem_set he with he | he
    · rw [he]
      exact ⟨rfl, hcin⟩
    · exact hA e he
  · intro x hx
    by_cases hpx : x.block.ParentHash = c.block.ParentHash
    · have : x = c := hinj hx hcin hpx
      right
      show GoMap.get (GoMap.set b.prevMap_ c.block.ParentHash c) x.block.ParentHash = some x
      rw [this]
      exact GoMap.get_set_self _ _ _
    · rcases hB x hx with h | h
      · rcases List.mem_cons.mp h with h | h
        · exact absurd (h ▸ rfl) hpx
        · exact Or.inl h
      · right
        show GoMap.get (GoMap.set b.prevMap_ c.block.ParentHash c) x.block.ParentHash = some x
        rw [GoMap.get_set_ne _ _ _ _ hpx]
        exact h
  · intro x hx
    exact hC x (List.mem_cons_of_mem _ hx)
  · intro e he
    rcases GoMap.mem_set he with he | he
    · rw [he]
      exact hE.1
    · exact fun h => hD e he (List.mem_cons_of_mem _ h)

/-- Delivered in any order, the change sets of a linear chain are all applied,
in chain order, and the loop ends in the state reached by applying them one
after the other. -/
theorem processBlock_chain (monthOf : Nat → Nat) (cs ds : List tChangeSet)
    (hchain : IsChain cs) (hperm : ds.Perm cs) :
    processBlock monthOf ds = some (applyAll monthOf initial cs) := by
  have hcsN : cs.Nodup := List.Nodup.of_map _ hchain.2.1
  obtain ⟨st, hst, hP, hnone⟩ := processBlock_rule monthOf
    (ChainInv monthOf (applyAll monthOf initial cs))
    (fun b ch c hP hget => chainInv_apply monthOf _ b ch c hP hget)
    (fun b c ch hP _ => chainInv_recv monthOf _ b c ch hP)
    ds
    ⟨cs, hchain.1, parents_nodup cs 0 hchain.1 hchain.2.1 hchain.2.2,
      fun e he => by simp [initial] at he,
      fun c hc => Or.inl (hperm.mem_iff.mpr hc),
      fun c hc => hperm.mem_iff.mp hc,
      fun e he => by simp [initial] at he,
      hperm.nodup_iff.mpr hcsN, rfl⟩
  obtain ⟨todo, hL, _, hA, hB, _, _, _, hT⟩ := hP
  cases todo with
  | cons c₀ rest =>
    exfalso
    rcases hB c₀ (List.mem_cons_self _ _) with h | h
    · simp at h
    · rw [hL.1, hnone] at h
      simp at h
  | nil =>
    have hempty : st.prevMap_ = [] := by
      apply List.eq_nil_iff_forall_not_mem.mpr
      intro e he
      have := (hA e he).2
      simp at this
    have hst' : erasePending st = st := by
      cases st
      simp only [erasePending] at hempty ⊢
      rw [hempty]
    rw [hst, ← hT, hst']
    rfl

/-- Whatever is delivered, the state in which `processBlock` ends is, up to
the pending buffer, the one reached by applying one after the other the change
sets it has applied. -/
theorem processBlock_eq_applyAll (monthOf : Nat → Nat) (ch : List tChangeSet) :
    ∃ st, processBlock monthOf ch = some st ∧
      erasePending st = applyAll monthOf initial st.applied := by
  obtain ⟨st, hst, hP, _⟩ := processBlock_rule monthOf
    (fun b _ => erasePending b = applyAll monthOf initial b.applied)
    (by
      intro b ch c hP _
      show erasePending (processBlockApply monthOf b c) =
        List.foldl (processBlockApply monthOf) initial (b.applied ++ [c])
      rw [erasePending_apply, hP, List.foldl_append]
      rfl)
    (fun b c ch hP _ => hP)
    ch rfl
  exact ⟨st, hst, hP⟩

/-! ## C6: arrival-order independence -/

/-- C6. For a linear chain `cs` (parent-linked from the zero hash, block hashes
pairwise distinct and non-zero) delivered in any order `ds`, `processBlock`
ends having applied exactly `cs`, in chain order, with an empty pending
buffer, in the very state that in-order delivery ends in: the unspent map, the
reward and fee sums and the stream of balance changes sent to the applier
(hence the balances) are the same. -/
theorem arrival_order_independence (monthOf : Nat → Nat) (cs ds : List tChangeSet)
    (hchain : IsChain cs) (hperm : ds.Perm cs) :
    ∃ st, processBlock monthOf ds = some st ∧ st.applied = cs ∧ st.prevMap_ = [] ∧
      processBlock monthOf cs = some st ∧ st = applyAll monthOf initial cs := by
  refine ⟨applyAll monthOf initial cs, processBlock_chain monthOf cs ds hchain hperm, ?_, ?_,
    processBlock_chain monthOf cs cs hchain (List.Perm.refl cs), rfl⟩
  · rw [applyAll_applied]
    rfl
  · exact applyAll_prevMap monthOf cs initial rfl

theorem arrival_order_independence_witness :
    IsChain [loadBlock block1, loadBlock block2] ∧
    ∃ st, processBlock january [loadBlock block2, loadBlock block1] = some st ∧
      st.applied = [loadBlock block1, loadBlock block2] ∧ st.prevMap_ = [] ∧
      processBlock january [loadBlock block1, loadBlock block2] = some st ∧
      st = applyAll january initial [loadBlock block1, loadBlock block2] :=
  ⟨⟨⟨rfl, rfl, trivial⟩, by decide, by decide⟩,
    arrival_order_independence january [loadBlock block1, loadBlock block2]
      [loadBlock block2, loadBlock block1] ⟨⟨rfl, rfl, trivial⟩, by decide, by decide⟩
      (List.Perm.swap _ _ [])⟩

/-! ## C7: every change set applied at most once -/

theorem values_del_subperm {V : Type} (m : List (Uint256 × V)) (k : Uint256) :
    List.Subperm ((GoMap.del m k).map Prod.snd) (m.map Prod.snd) := by
  induction m with
  | nil => exact List.Subperm.refl _
  | cons e t ih =>
    obtain ⟨k', v⟩ := e
    by_cases h : k' = k
    · simp only [GoMap.del, h, if_true, List.map_cons]
      exact List.Subperm.cons_right v ih
    · simp only [GoMap.del, h, if_false, List.map_cons]
      exact (List.subperm_cons v).mpr ih

theorem values_del_of_get {V : Type} (m : List (Uint256 × V)) (k : Uint256) (c : V)
    (hget : GoMap.get m k = some c) :
    List.Subperm (c :: (GoMap.del m k).map Prod.snd) (m.map Prod.snd) := by
  induction m with
  | nil => simp [GoMap.get] at hget
  | cons e t ih =>
    obtain ⟨k', v⟩ := e
    by_cases h : k' = k
    · simp only [GoMap.get, h, if_true, Option.some.injEq] at hget
      subst hget
      simp only [GoMap.del, h, if_true, List.map_cons]
      exact (List.subperm_cons v).mpr (values_del_subperm t k)
    · simp only [GoMap.get, h, if_false] at hget
      simp only [GoMap.del, h, if_false, List.map_cons]
      exact (List.Perm.swap v c _).subperm.trans ((List.subperm_cons v).mpr (ih hget))

theorem values_set_subperm {V : Type} (m : List (Uint256 × V)) (k : Uint256) (x : V) :
    List.Subperm ((GoMap.set m k x).map Prod.snd) (x :: m.map Prod.snd) := by
  induction m with
  | nil => exact List.Subperm.refl _
  | cons e t ih =>
    obtain ⟨k', v⟩ := e
    by_cases h : k' = k
    · simp only [GoMap.set, h, if_true, List.map_cons]
      exact (List.subperm_cons x).mpr List.Subperm.cons_self
    · simp only [GoMap.set, h, if_false, List.map_cons]
      exact ((List.subperm_cons v).mpr ih).trans (List.Perm.swap x v _).subperm

/-- C7 fails as stated: a single change set whose parent was never delivered is
received, filed in the pending buffer and never applied; `processBlock` ends
with the buffer holding it. -/
theorem orphan_is_never_applied :
    (processBlock january [loadBlock block2]).map (fun st => (st.applied, pending st)) =
      some ([], [loadBlock block2]) := rfl

/-- C7, amended.  For every finite sequence of change sets delivered before the
channel is closed, `processBlock` ends; by then every delivered change set has
been applied at most once (the applied ones together with the ones left in the
pending buffer are, with multiplicity, among the delivered ones), and it ends
when the channel is closed and the pending buffer holds nothing under `prev`.
When the delivered change sets are those of a linear chain, in any order, each
one has been applied exactly once and the pending buffer is empty. -/
theorem processBlock_applies_at_most_once (monthOf : Nat → Nat) (ds : List tChangeSet) :
    ∃ st, processBlock monthOf ds = some st ∧
      List.Subperm (st.applied ++ pending st) ds ∧
      GoMap.get st.prevMap_ st.prev = none ∧
      (∀ cs, IsChain cs → ds.Perm cs → st.applied = cs ∧ pending st = []) := by
  obtain ⟨st, hst, hP, hnone⟩ := processBlock_rule monthOf
    (fun b ch => List.Subperm (b.applied ++ (pending b ++ ch)) ds)
    (by
      intro b ch c hP hget
      refine List.Subperm.trans ?_ hP
      show List.Subperm ((b.applied ++ [c]) ++
        ((GoMap.del b.prevMap_ b.prev).map Prod.snd ++ ch)) (b.applied ++ (pending b ++ ch))
      rw [List.append_assoc, List.singleton_append, ← List.cons_append]
      exact (List.subperm_append_left b.applied).mpr
        ((List.subperm_append_right ch).mpr (values_del_of_get b.prevMap_ b.prev c hget)))
    (by
      intro b c ch hP _
      refine List.Subperm.trans ?_ hP
      show List.Subperm (b.applied ++
        ((GoMap.set b.prevMap_ c.block.ParentHash c).map Prod.snd ++ ch))
        (b.applied ++ (pending b ++ c :: ch))
      refine (List.subperm_append_left b.applied).mpr ?_
      refine List.Subperm.trans ((List.subperm_append_right ch).mpr
        (values_set_subperm b.prevMap_ c.block.ParentHash c)) ?_
      exact (List.perm_middle.symm).subperm)
    ds (by
      show List.Subperm ([] ++ ([] ++ ds)) ds
      exact List.Subperm.refl _)
  refine ⟨st, hst, ?_, hnone, ?_⟩
  · simpa using hP
  · intro cs hchain hperm
    have h := processBlock_chain monthOf cs ds hchain hperm
    rw [hst] at h
    cases h
    constructor
    · rw [applyAll_applied]
      rfl
    · show (applyAll monthOf initial cs).prevMap_.map Prod.snd = []
      rw [applyAll_prevMap monthOf cs initial rfl]
      rfl

theorem processBlock_applies_at_most_once_witness :
    IsChain [loadBlock block1, loadBlock block2] ∧
    ∃ st, processBlock january [loadBlock block2, loadBlock block1] = some st ∧
      List.Subperm (st.applied ++ pending st) [loadBlock block2, loadBlock block1] ∧
      GoMap.get st.prevMap_ st.prev = none ∧
      st.applied = [loadBlock block1, loadBlock block2] ∧ pending st = [] := by
  have hc : IsChain [loadBlock block1, loadBlock block2] :=
    ⟨⟨rfl, rfl, trivial⟩, by decide, by decide⟩
  obtain ⟨st, h1, h2, h3, h4⟩ :=
    processBlock_applies_at_most_once january [loadBlock block2, loadBlock block1]
  exact ⟨hc, st, h1, h2, h3, h4 _ hc (List.Perm.swap _ _ [])⟩

/-! ## C8: credits before debits -/

theorem creditPhase_get_of_not_mem (cm : List (Uint256 × tOutputMap)) (k : Uint256) :
    ∀ u : tUnspentMap, k ∉ cm.map Prod.fst →
      GoMap.get (creditPhase u cm).1 k = GoMap.get u k := by
  induction cm with
  | nil =>
    intro u _
    rfl
  | cons e rest ih =>
    intro u hk
    obtain ⟨k', o'⟩ := e
    simp only [List.map_cons, List.mem_cons, not_or] at hk
    show GoMap.get (creditPhase (GoMap.set u k' o') rest).1 k = GoMap.get u k
    rw [ih _ hk.2]
    exact GoMap.get_set_ne _ _ _ _ hk.1

theorem creditPhase_get (cm : List (Uint256 × tOutputMap)) (k : Uint256) (outs : tOutputMap) :
    ∀ u : tUnspentMap, GoMap.NodupKeys cm → GoMap.get cm k = some outs →
      GoMap.get (creditPhase u cm).1 k = some outs := by
  induction cm with
  | nil =>
    intro u _ h
    simp [GoMap.get] at h
  | cons e rest ih =>
    intro u hn h
    obtain ⟨k', o'⟩ := e
    have hn' : k' ∉ rest.map Prod.fst ∧ GoMap.NodupKeys rest := by
      simpa [GoMap.NodupKeys] using hn
    show GoMap.get (creditPhase (GoMap.set u k' o') rest).1 k = some outs
    by_cases hk : k' = k
    · subst hk
      simp only [GoMap.get, if_true, Option.some.injEq] at h
      subst h
      rw [creditPhase_get_of_not_mem rest k' _ hn'.1]
      exact GoMap.get_set_self _ _ _
    · simp only [GoMap.get, hk, if_false] at h
      exact ih _ hn'.2 h

theorem creditPhase_mem (cm : List (Uint256 × tOutputMap)) (k : Uint256) (outs : tOutputMap)
    (i : Nat) (o : tOutput) (hk : (k, outs) ∈ cm) (hi : (i, o) ∈ outs) :
    ∀ u : tUnspentMap, (⟨o.addr, toInt64 o.val⟩ : tBalanceChange) ∈ (creditPhase u cm).2 := by
  induction cm with
  | nil => simp at hk
  | cons e rest ih =>
    intro u
    obtain ⟨k', o'⟩ := e
    show _ ∈ creditOutputs o' ++ (creditPhase (GoMap.set u k' o') rest).2
    rcases List.mem_cons.mp hk with h | h
    · cases h
      exact List.mem_append_left _
        (List.mem_map.mpr ⟨(i, o), hi, rfl⟩)
    · exact List.mem_append_right _ (ih h _)

theorem debitOutputs_get_none (idxs : List Nat) (i : Nat) :
    ∀ outs : tOutputMap, GoMap.get outs i = none →
      GoMap.get (debitOutputs outs idxs).1 i = none := by
  induction idxs with
  | nil =>
    intro outs h
    exact h
  | cons j js ih =>
    intro outs h
    cases hget : GoMap.get outs j with
    | none =>
      simp only [debitOutputs, hget]
      exact ih outs h
    | some output =>
      simp only [debitOutputs, hget]
      refine ih _ ?_
      by_cases hij : i = j
      · rw [hij]
        exact GoMap.get_del_self _ _
      · rw [GoMap.get_del_ne _ _ _ hij]
        exact h

theorem debitOutputs_spent (idxs : List Nat) (i : Nat) (hi : i ∈ idxs) :
    ∀ outs : tOutputMap, GoMap.get (debitOutputs outs idxs).1 i = none := by
  induction idxs with
  | nil => simp at hi
  | cons j js ih =>
    intro outs
    by_cases hij : i = j
    · subst hij
      cases hget : GoMap.get outs i with
      | none =>
        simp only [debitOutputs, hget]
        exact debitOutputs_get_none js i outs hget
      | some output =>
        simp only [debitOutputs, hget]
        exact debitOutputs_get_none js i _ (GoMap.get_del_self _ _)
    · have hjs : i ∈ js := by
        rcases List.mem_cons.mp hi with h | h
        · exact absurd h hij
        · exact h
      cases hget : GoMap.get outs j with
      | none =>
        simp only [debitOutputs, hget]
        exact ih hjs outs
      | some output =>
        simp only [debitOutputs, hget]
        exact ih hjs _

theorem debitOutputs_mem (idxs : List Nat) (i : Nat) (o : tOutput) (hi : i ∈ idxs) :
    ∀ outs : tOutputMap, GoMap.get outs i = some o →
      (⟨o.addr, toInt64 (-toInt64 o.val)⟩ : tBalanceChange) ∈ (debitOutputs outs idxs).2 := by
  induction idxs with
  | nil => simp at hi
  | cons j js ih =>
    intro outs ho
    by_cases hij : i = j
    · subst hij
      simp only [debitOutputs, ho]
      exact List.mem_cons_self _ _
    · have hjs : i ∈ js := by
        rcases List.mem_cons.mp hi with h | h
        · exact absurd h hij
        · exact h
      cases hget : GoMap.get outs j with
      | none =>
        simp only [debitOutputs, hget]
        exact ih hjs outs ho
      | some output =>
        simp only [debitOutputs, hget]
        refine List.mem_cons_of_mem _ (ih hjs _ ?_)
        rw [GoMap.get_del_ne _ _ _ hij]
        exact ho

theorem debitTx_get_ne (u : tUnspentMap) (k k' : Uint256) (spent : List Nat) (h : k ≠ k') :
    GoMap.get (debitTx u k' spent).1 k = GoMap.get u k := by
  cases hget : GoMap.get u k' with
  | none => simp only [debitTx, hget]
  | some unspent =>
    simp only [debitTx, hget]
    by_cases hl : (debitOutputs unspent spent).1.length = 0
    · simp only [hl, if_true]
      exact GoMap.get_del_ne _ _ _ h
    · simp only [hl, if_false]
      exact GoMap.get_set_ne _ _ _ _ h

theorem debitPhase_get_of_not_mem (sm : List (Uint256 × List Nat)) (k : Uint256) :
    ∀ u : tUnspentMap, k ∉ sm.map Prod.fst →
      GoMap.get (debitPhase u sm).1 k = GoMap.get u k := by
  induction sm with
  | nil =>
    intro u _
    rfl
  | cons e rest ih =>
    intro u hk
    obtain ⟨k', spent⟩ := e
    simp only [List.map_cons, List.mem_cons, not_or] at hk
    show GoMap.get (debitPhase (debitTx u k' spent).1 rest).1 k = GoMap.get u k
    rw [ih _ hk.2]
    exact debitTx_get_ne u k k' spent hk.1

theorem debitPhase_spend (sm : List (Uint256 × List Nat)) (k : Uint256) (idxs : List Nat)
    (outs : tOutputMap) (i : Nat) (o : tOutput) (hi : i ∈ idxs)
    (ho : GoMap.get outs i = some o) :
    ∀ u : tUnspentMap, GoMap.NodupKeys sm → GoMap.get sm k = some idxs →
      GoMap.get u k = some outs →
      (⟨o.addr, toInt64 (-toInt64 o.val)⟩ : tBalanceChange) ∈ (debitPhase u sm).2 ∧
      ∀ outs', GoMap.get (debitPhase u sm).1 k = some outs' → GoMap.get outs' i = none := by
  induction sm with
  | nil =>
    intro u _ h
    simp [GoMap.get] at h
  | cons e rest ih =>
    intro u hn hsm hu
    obtain ⟨k', spent⟩ := e
    have hn' : k' ∉ rest.map Prod.fst ∧ GoMap.NodupKeys rest := by
      simpa [GoMap.NodupKeys] using hn
    show _ ∈ (debitTx u k' spent).2 ++ (debitPhase (debitTx u k' spent).1 rest).2 ∧
      ∀ outs', GoMap.get (debitPhase (debitTx u k' spent).1 rest).1 k = some outs' →
        GoMap.get outs' i = none
    by_cases hk : k' = k
    · subst hk
      simp only [GoMap.get, if_true, Option.some.injEq] at hsm
      subst hsm
      have hd : debitTx u k' spent =
          (if (debitOutputs outs spent).1.length = 0 then GoMap.del u k'
            else GoMap.set u k' (debitOutputs outs spent).1,
            (debitOutputs outs spent).2) := by
        simp only [debitTx, hu]
      refine ⟨List.mem_append_left _ ?_, ?_⟩
      · rw [hd]
        exact debitOutputs_mem spent i o hi outs ho
      · intro outs' hget
        rw [debitPhase_get_of_not_mem rest k' _ hn'.1, hd] at hget
        by_cases hl : (debitOutputs outs spent).1.length = 0
        · simp only [hl, if_true] at hget
          rw [GoMap.get_del_self] at hget
          cases hget
        · simp only [hl, if_false] at hget
          rw [GoMap.get_set_self] at hget
          cases hget
          exact debitOutputs_spent spent i hi outs
    · simp only [GoMap.get, hk, if_false] at hsm
      have hu' : GoMap.get (debitTx u k' spent).1 k = some outs := by
        rw [debitTx_get_ne u k k' spent (fun h => hk h.symm)]
        exact hu
      have h := ih _ hn'.2 hsm hu'
      exact ⟨List.mem_append_right _ h.1, h.2⟩

/-- A step of the applier whose result stays in the `int64` range adds the
change to the balance of the address and leaves the other addresses alone. -/
theorem processBalanceStep_exact (m : tBalanceMap) (a : String) (d : Int)
    (hb : balanceOf m a < 2 ^ 63) (h0 : 0 ≤ (balanceOf m a : Int) + d)
    (h1 : (balanceOf m a : Int) + d < 2 ^ 63) :
    ∃ m', processBalanceStep m ⟨a, d⟩ = some m' ∧
      (balanceOf m' a : Int) = balanceOf m a + d ∧
      ∀ a', a' ≠ a → GoMap.get m' a' = GoMap.get m a' := by
  have e1 : toInt64 (balanceOf m a : Int) = balanceOf m a := toInt64_of_lt _ hb
  have hnb : newBalance m ⟨a, d⟩ = balanceOf m a + d := by
    simp only [newBalance, e1]
    unfold toInt64
    omega
  by_cases hpos : 0 < newBalance m ⟨a, d⟩
  · refine ⟨GoMap.set m a (newBalance m ⟨a, d⟩).toNat, ?_, ?_, ?_⟩
    · simp [processBalanceStep, hpos]
    · simp only [balanceOf, GoMap.get_set_self, Option.getD_some]
      rw [Int.toNat_of_nonneg (le_of_lt hpos), hnb]
      rfl
    · intro a' ha'
      exact GoMap.get_set_ne _ _ _ _ ha'
  · have hz : newBalance m ⟨a, d⟩ = 0 := by omega
    refine ⟨GoMap.del m a, ?_, ?_, ?_⟩
    · simp [processBalanceStep, hz]
    · simp only [balanceOf, GoMap.get_del_self, Option.getD_none]
      rw [hnb] at hz
      simp only [balanceOf] at hz
      omega
    · intro a' ha'
      exact GoMap.get_del_ne _ _ _ ha'

/-- C8. When a change set (a Go map on both sides: keys pairwise distinct)
creates the output `(txid, i)` with `(addr, v)` and its spends reference
`(txid, i)`, applying it sends the credit `(addr, int64(v))` before the debit
`(addr, -int64(v))`, that is `+v` before `-v` for every amount below `2 ^ 63`;
the output `(txid, i)` is absent from the unspent map after the block; and the
applier, given the credit and then the debit, passes through the balance
`balance + v` (no negative intermediate balance, no fatal error while that sum
is in the `int64` range) and ends with the balance of `addr` it started
from, every other address untouched. -/
theorem credit_before_debit (monthOf : Nat → Nat) (b : BalanceParser) (c : tChangeSet)
    (txid : Uint256) (i : Nat) (outs : tOutputMap) (o : tOutput) (idxs : List Nat)
    (hbm : GoMap.NodupKeys c.balanceMap) (hsm : GoMap.NodupKeys c.spentMap)
    (hout : GoMap.get c.balanceMap txid = some outs) (ho : GoMap.get outs i = some o)
    (hsp : GoMap.get c.spentMap txid = some idxs) (hi : i ∈ idxs) :
    (∃ pre mid post, changes (applyEvents monthOf b c) =
        pre ++ ⟨o.addr, toInt64 o.val⟩ :: (mid ++ ⟨o.addr, toInt64 (-toInt64 o.val)⟩ :: post)) ∧
    (o.val < 2 ^ 63 → toInt64 o.val = o.val ∧ toInt64 (-toInt64 o.val) = -(o.val : Int)) ∧
    (∀ outs', GoMap.get (processBlockApply monthOf b c).unspentMap_ txid = some outs' →
        GoMap.get outs' i = none) ∧
    (∀ m : tBalanceMap, (balanceOf m o.addr : Int) + o.val < 2 ^ 63 →
      ∃ m₁ m₂, processBalanceStep m ⟨o.addr, toInt64 o.val⟩ = some m₁ ∧
        processBalanceStep m₁ ⟨o.addr, toInt64 (-toInt64 o.val)⟩ = some m₂ ∧
        (balanceOf m₁ o.addr : Int) = balanceOf m o.addr + o.val ∧
        balanceOf m₂ o.addr = balanceOf m o.addr ∧
        ∀ a', a' ≠ o.addr → GoMap.get m₂ a' = GoMap.get m a') := by
  have hcredit := creditPhase_mem c.balanceMap txid outs i o (GoMap.mem_of_get hout)
    (GoMap.mem_of_get ho) b.unspentMap_
  have hget := creditPhase_get c.balanceMap txid outs b.unspentMap_ hbm hout
  have hdebit := debitPhase_spend c.spentMap txid idxs outs i o hi ho
    (creditPhase b.unspentMap_ c.balanceMap).1 hsm hsp hget
  refine ⟨?_, ?_, hdebit.2, ?_⟩
  · obtain ⟨s₁, t₁, h₁⟩ := List.append_of_mem hcredit
    obtain ⟨s₂, t₂, h₂⟩ := List.append_of_mem hdebit.1
    refine ⟨s₁, t₁ ++ s₂, t₂, ?_⟩
    rw [changes_applyEvents, h₁, h₂]
    simp
  · intro hv
    exact ⟨toInt64_of_lt o.val hv, toInt64_neg_of_lt o.val hv⟩
  · intro m hm
    have hv : o.val < 2 ^ 63 := by omega
    have hb : balanceOf m o.addr < 2 ^ 63 := by omega
    rw [toInt64_neg_of_lt o.val hv, toInt64_of_lt o.val hv]
    obtain ⟨m₁, hs₁, hb₁, hf₁⟩ := processBalanceStep_exact m o.addr o.val hb (by omega) hm
    obtain ⟨m₂, hs₂, hb₂, hf₂⟩ := processBalanceStep_exact m₁ o.addr (-(o.val : Int))
      (by omega) (by omega) (by omega)
    refine ⟨m₁, m₂, hs₁, hs₂, hb₁, by omega, ?_⟩
    intro a' ha'
    rw [hf₂ a' ha', hf₁ a' ha']

theorem credit_before_debit_witness :
    GoMap.get (loadBlock block2chain).balanceMap 9 =
        some [(0, ⟨"addrB", 1000000000⟩), (1, ⟨"addrG", 4000000000⟩)] ∧
    GoMap.get (loadBlock block2chain).spentMap 9 = some [0] ∧
    (∃ pre mid post,
      changes (applyEvents january (applyAll january initial [loadBlock block1])
          (loadBlock block2chain)) =
        pre ++ ⟨"addrB", toInt64 (1000000000 : Nat)⟩ ::
          (mid ++ ⟨"addrB", toInt64 (-toInt64 (1000000000 : Nat))⟩ :: post)) ∧
    (∀ outs', GoMap.get (processBlockApply january (applyAll january initial [loadBlock block1])
        (loadBlock block2chain)).unspentMap_ 9 = some outs' → GoMap.get outs' 0 = none) :=
  have h := credit_before_debit january (applyAll january initial [loadBlock block1])
    (loadBlock block2chain) 9 0 [(0, ⟨"addrB", 1000000000⟩), (1, ⟨"addrG", 4000000000⟩)]
    ⟨"addrB", 1000000000⟩ [0]
    (by unfold GoMap.NodupKeys; decide) (by unfold GoMap.NodupKeys; decide)
    (by decide) (by decide) (by decide) (by decide)
  ⟨by decide, by decide, h.1, h.2.2.1⟩

/-! ## C9: spends of missing outputs -/

theorem debitOutputs_missing (spent : List Nat) (unspent : tOutputMap)
    (h : ∀ i ∈ spent, GoMap.get unspent i = none) :
    debitOutputs unspent spent = (unspent, []) := by
  induction spent with
  | nil => rfl
  | cons i is ih =>
    have hi := h i (List.mem_cons_self _ _)
    simp only [debitOutputs, hi]
    exact ih (fun j hj => h j (List.mem_cons_of_mem _ hj))

/-- C9 (code defect).  On the unspent map `{7 ↦ {}}`, which the sequencer holds after
`block1zero` (the empty entry of C4), the debit of the spend `(7, 0)`, an
output that is not in the map, sends no change but removes the entry of
transaction `7`: after `block2zero` transaction `7` is gone from the unspent
map, where the claim has the unspent map left unchanged. -/
theorem empty_entry_removed_by_missing_spend :
    GoMap.get ([(7, [])] : tUnspentMap) 7 = some [] ∧
    GoMap.get ([] : tOutputMap) 0 = none ∧
    debitTx [(7, [])] 7 [0] = ([], []) ∧
    (processBlock january [loadBlock block1zero]).map (fun st => st.unspentMap_) =
      some [(7, [])] ∧
    (loadBlock block2zero).spentMap = [(7, [0])] ∧
    (processBlock january [loadBlock block1zero, loadBlock block2zero]).map
        (fun st => st.unspentMap_) =
      some [(8, [(0, ⟨"addrG", 5000000000⟩)]), (9, [])] := by
  refine ⟨by decide, by decide, by decide, by decide, by decide, by decide⟩

/-- For every unspent map `u` and every list `spent` of spends under `txID`
such that `txID` is not in `u`, or `u[txID]` is not empty and holds none of the
indexes of `spent`, the debit of these spends sends no balance change and
leaves the unspent map unchanged; the applier, given what was sent, leaves the
balances unchanged. -/
theorem debit_of_missing_output (u : tUnspentMap) (txID : Uint256) (spent : List Nat)
    (m : tBalanceMap)
    (h : GoMap.get u txID = none ∨
      ∃ unspent, GoMap.get u txID = some unspent ∧ unspent ≠ [] ∧
        ∀ i ∈ spent, GoMap.get unspent i = none) :
    debitTx u txID spent = (u, []) ∧ processBalance m (debitTx u txID spent).2 = some m := by
  have key : debitTx u txID spent = (u, []) := by
    rcases h with h | ⟨unspent, hget, hne, hmiss⟩
    · simp only [debitTx, h]
    · have hl : ¬ unspent.length = 0 := fun hl => hne (List.length_eq_zero.mp hl)
      simp only [debitTx, hget, debitOutputs_missing spent unspent hmiss, hl, if_false,
        GoMap.set_eq_self hget]
  rw [key]
  exact ⟨rfl, rfl⟩

theorem debit_of_missing_output_witness :
    GoMap.get ([(7, [(0, ⟨"addrG", 5000000000⟩)])] : tUnspentMap) 7 =
        some [(0, ⟨"addrG", 5000000000⟩)] ∧
    debitTx [(7, [(0, ⟨"addrG", 5000000000⟩)])] 7 [1] =
        ([(7, [(0, ⟨"addrG", 5000000000⟩)])], []) ∧
    processBalance [("addrG", 5000000000)]
        (debitTx [(7, [(0, ⟨"addrG", 5000000000⟩)])] 7 [1]).2 =
      some [("addrG", 5000000000)] :=
  have h := debit_of_missing_output [(7, [(0, ⟨"addrG", 5000000000⟩)])] 7 [1]
    [("addrG", 5000000000)]
    (Or.inr ⟨[(0, ⟨"addrG", 5000000000⟩)], by decide, by decide, by decide⟩)
  ⟨by decide, h.1, h.2⟩

theorem debitOutputs_append (pre post : List Nat) :
    ∀ unspent : tOutputMap, debitOutputs unspent (pre ++ post) =
      ((debitOutputs (debitOutputs unspent pre).1 post).1,
        (debitOutputs unspent pre).2 ++ (debitOutputs (debitOutputs unspent pre).1 post).2) := by
  induction pre with
  | nil =>
    intro unspent
    rfl
  | cons i is ih =>
    intro unspent
    cases hget : GoMap.get unspent i with
    | none =>
      simp only [List.cons_append, debitOutputs, hget, List.append_eq]
      exact ih unspent
    | some output =>
      simp only [List.cons_append, debitOutputs, hget, List.append_eq]
      rw [ih]

/-- Among the spends of one transaction, a spend of an output that is missing
when it is visited is skipped: the changes sent and the unspent map afterwards
are those of the other spends alone. -/
theorem debit_skips_missing_output (u : tUnspentMap) (txID : Uint256) (pre post : List Nat)
    (i : Nat)
    (h : GoMap.get u txID = none ∨
      ∃ unspent, GoMap.get u txID = some unspent ∧
        GoMap.get (debitOutputs unspent pre).1 i = none) :
    debitTx u txID (pre ++ i :: post) = debitTx u txID (pre ++ post) := by
  rcases h with h | ⟨unspent, hget, hmiss⟩
  · simp only [debitTx, h]
  · have e : debitOutputs unspent (pre ++ i :: post) = debitOutputs unspent (pre ++ post) := by
      rw [debitOutputs_append pre (i :: post), debitOutputs_append pre post]
      simp only [debitOutputs, hmiss]
    simp only [debitTx, hget, e]

/-! ## Heights and halvings -/

theorem nextHalvings_eq (b : BalanceParser) (h : b.blockNO_ + 1 < 2 ^ 32)
    (hh : b.halvings_ = b.blockNO_ / HALVING_BLOCKS) :
    nextHalvings b = (b.blockNO_ + 1) / HALVING_BLOCKS := by
  have hmod : (b.blockNO_ + 1) % 2 ^ 32 = b.blockNO_ + 1 := Nat.mod_eq_of_lt h
  simp only [nextHalvings, HALVING_BLOCKS, hmod] at hh ⊢
  rw [hh]
  split <;> omega

theorem applyAll_height (monthOf : Nat → Nat) (cs : List tChangeSet) :
    ∀ b : BalanceParser, b.blockNO_ + cs.length < 2 ^ 32 →
      b.halvings_ = b.blockNO_ / HALVING_BLOCKS →
      (applyAll monthOf b cs).blockNO_ = b.blockNO_ + cs.length ∧
      (applyAll monthOf b cs).halvings_ = (b.blockNO_ + cs.length) / HALVING_BLOCKS := by
  induction cs with
  | nil =>
    intro b _ hh
    exact ⟨rfl, hh⟩
  | cons c cs ih =>
    intro b hlen hh
    simp only [List.length_cons] at hlen
    have hstep : applyAll monthOf b (c :: cs) =
        applyAll monthOf (processBlockApply monthOf b c) cs := rfl
    have hno : (processBlockApply monthOf b c).blockNO_ = b.blockNO_ + 1 := by
      show (b.blockNO_ + 1) % 2 ^ 32 = b.blockNO_ + 1
      omega
    have hhalv : (processBlockApply monthOf b c).halvings_ =
        (processBlockApply monthOf b c).blockNO_ / HALVING_BLOCKS := by
      rw [hno]
      exact nextHalvings_eq b (by omega) hh
    have h := ih (processBlockApply monthOf b c) (by rw [hno]; omega) hhalv
    rw [hstep, h.1, h.2, hno, List.length_cons]
    constructor
    · omega
    · congr 1
      omega

/-! ## C11: the fee of a block -/

theorem blockReward_le (b : BalanceParser) : blockReward b ≤ 5000000000 :=
  Nat.div_le_self _ _

/-- C11 fails as stated: for a block whose coinbase outputs sum to `0`, below
the reward `5000000000`, applying the change set is not an error, and the
fee sum grows by the wrapped difference `2 ^ 64 - 5000000000`. -/
theorem fee_wraps_below_reward :
    (loadBlock block1zero).sumOut = 0 ∧ blockReward initial = 5000000000 ∧
    (processBlock january [loadBlock block1zero]).map (fun st => st.sumFee_) =
      some 18446744068709551616 := by
  refine ⟨by decide, by decide, by decide⟩

/-- C11, amended.  Applying a change set never fails on the reward accounting.
When the coinbase sum is below the reward, the fee is the difference wrapped
on `uint64`, `sumOut + 2 ^ 64 - reward`; when the coinbase sum is at least the
reward, the fee is `sumOut - reward`.  Without a month rollover the fee sum
grows by the fee modulo `2 ^ 64`, that is by exactly `sumOut - reward` when the
coinbase sum is at least the reward and the sum stays below `2 ^ 64`. -/
theorem fee_accounting (monthOf : Nat → Nat) (b : BalanceParser) (c : tChangeSet)
    (hsum : c.sumOut < 2 ^ 64) :
    (c.sumOut < blockReward b → blockFee b c = c.sumOut + 2 ^ 64 - blockReward b) ∧
    (blockReward b ≤ c.sumOut → blockFee b c = c.sumOut - blockReward b) ∧
    (monthOf c.block.BlockTime = b.lastMonth →
      (processBlockApply monthOf b c).sumFee_ = (b.sumFee_ + blockFee b c) % 2 ^ 64) ∧
    (monthOf c.block.BlockTime = b.lastMonth → blockReward b ≤ c.sumOut →
      b.sumFee_ + (c.sumOut - blockReward b) < 2 ^ 64 →
      (processBlockApply monthOf b c).sumFee_ = b.sumFee_ + (c.sumOut - blockReward b)) := by
  have hr := blockReward_le b
  have hlow : c.sumOut < blockReward b →
      blockFee b c = c.sumOut + 2 ^ 64 - blockReward b := by
    intro h
    unfold blockFee
    omega
  have hhigh : blockReward b ≤ c.sumOut → blockFee b c = c.sumOut - blockReward b := by
    intro h
    unfold blockFee
    omega
  refine ⟨hlow, hhigh, ?_, ?_⟩
  · intro hm
    show (if monthOf c.block.BlockTime ≠ b.lastMonth then 0
      else (b.sumFee_ + blockFee b c) % 2 ^ 64) = _
    rw [if_neg (not_not.mpr hm)]
  · intro hm hge hlt
    show (if monthOf c.block.BlockTime ≠ b.lastMonth then 0
      else (b.sumFee_ + blockFee b c) % 2 ^ 64) = _
    rw [if_neg (not_not.mpr hm), hhigh hge]
    exact Nat.mod_eq_of_lt hlt

theorem fee_accounting_witness :
    blockFee initial (loadBlock block1zero) = 0 + 2 ^ 64 - blockReward initial ∧
    blockFee initial (loadBlock block1) = 5000000000 - blockReward initial ∧
    (processBlockApply january initial (loadBlock block1)).sumFee_ =
      initial.sumFee_ + (5000000000 - blockReward initial) :=
  ⟨(fee_accounting january initial (loadBlock block1zero) (by decide)).1 (by decide),
    (fee_accounting january initial (loadBlock block1) (by decide)).2.1 (by decide),
    (fee_accounting january initial (loadBlock block1) (by decide)).2.2.2 (by decide)
      (by decide) (by decide)⟩

/-! ## C17: the month rollover -/

theorem reports_append (l₁ l₂ : List tEvent) : reports (l₁ ++ l₂) = reports l₁ ++ reports l₂ := by
  induction l₁ with
  | nil => rfl
  | cons e es ih =>
    cases e with
    | change c =>
      show reports (es ++ l₂) = reports es ++ reports l₂
      exact ih
    | report t r f =>
      show (t, r, f) :: reports (es ++ l₂) = (t, r, f) :: reports es ++ reports l₂
      rw [ih]
      rfl

theorem reports_map_change (ds : List tBalanceChange) : reports (ds.map tEvent.change) = [] := by
  induction ds with
  | nil => rfl
  | cons d ds ih => exact ih

theorem consume_map_change (ds : List tBalanceChange) :
    ∀ (m : tBalanceMap) (rs : List tReport) (m' : tBalanceMap) (rs' : List tReport),
      consume m rs (ds.map tEvent.change) = some (m', rs') → rs' = rs := by
  induction ds with
  | nil =>
    intro m rs m' rs' h
    simp only [List.map_nil, consume, Option.some.injEq, Prod.mk.injEq] at h
    exact h.2.symm
  | cons d ds ih =>
    intro m rs m' rs' h
    simp only [List.map_cons, consume] at h
    cases hs : processBalanceStep m d with
    | none => simp [hs] at h
    | some m₁ =>
      simp only [hs] at h
      exact ih m₁ rs m' rs' h

/-- C17. Applying a change set `c` emits a report exactly when the month of
its block time differs from `lastMonth`.  In that case exactly one report is
emitted, `saveReport` runs once, on the balances as they are before the
changes of `c`, and its row of `reward.csv` carries the reward and fee sums
including the reward and the fee of `c`; afterwards both sums are `0` and
`lastMonth` is the month of `c`.  When the month equals `lastMonth`, no report
is emitted and the two sums grow by the reward and the fee of `c` (on
`uint64`). -/
theorem month_rollover (monthOf : Nat → Nat) (b : BalanceParser) (c : tChangeSet) :
    (monthOf c.block.BlockTime ≠ b.lastMonth →
      reports (applyEvents monthOf b c) =
        [(c.block.BlockTime, (b.sumReward_ + blockReward b) % 2 ^ 64,
          (b.sumFee_ + blockFee b c) % 2 ^ 64)] ∧
      (∀ m rs m' rs', consume m rs (applyEvents monthOf b c) = some (m', rs') →
        rs' = rs ++ [saveReport m c.block.BlockTime ((b.sumReward_ + blockReward b) % 2 ^ 64)
          ((b.sumFee_ + blockFee b c) % 2 ^ 64)]) ∧
      (∀ m, (saveReport m c.block.BlockTime ((b.sumReward_ + blockReward b) % 2 ^ 64)
            ((b.sumFee_ + blockFee b c) % 2 ^ 64)).sumReward =
          (b.sumReward_ + blockReward b) % 2 ^ 64 ∧
        (saveReport m c.block.BlockTime ((b.sumReward_ + blockReward b) % 2 ^ 64)
            ((b.sumFee_ + blockFee b c) % 2 ^ 64)).sumFee =
          (b.sumFee_ + blockFee b c) % 2 ^ 64) ∧
      (processBlockApply monthOf b c).sumReward_ = 0 ∧
      (processBlockApply monthOf b c).sumFee_ = 0 ∧
      (processBlockApply monthOf b c).lastMonth = monthOf c.block.BlockTime) ∧
    (monthOf c.block.BlockTime = b.lastMonth →
      reports (applyEvents monthOf b c) = [] ∧
      (∀ m rs m' rs', consume m rs (applyEvents monthOf b c) = some (m', rs') → rs' = rs) ∧
      (processBlockApply monthOf b c).sumReward_ = (b.sumReward_ + blockReward b) % 2 ^ 64 ∧
      (processBlockApply monthOf b c).sumFee_ = (b.sumFee_ + blockFee b c) % 2 ^ 64 ∧
      (processBlockApply monthOf b c).lastMonth = b.lastMonth) := by
  constructor
  · intro hm
    have hev : applyEvents monthOf b c =
        tEvent.report c.block.BlockTime ((b.sumReward_ + blockReward b) % 2 ^ 64)
          ((b.sumFee_ + blockFee b c) % 2 ^ 64) ::
        ((creditPhase b.unspentMap_ c.balanceMap).2 ++
          (debitPhase (creditPhase b.unspentMap_ c.balanceMap).1 c.spentMap).2).map
            tEvent.change := by
      unfold applyEvents
      rw [if_pos hm]
      rfl
    refine ⟨?_, ?_, fun _ => ⟨rfl, rfl⟩, ?_, ?_, rfl⟩
    · rw [hev]
      show _ :: reports _ = _
      rw [reports_map_change]
    · intro m rs m' rs' h
      rw [hev] at h
      exact consume_map_change _ m _ m' rs' h
    · show (if monthOf c.block.BlockTime ≠ b.lastMonth then 0
        else (b.sumReward_ + blockReward b) % 2 ^ 64) = 0
      rw [if_pos hm]
    · show (if monthOf c.block.BlockTime ≠ b.lastMonth then 0
        else (b.sumFee_ + blockFee b c) % 2 ^ 64) = 0
      rw [if_pos hm]
  · intro hm
    have hev : applyEvents monthOf b c =
        ((creditPhase b.unspentMap_ c.balanceMap).2 ++
          (debitPhase (creditPhase b.unspentMap_ c.balanceMap).1 c.spentMap).2).map
            tEvent.change := by
      unfold applyEvents
      rw [if_neg (not_not.mpr hm)]
      rfl
    refine ⟨?_, ?_, ?_, ?_, hm⟩
    · rw [hev]
      exact reports_map_change _
    · intro m rs m' rs' h
      rw [hev] at h
      exact consume_map_change _ m rs m' rs' h
    · show (if monthOf c.block.BlockTime ≠ b.lastMonth then 0
        else (b.sumReward_ + blockReward b) % 2 ^ 64) = _
      rw [if_neg (not_not.mpr hm)]
    · show (if monthOf c.block.BlockTime ≠ b.lastMonth then 0
        else (b.sumFee_ + blockFee b c) % 2 ^ 64) = _
      rw [if_neg (not_not.mpr hm)]

theorem month_rollover_witness :
    (reports (applyEvents (fun t => t) initial (loadBlock block1)) =
        [(0, (0 + blockReward initial) % 2 ^ 64,
          (0 + blockFee initial (loadBlock block1)) % 2 ^ 64)] ∧
      (processBlockApply (fun t => t) initial (loadBlock block1)).sumReward_ = 0 ∧
      (processBlockApply (fun t => t) initial (loadBlock block1)).sumFee_ = 0) ∧
    (reports (applyEvents january initial (loadBlock block1)) = [] ∧
      (processBlockApply january initial (loadBlock block1)).sumReward_ =
        (0 + blockReward initial) % 2 ^ 64) :=
  have h₁ := (month_rollover (fun t => t) initial (loadBlock block1)).1 (by decide)
  have h₂ := (month_rollover january initial (loadBlock block1)).2 rfl
  ⟨⟨h₁.1, h₁.2.2.2.1, h₁.2.2.2.2.1⟩, ⟨h₂.1, h₂.2.2.1⟩⟩

/-! ## C16: the blocks fetched by `Parse` -/

theorem fetchLoop_eq_take (n : Nat) : ∀ db : List Block, fetchLoop n db = db.take n := by
  induction n with
  | zero =>
    intro db
    cases db <;> rfl
  | succ n ih =>
    intro db
    cases db with
    | nil => rfl
    | cons dat db =>
      show dat :: fetchLoop n db = dat :: db.take n
      rw [ih]

/-- C16 (code defect).  `Parse` hands to the loader the first `1000000` blocks
of the database whatever `_blockNO` is, and clears `outDir` whatever it holds:
called with `_blockNO = 1` on an `outDir` holding the checkpoint directory
`0.1`, which `loadMap` would select, and a database of two blocks, it clears
`outDir` and loads both blocks. -/
theorem Parse_ignores_endBlock :
    (∀ (n : Nat) (files : List FileInfo) (db : List Block),
      (Parse n files db).loaded = db.take 1000000 ∧ (Parse n files db).cleared = true) ∧
    (Parse 1 [checkpointDir (0, 1)] [block1, block2]).loaded = [block1, block2] ∧
    loadMap 1 [checkpointDir (0, 1)] = some (checkpointDir (0, 1)) ∧
    min [block1, block2].length 1 = 1 := by
  refine ⟨fun n files db => ⟨fetchLoop_eq_take _ db, rfl⟩, by decide, by decide, by decide⟩

/-! ## C18: the rows of the top-N reports -/

theorem topStep_sum (k : Nat) (s : tTopRows) (v : Nat) :
    (topStep k s v).sum = (s.sum + v) % 2 ^ 64 := by
  unfold topStep
  split_ifs <;> rfl

theorem topStep_row100 (k : Nat) (s : tTopRows) (v : Nat) :
    (topStep k s v).row100 = if k = 99 then some ((s.sum + v) % 2 ^ 64) else s.row100 := by
  unfold topStep
  split_ifs <;> rfl

theorem topStep_row1000 (k : Nat) (s : tTopRows) (v : Nat) :
    (topStep k s v).row1000 = if k = 999 then some ((s.sum + v) % 2 ^ 64) else s.row1000 := by
  unfold topStep
  split_ifs <;> first | rfl | omega

theorem topStep_row10000 (k : Nat) (s : tTopRows) (v : Nat) :
    (topStep k s v).row10000 =
      if k = 9999 then some ((s.sum + v) % 2 ^ 64) else s.row10000 := by
  unfold topStep
  split_ifs <;> first | rfl | omega

theorem topLoop_sum (vs : List Nat) :
    ∀ (k : Nat) (s : tTopRows), s.sum < 2 ^ 64 →
      (topLoop k s vs).sum = (s.sum + vs.sum) % 2 ^ 64 := by
  induction vs with
  | nil =>
    intro k s hs
    show s.sum = (s.sum + 0) % 2 ^ 64
    omega
  | cons v vs ih =>
    intro k s _
    show (topLoop (k + 1) (topStep k s v) vs).sum = _
    rw [ih (k + 1) (topStep k s v) (by rw [topStep_sum]; omega), topStep_sum, List.sum_cons]
    omega

/-- The row written at the index `mark`: it is written when the loop passes
that index, with the sum of the values up to it. -/
theorem topLoop_row (mark : Nat) (row : tTopRows → Option Nat)
    (hrow : ∀ k s v, row (topStep k s v) =
      if k = mark then some ((s.sum + v) % 2 ^ 64) else row s)
    (vs : List Nat) :
    ∀ (k : Nat) (s : tTopRows), s.sum < 2 ^ 64 →
      row (topLoop k s vs) =
        if k ≤ mark ∧ mark < k + vs.length then
          some ((s.sum + (vs.take (mark + 1 - k)).sum) % 2 ^ 64)
        else row s := by
  induction vs with
  | nil =>
    intro k s _
    show row s = _
    rw [if_neg]
    simp only [List.length_nil]
    omega
  | cons v vs ih =>
    intro k s _
    show row (topLoop (k + 1) (topStep k s v) vs) = _
    rw [ih (k + 1) (topStep k s v) (by rw [topStep_sum]; omega), hrow, topStep_sum]
    simp only [List.length_cons]
    by_cases hlt : k < mark
    · have hk : ¬ k = mark := by omega
      have e : mark + 1 - k = (mark + 1 - (k + 1)) + 1 := by omega
      rw [if_neg hk, e, List.take_succ_cons, List.sum_cons]
      by_cases hc : mark < k + 1 + vs.length
      · rw [if_pos ⟨by omega, hc⟩, if_pos ⟨by omega, by omega⟩]
        congr 1
        omega
      · rw [if_neg (fun h => hc h.2), if_neg (fun h => hc (by omega))]
    · by_cases hk : k = mark
      · subst hk
        rw [if_neg (by omega), if_pos rfl, if_pos ⟨le_refl _, by omega⟩]
        have e : k + 1 - k = 1 := by omega
        rw [e]
        simp
      · rw [if_neg (by omega), if_neg hk, if_neg (by omega)]

theorem balanceSumLoop_eq (vs : List Nat) :
    ∀ acc, acc < 2 ^ 64 → balanceSumLoop acc vs = (acc + vs.sum) % 2 ^ 64 := by
  induction vs with
  | nil =>
    intro acc h
    show acc = (acc + 0) % 2 ^ 64
    omega
  | cons v vs ih =>
    intro acc _
    show balanceSumLoop ((acc + v) % 2 ^ 64) vs = _
    rw [ih _ (by omega), List.sum_cons]
    omega

theorem sumBalance_eq_sum (m : tBalanceMap) : sumBalance m = (m.map Prod.snd).sum := by
  induction m with
  | nil => rfl
  | cons e t ih =>
    obtain ⟨a, v⟩ := e
    show v + GoMap.total (fun v => v) t = _
    rw [List.map_cons, List.sum_cons]
    exact congrArg _ ih

theorem topListSorted_length (m : tBalanceMap) :
    (topListSorted 100000 (m.map Prod.snd)).length = min 100000 m.length := by
  simp [topListSorted, List.length_take, List.length_insertionSort]

theorem take_topListSorted (k : Nat) (hk : k ≤ 100000) (m : tBalanceMap) :
    (topListSorted 100000 (m.map Prod.snd)).take k = largest k m := by
  unfold topListSorted largest
  rw [List.take_take, Nat.min_eq_left hk]

theorem sum_largest_le (k : Nat) (m : tBalanceMap) : (largest k m).sum ≤ sumBalance m := by
  rw [sumBalance_eq_sum, ← (List.perm_insertionSort (fun a b : Nat => b ≤ a) (m.map Prod.snd)).sum_eq]
  exact List.Sublist.sum_le_sum (List.take_sublist _ _) (fun _ _ => Nat.zero_le _)

/-- C18. With `TopList.Sorted` returning the `min(n, 100000)` largest balances
in descending order, the rows appended by `saveReport` for a balance map of
`n` entries are: in `balance.csv`, the count `n` and the sum of all balances;
in `balanceK.csv`, for `K` among `100`, `1000`, `10000` and `100000`, a row
exactly when `n ≥ K`, whose sum is the sum of the `K` largest balances.  The
sums are `uint64` sums: taken modulo `2 ^ 64`, hence exact whenever the sum of
all balances is below `2 ^ 64`. -/
theorem saveReport_rows (m : tBalanceMap) (t r f : Nat) :
    (saveReport m t r f).balanceNum = m.length ∧
    (saveReport m t r f).balanceSum = sumBalance m % 2 ^ 64 ∧
    (saveReport m t r f).top100 =
      (if 100 ≤ m.length then some ((largest 100 m).sum % 2 ^ 64) else none) ∧
    (saveReport m t r f).top1000 =
      (if 1000 ≤ m.length then some ((largest 1000 m).sum % 2 ^ 64) else none) ∧
    (saveReport m t r f).top10000 =
      (if 10000 ≤ m.length then some ((largest 10000 m).sum % 2 ^ 64) else none) ∧
    (saveReport m t r f).top100000 =
      (if 100000 ≤ m.length then some ((largest 100000 m).sum % 2 ^ 64) else none) ∧
    (sumBalance m < 2 ^ 64 →
      sumBalance m % 2 ^ 64 = sumBalance m ∧
      ∀ k, (largest k m).sum % 2 ^ 64 = (largest k m).sum) := by
  have hlen := topListSorted_length m
  have hrow : ∀ (mark : Nat) (row : tTopRows → Option Nat),
      (∀ k s v, row (topStep k s v) =
        if k = mark then some ((s.sum + v) % 2 ^ 64) else row s) →
      row ⟨0, none, none, none⟩ = none → mark + 1 ≤ 100000 →
      row (topLoop 0 ⟨0, none, none, none⟩ (topListSorted 100000 (m.map Prod.snd))) =
        if mark + 1 ≤ m.length then some ((largest (mark + 1) m).sum % 2 ^ 64) else none := by
    intro mark row h1 h2 h3
    rw [topLoop_row mark row h1 _ 0 ⟨0, none, none, none⟩ (by decide), hlen, h2]
    by_cases hn : mark + 1 ≤ m.length
    · rw [if_pos ⟨Nat.zero_le _, by omega⟩, if_pos hn]
      show some ((0 + ((topListSorted 100000 (m.map Prod.snd)).take (mark + 1 - 0)).sum) %
        2 ^ 64) = _
      rw [Nat.sub_zero, take_topListSorted _ h3, Nat.zero_add]
    · rw [if_neg (by omega), if_neg hn]
  refine ⟨rfl, ?_, ?_, ?_, ?_, ?_, ?_⟩
  · show balanceSumLoop 0 (m.map Prod.snd) = _
    rw [balanceSumLoop_eq _ 0 (by decide), sumBalance_eq_sum, Nat.zero_add]
  · exact hrow 99 (fun s => s.row100) topStep_row100 rfl (by decide)
  · exact hrow 999 (fun s => s.row1000) topStep_row1000 rfl (by decide)
  · exact hrow 9999 (fun s => s.row10000) topStep_row10000 rfl (by decide)
  · show (if 100000 ≤ (topListSorted 100000 (m.map Prod.snd)).length then
        some (topLoop 0 ⟨0, none, none, none⟩ (topListSorted 100000 (m.map Prod.snd))).sum
      else none) = _
    rw [hlen, topLoop_sum _ 0 ⟨0, none, none, none⟩ (by decide)]
    by_cases hn : 100000 ≤ m.length
    · rw [if_pos (by omega), if_pos hn]
      have e : topListSorted 100000 (m.map Prod.snd) = largest 100000 m := rfl
      show some ((0 + (topListSorted 100000 (m.map Prod.snd)).sum) % 2 ^ 64) = _
      rw [e, Nat.zero_add]
    · rw [if_neg (by omega), if_neg hn]
  · intro hlt
    refine ⟨Nat.mod_eq_of_lt hlt, fun k => Nat.mod_eq_of_lt ?_⟩
    exact lt_of_le_of_lt (sum_largest_le k m) hlt

theorem saveReport_rows_witness :
    (saveReport [("a", 5), ("b", 7)] 0 1 2).balanceNum = 2 ∧
    (saveReport [("a", 5), ("b", 7)] 0 1 2).balanceSum = 12 ∧
    (saveReport [("a", 5), ("b", 7)] 0 1 2).top100 = none ∧
    sumBalance [("a", 5), ("b", 7)] % 2 ^ 64 = sumBalance [("a", 5), ("b", 7)] ∧
    (largest 1 [("a", 5), ("b", 7)]).sum % 2 ^ 64 = (largest 1 [("a", 5), ("b", 7)]).sum :=
  have h := saveReport_rows [("a", 5), ("b", 7)] 0 1 2
  ⟨h.1, by decide, by decide, (h.2.2.2.2.2.2 (by decide)).1, (h.2.2.2.2.2.2 (by decide)).2 1⟩

/-! ## Decimal text, fields and lines -/

theorem digitValue_digitChar (k : Nat) (h : k < 10) :
    digitValue (Nat.digitChar k) = some k := by
  interval_cases k <;> rfl

theorem toDigitsCore_spec :
    ∀ (fuel n : Nat) (acc : List Char), n < fuel →
      ∃ ds, Nat.toDigitsCore 10 fuel n acc = ds ++ acc ∧ ds ≠ [] ∧
        (∀ c ∈ ds, ∃ d, digitValue c = some d) ∧
        ∀ a rest, parseDigits a (ds ++ rest) = parseDigits (a * 10 ^ ds.length + n) rest := by
  intro fuel
  induction fuel with
  | zero =>
    intro n acc h
    omega
  | succ fuel ih =>
    intro n acc h
    have hunfold : Nat.toDigitsCore 10 (fuel + 1) n acc =
        if n / 10 = 0 then Nat.digitChar (n % 10) :: acc
        else Nat.toDigitsCore 10 fuel (n / 10) (Nat.digitChar (n % 10) :: acc) := rfl
    have hd := digitValue_digitChar (n % 10) (Nat.mod_lt _ (by decide))
    by_cases h0 : n / 10 = 0
    · rw [hunfold, if_pos h0]
      refine ⟨[Nat.digitChar (n % 10)], rfl, by simp, ?_, ?_⟩
      · intro c hc
        simp only [List.mem_singleton] at hc
        exact ⟨n % 10, hc ▸ hd⟩
      · intro a rest
        have hn : n % 10 = n := by omega
        have e : parseDigits a (Nat.digitChar (n % 10) :: rest) =
            parseDigits (a * 10 + n % 10) rest := by
          simp only [parseDigits, hd]
        show parseDigits a (Nat.digitChar (n % 10) :: rest) = _
        rw [e, hn, List.length_singleton, pow_one]
    · rw [hunfold, if_neg h0]
      obtain ⟨ds, h1, h2, h3, h4⟩ := ih (n / 10) (Nat.digitChar (n % 10) :: acc) (by omega)
      refine ⟨ds ++ [Nat.digitChar (n % 10)], by rw [h1]; simp, by simp, ?_, ?_⟩
      · intro c hc
        rcases List.mem_append.mp hc with hc | hc
        · exact h3 c hc
        · simp only [List.mem_singleton] at hc
          exact ⟨n % 10, hc ▸ hd⟩
      · intro a rest
        have e : (ds ++ [Nat.digitChar (n % 10)]) ++ rest =
            ds ++ (Nat.digitChar (n % 10) :: rest) := by simp
        rw [e, h4]
        simp only [parseDigits, hd, List.length_append, List.length_singleton]
        congr 1
        rw [pow_succ, ← Nat.mul_assoc]
        generalize a * 10 ^ ds.length = x
        omega

theorem formatUint_spec (n : Nat) :
    formatUint n ≠ [] ∧ (∀ c ∈ formatUint n, ∃ d, digitValue c = some d) ∧
      parseDigits 0 (formatUint n) = some n := by
  obtain ⟨ds, h1, h2, h3, h4⟩ := toDigitsCore_spec (n + 1) n [] (Nat.lt_succ_self n)
  have e : formatUint n = ds := by
    show Nat.toDigitsCore 10 (n + 1) n [] = ds
    rw [h1, List.append_nil]
  rw [e]
  refine ⟨h2, h3, ?_⟩
  have := h4 0 []
  rw [List.append_nil] at this
  rw [this]
  simp [parseDigits]

theorem ParseUint_formatUint (n : Nat) (h : n < 2 ^ 64) : ParseUint (formatUint n) = some n := by
  obtain ⟨h1, _, h3⟩ := formatUint_spec n
  cases hf : formatUint n with
  | nil => exact absurd hf h1
  | cons c cs =>
    rw [hf] at h3
    simp only [ParseUint, h3, h, if_true]

theorem not_mem_formatUint (n : Nat) (c : Char) (hc : digitValue c = none) :
    c ∉ formatUint n := by
  intro hmem
  obtain ⟨d, hd⟩ := (formatUint_spec n).2.1 c hmem
  rw [hc] at hd
  cases hd

theorem split_of_not_mem (sep : Char) (l : List Char) (h : sep ∉ l) : split sep l = [l] := by
  induction l with
  | nil => rfl
  | cons c cs ih =>
    simp only [List.mem_cons, not_or] at h
    have hc : ¬ c = sep := fun e => h.1 e.symm
    simp only [split, hc, if_false, ih h.2]

theorem split_append_sep (sep : Char) (l r : List Char) (h : sep ∉ l) :
    split sep (l ++ sep :: r) = l :: split sep r := by
  induction l with
  | nil => simp [split]
  | cons c cs ih =>
    simp only [List.mem_cons, not_or] at h
    have hc : ¬ c = sep := fun e => h.1 e.symm
    simp only [List.cons_append, split, hc, if_false, List.append_eq, ih h.2]

theorem scanLinesAux_line (body rest : List Char) (h : '\n' ∉ body) :
    ∀ cur, scanLinesAux cur (body ++ '\n' :: rest) =
      dropCR (cur ++ body) :: scanLinesAux [] rest := by
  induction body with
  | nil =>
    intro cur
    simp [scanLinesAux]
  | cons c cs ih =>
    intro cur
    simp only [List.mem_cons, not_or] at h
    have hc : ¬ c = '\n' := fun e => h.1 e.symm
    simp only [List.cons_append, scanLinesAux, hc, if_false, List.append_eq]
    rw [ih h.2]
    simp

theorem scanLines_lines (bodies : List (List Char))
    (h : ∀ b ∈ bodies, '\n' ∉ b ∧ dropCR b = b) :
    scanLines (bodies.map fun b => b ++ ['\n']).flatten = bodies := by
  induction bodies with
  | nil => rfl
  | cons b bs ih =>
    have hb := h b (List.mem_cons_self _ _)
    have e : ((b :: bs).map fun b => b ++ ['\n']).flatten =
        b ++ '\n' :: (bs.map fun b => b ++ ['\n']).flatten := by simp
    unfold scanLines at ih ⊢
    rw [e, scanLinesAux_line b _ hb.1 [], List.nil_append, hb.2,
      ih (fun x hx => h x (List.mem_cons_of_mem _ hx))]

theorem exists_perm_of_perm_map {α β : Type} (f : α → β) {l' m : List β} (h : l'.Perm m) :
    ∀ l : List α, m = l.map f → ∃ es : List α, es.Perm l ∧ es.map f = l' := by
  induction h with
  | nil =>
    intro l hl
    exact ⟨l, List.Perm.refl l, hl.symm⟩
  | cons x _ ih =>
    intro l hl
    cases l with
    | nil => simp at hl
    | cons a l₀ =>
      simp only [List.map_cons, List.cons.injEq] at hl
      obtain ⟨es, h1, h2⟩ := ih l₀ hl.2
      exact ⟨a :: es, h1.cons a, by simp [h2, hl.1]⟩
  | swap x y t =>
    intro l hl
    cases l with
    | nil => simp at hl
    | cons a l₁ =>
      cases l₁ with
      | nil => simp at hl
      | cons b l₀ =>
        simp only [List.map_cons, List.cons.injEq] at hl
        exact ⟨b :: a :: l₀, List.Perm.swap a b l₀, by simp [hl.1, hl.2.1, hl.2.2]⟩
  | trans _ _ ih₁ ih₂ =>
    intro l hl
    obtain ⟨es₁, h1, h2⟩ := ih₂ l hl
    obtain ⟨es, h3, h4⟩ := ih₁ es₁ h2.symm
    exact ⟨es, h3.trans h1, h4⟩

/-! ## C15: checkpoint discovery -/

theorem isDigit_formatUint (n : Nat) : ∀ c ∈ formatUint n, isDigit c = true := by
  intro c hc
  obtain ⟨d, hd⟩ := (formatUint_spec n).2.1 c hc
  simp only [isDigit, hd, Option.isSome_some]

theorem takeWhile_digits (x : Char) (r : List Char) (hx : isDigit x = false) :
    ∀ ds : List Char, (∀ c ∈ ds, isDigit c = true) →
      (ds ++ x :: r).takeWhile isDigit = ds ∧ (ds ++ x :: r).dropWhile isDigit = x :: r := by
  intro ds
  induction ds with
  | nil =>
    intro _
    simp [hx]
  | cons c cs ih =>
    intro h
    have hc := h c (List.mem_cons_self _ _)
    have ih' := ih (fun y hy => h y (List.mem_cons_of_mem _ hy))
    simp [hc, ih'.1, ih'.2]

theorem takeWhile_all_digits :
    ∀ ds : List Char, (∀ c ∈ ds, isDigit c = true) → ds.takeWhile isDigit = ds := by
  intro ds
  induction ds with
  | nil =>
    intro _
    rfl
  | cons c cs ih =>
    intro h
    have hc := h c (List.mem_cons_self _ _)
    simp only [List.takeWhile, hc, ih (fun y hy => h y (List.mem_cons_of_mem _ hy))]

theorem matchHere_name (d : Nat × Nat) :
    matchHere (formatUint d.1 ++ '.' :: formatUint d.2) =
      some (formatUint d.1, formatUint d.2) := by
  have h1 := takeWhile_digits '.' (formatUint d.2) (by decide) (formatUint d.1)
    (isDigit_formatUint d.1)
  have h2 := takeWhile_all_digits (formatUint d.2) (isDigit_formatUint d.2)
  unfold matchHere
  rw [h1.2]
  simp [h1.1, h2, (formatUint_spec d.1).1, (formatUint_spec d.2).1]

theorem FindStringSubmatch_of_matchHere (s : List Char) (g : List Char × List Char)
    (h : matchHere s = some g) : FindStringSubmatch s = some g := by
  cases s with
  | nil =>
    simp [matchHere] at h
  | cons c cs =>
    simp only [FindStringSubmatch, h]

theorem Atoi_formatUint (n : Nat) (h : n < 2 ^ 63) : Atoi (formatUint n) = some (n : Int) := by
  obtain ⟨h1, h2, h3⟩ := formatUint_spec n
  cases hf : formatUint n with
  | nil => exact absurd hf h1
  | cons c cs =>
    rw [hf] at h2 h3
    obtain ⟨v, hv⟩ := h2 c (List.mem_cons_self _ _)
    have hm : ¬ c = '-' := by
      intro e
      have hn : digitValue '-' = none := by decide
      rw [e, hn] at hv
      cases hv
    have hp : ¬ c = '+' := by
      intro e
      have hn : digitValue '+' = none := by decide
      rw [e, hn] at hv
      cases hv
    simp only [Atoi, hm, hp, if_false, h3, h, if_true]

/-- One iteration of the loop of `loadMap` on a subdirectory named `N.M` with
`N < 2 ^ 63` and `M < 2 ^ 32`. -/
theorem loadMapLoop_checkpointDir (endBlock : Nat) (s : tLoadMap) (d : Nat × Nat)
    (fs : List FileInfo) (h1 : d.1 < 2 ^ 63) (h2 : d.2 < 2 ^ 32) :
    loadMapLoop endBlock s (checkpointDir d :: fs) =
      if d.2 < endBlock then
        if (d.2 : Int) > s.start then
          loadMapLoop endBlock ⟨d.2, some (checkpointDir d), d.1⟩ fs
        else loadMapLoop endBlock s fs
      else if d.2 = endBlock then ⟨d.2, some (checkpointDir d), d.1⟩
      else loadMapLoop endBlock s fs := by
  have hfind : FindStringSubmatch (formatUint d.1 ++ '.' :: formatUint d.2) =
      some (formatUint d.1, formatUint d.2) :=
    FindStringSubmatch_of_matchHere _ _ (matchHere_name d)
  have hmod : (d.2 : Int) % 4294967296 = (d.2 : Int) := by
    have : d.2 < 4294967296 := h2
    omega
  have ha1 := Atoi_formatUint d.1 h1
  have ha2 := Atoi_formatUint d.2 (lt_trans h2 (by decide))
  simp only [loadMapLoop, checkpointDir, if_true, hfind, ha1, ha2, hmod, Nat.cast_lt,
    Nat.cast_inj]

theorem loadMapLoop_spec (endBlock : Nat) :
    ∀ (rest pre : List (Nat × Nat)) (s : tLoadMap),
      (∀ d ∈ rest, d.1 < 2 ^ 63 ∧ d.2 < 2 ^ 32) →
      (0 < s.start → s.start < endBlock ∧ ∃ p₁ d p₂, pre = p₁ ++ d :: p₂ ∧
        s.fi = some (checkpointDir d) ∧ (d.2 : Int) = s.start ∧ ∀ g ∈ p₁, g.2 ≠ d.2) →
      (∀ g ∈ pre, g.2 ≤ endBlock → g.2 < endBlock ∧ (g.2 : Int) ≤ s.start) →
      (0 < (loadMapLoop endBlock s (rest.map checkpointDir)).start →
        ∃ p₁ d p₂, pre ++ rest = p₁ ++ d :: p₂ ∧
          (loadMapLoop endBlock s (rest.map checkpointDir)).fi = some (checkpointDir d) ∧
          (d.2 : Int) = (loadMapLoop endBlock s (rest.map checkpointDir)).start ∧
          d.2 ≤ endBlock ∧ (∀ g ∈ p₁, g.2 ≠ d.2) ∧
          ∀ g ∈ pre ++ rest, g.2 ≤ endBlock → g.2 ≤ d.2) ∧
      (¬ 0 < (loadMapLoop endBlock s (rest.map checkpointDir)).start →
        ∀ g ∈ pre ++ rest, ¬ (0 < g.2 ∧ g.2 ≤ endBlock)) := by
  intro rest
  induction rest with
  | nil =>
    intro pre s _ h1 h2
    simp only [List.map_nil, loadMapLoop, List.append_nil]
    constructor
    · intro hpos
      obtain ⟨hlt, p₁, d, p₂, hpre, hfi, hd, hfirst⟩ := h1 hpos
      refine ⟨p₁, d, p₂, hpre, hfi, hd, by omega, hfirst, ?_⟩
      intro g hg hge
      have := h2 g hg hge
      omega
    · intro h0 g hg hgm
      have := h2 g hg hgm.2
      omega
  | cons d rest ih =>
    intro pre s hM h1 h2
    have hd := hM d (List.mem_cons_self _ _)
    have hM' : ∀ x ∈ rest, x.1 < 2 ^ 63 ∧ x.2 < 2 ^ 32 :=
      fun x hx => hM x (List.mem_cons_of_mem _ hx)
    have happ : pre ++ d :: rest = (pre ++ [d]) ++ rest := by simp
    rw [List.map_cons, loadMapLoop_checkpointDir endBlock s d _ hd.1 hd.2, happ]
    by_cases hlt : d.2 < endBlock
    · rw [if_pos hlt]
      by_cases hgt : (d.2 : Int) > s.start
      · rw [if_pos hgt]
        refine ih (pre ++ [d]) ⟨d.2, some (checkpointDir d), d.1⟩ hM' ?_ ?_
        · intro _
          refine ⟨by show (d.2 : Int) < endBlock; omega, pre, d, [], rfl, rfl, rfl, ?_⟩
          intro g hg hge
          by_cases hle : g.2 ≤ endBlock
          · have := h2 g hg hle
            omega
          · omega
        · intro g hg hle
          rcases List.mem_append.mp hg with hg | hg
          · have := h2 g hg hle
            show g.2 < endBlock ∧ (g.2 : Int) ≤ (d.2 : Int)
            omega
          · simp only [List.mem_singleton] at hg
            subst hg
            exact ⟨hlt, le_refl _⟩
      · rw [if_neg hgt]
        refine ih (pre ++ [d]) s hM' ?_ ?_
        · intro hpos
          obtain ⟨hs, p₁, x, p₂, hpre, hfi, hx, hfirst⟩ := h1 hpos
          exact ⟨hs, p₁, x, p₂ ++ [d], by rw [hpre]; simp, hfi, hx, hfirst⟩
        · intro g hg hle
          rcases List.mem_append.mp hg with hg | hg
          · exact h2 g hg hle
          · simp only [List.mem_singleton] at hg
            subst hg
            exact ⟨hlt, by omega⟩
    · rw [if_neg hlt]
      by_cases heq : d.2 = endBlock
      · rw [if_pos heq]
        rw [← happ]
        constructor
        · intro _
          refine ⟨pre, d, rest, rfl, rfl, rfl, by omega, ?_, ?_⟩
          · intro g hg hge
            by_cases hle : g.2 ≤ endBlock
            · have := h2 g hg hle
              omega
            · omega
          · intro g _ hle
            omega
        · intro h0 g _ hgm
          have : ¬ (0 : Int) < (d.2 : Int) := h0
          omega
      · rw [if_neg heq]
        refine ih (pre ++ [d]) s hM' ?_ ?_
        · intro hpos
          obtain ⟨hs, p₁, x, p₂, hpre, hfi, hx, hfirst⟩ := h1 hpos
          exact ⟨hs, p₁, x, p₂ ++ [d], by rw [hpre]; simp, hfi, hx, hfirst⟩
        · intro g hg hle
          rcases List.mem_append.mp hg with hg | hg
          · exact h2 g hg hle
          · simp only [List.mem_singleton] at hg
            subst hg
            omega

/-- C15 fails as stated.  With the single subdirectory `1.0` and
`endBlock = 5`, the directory has `M = 0 ≤ endBlock`, yet nothing is selected.
With the single subdirectory `9223372036854775808.5` and `endBlock = 10`, the
directory has `M = 5 ≤ endBlock`, yet nothing is selected: `strconv.Atoi` fails
on `N = 2 ^ 63`.  With the single subdirectory `1.4294967299` and
`endBlock = 5`, the directory is selected although `M > endBlock`:
`uint32(M)` is `3`. -/
theorem loadMap_skips_height_zero :
    (loadMap 5 [checkpointDir (1, 0)] = none ∧ (0 : Nat) ≤ 5) ∧
    (loadMap 10 [checkpointDir (9223372036854775808, 5)] = none ∧ (5 : Nat) ≤ 10) ∧
    (loadMap 5 [checkpointDir (1, 4294967299)] = some (checkpointDir (1, 4294967299)) ∧
      ¬ (4294967299 : Nat) ≤ 5) := by
  refine ⟨⟨by decide, by decide⟩, ⟨by decide, by decide⟩, ⟨by decide, by decide⟩⟩

/-- C15, amended.  For every listing of subdirectories named `N.M` with
`N < 2 ^ 63` and `M < 2 ^ 32` and every `endBlock`, the directory selected by
`loadMap` is one with the largest `M` satisfying `M ≤ endBlock`, that `M` being
positive, and the first in listing order among those with that `M`; no
directory is selected exactly when none has `0 < M ≤ endBlock`. -/
theorem loadMap_selects (endBlock : Nat) (dirs : List (Nat × Nat))
    (hM : ∀ d ∈ dirs, d.1 < 2 ^ 63 ∧ d.2 < 2 ^ 32) :
    (∀ f, loadMap endBlock (dirs.map checkpointDir) = some f →
      ∃ pre d post, dirs = pre ++ d :: post ∧ f = checkpointDir d ∧
        0 < d.2 ∧ d.2 ≤ endBlock ∧ (∀ g ∈ dirs, g.2 ≤ endBlock → g.2 ≤ d.2) ∧
        ∀ g ∈ pre, g.2 ≠ d.2) ∧
    (loadMap endBlock (dirs.map checkpointDir) = none ↔
      ∀ g ∈ dirs, ¬ (0 < g.2 ∧ g.2 ≤ endBlock)) := by
  have h := loadMapLoop_spec endBlock dirs [] ⟨0, none, -1⟩ hM
    (fun h => absurd h (lt_irrefl 0)) (fun g hg => by simp at hg)
  simp only [List.nil_append] at h
  constructor
  · intro f hf
    unfold loadMap at hf
    by_cases hpos : 0 < (loadMapLoop endBlock ⟨0, none, -1⟩ (dirs.map checkpointDir)).start
    · rw [if_pos hpos] at hf
      obtain ⟨p₁, d, p₂, hd, hfi, hstart, hle, hfirst, hmax⟩ := h.1 hpos
      rw [hfi] at hf
      cases hf
      exact ⟨p₁, d, p₂, hd, rfl, by omega, hle, hmax, hfirst⟩
    · rw [if_neg hpos] at hf
      cases hf
  · constructor
    · intro hnone
      unfold loadMap at hnone
      by_cases hpos : 0 < (loadMapLoop endBlock ⟨0, none, -1⟩ (dirs.map checkpointDir)).start
      · rw [if_pos hpos] at hnone
        obtain ⟨p₁, d, p₂, _, hfi, _⟩ := h.1 hpos
        rw [hfi] at hnone
        cases hnone
      · exact h.2 hpos
    · intro hall
      unfold loadMap
      by_cases hpos : 0 < (loadMapLoop endBlock ⟨0, none, -1⟩ (dirs.map checkpointDir)).start
      · exfalso
        obtain ⟨p₁, d, p₂, hd, _, hstart, hle, _, _⟩ := h.1 hpos
        exact hall d (hd ▸ List.mem_append_right _ (List.mem_cons_self _ _)) ⟨by omega, hle⟩
      · rw [if_neg hpos]

theorem loadMap_selects_witness :
    loadMap 5 ([(1, 3), (2, 5), (3, 5), (4, 9)].map checkpointDir) = some (checkpointDir (2, 5)) ∧
    ∃ pre d post, [(1, 3), (2, 5), (3, 5), (4, 9)] = pre ++ d :: post ∧
      checkpointDir (2, 5) = checkpointDir d ∧
      0 < d.2 ∧ d.2 ≤ 5 ∧ (∀ g ∈ [(1, 3), (2, 5), (3, 5), (4, 9)], g.2 ≤ 5 → g.2 ≤ d.2) ∧
      ∀ g ∈ pre, g.2 ≠ d.2 :=
  ⟨by decide,
    (loadMap_selects 5 [(1, 3), (2, 5), (3, 5), (4, 9)] (by decide)).1 (checkpointDir (2, 5))
      (by decide)⟩

/-! ## The records of `balance.gz` -/

theorem balanceLine_eq (e : String × Nat) :
    balanceLine e = (e.1.data ++ ' ' :: formatUint e.2) ++ ['\n'] := by
  simp [balanceLine]

theorem split_balance_body (e : String × Nat) (h : ' ' ∉ e.1.data) :
    split ' ' (e.1.data ++ ' ' :: formatUint e.2) = [e.1.data, formatUint e.2] := by
  rw [split_append_sep ' ' _ _ h,
    split_of_not_mem ' ' _ (not_mem_formatUint e.2 ' ' (by decide))]

theorem dropCR_balance_body (e : String × Nat) :
    dropCR (e.1.data ++ ' ' :: formatUint e.2) = e.1.data ++ ' ' :: formatUint e.2 := by
  unfold dropCR
  rw [if_neg]
  intro h
  have hne : ' ' :: formatUint e.2 ≠ [] := by simp
  rw [List.getLast?_append_of_ne_nil _ hne] at h
  have hmem := List.mem_of_getLast?_eq_some h
  rcases List.mem_cons.mp hmem with h1 | h1
  · exact absurd h1 (by decide)
  · exact not_mem_formatUint e.2 '\r' (by decide) h1

/-- On two records of entries whose addresses hold no space, `Less` compares
the balances. -/
theorem less_balanceLine (e₁ e₂ : String × Nat) (h₁ : ' ' ∉ e₁.1.data) (h₂ : ' ' ∉ e₂.1.data)
    (v₁ : e₁.2 < 2 ^ 64) (v₂ : e₂.2 < 2 ^ 64) :
    tSortedBalance.Less (balanceLine e₁) (balanceLine e₂) = decide (e₂.2 < e₁.2) := by
  unfold tSortedBalance.Less
  rw [balanceLine_eq e₁, balanceLine_eq e₂, List.dropLast_concat, List.dropLast_concat,
    split_balance_body e₁ h₁, split_balance_body e₂ h₂]
  simp only [List.length_cons, List.length_nil, and_self, if_true, List.getD_cons_succ,
    List.getD_cons_zero, ParseUint_formatUint e₁.2 v₁, ParseUint_formatUint e₂.2 v₂]

theorem loadBalanceLine_body (m : tBalanceMap) (e : String × Nat) (h : ' ' ∉ e.1.data)
    (v : e.2 < 2 ^ 64) :
    loadBalanceLine m (e.1.data ++ ' ' :: formatUint e.2) = GoMap.set m e.1 e.2 := by
  unfold loadBalanceLine
  rw [split_balance_body e h]
  simp only [List.length_cons, List.length_nil, if_true, List.getD_cons_succ,
    List.getD_cons_zero, ParseUint_formatUint e.2 v]

theorem foldl_set_get {K V : Type} [DecidableEq K] (es : List (K × V)) (k : K) :
    ∀ m₀ : List (K × V), GoMap.NodupKeys es →
      GoMap.get (es.foldl (fun m e => GoMap.set m e.1 e.2) m₀) k =
        match GoMap.get es k with
        | some v => some v
        | none => GoMap.get m₀ k := by
  induction es with
  | nil =>
    intro m₀ _
    rfl
  | cons e t ih =>
    intro m₀ hn
    obtain ⟨k', v'⟩ := e
    have hn' : k' ∉ t.map Prod.fst ∧ GoMap.NodupKeys t := by
      simpa [GoMap.NodupKeys] using hn
    show GoMap.get (t.foldl (fun m e => GoMap.set m e.1 e.2) (GoMap.set m₀ k' v')) k = _
    rw [ih _ hn'.2]
    by_cases hk : k' = k
    · subst hk
      rw [GoMap.get_eq_none_iff.mpr hn'.1]
      simp [GoMap.get, GoMap.get_set_self]
    · simp only [GoMap.get, hk, if_false]
      cases GoMap.get t k with
      | some v => rfl
      | none => exact GoMap.get_set_ne _ _ _ _ (fun h => hk h.symm)

theorem get_perm {K V : Type} [DecidableEq K] {es m : List (K × V)} (hn : GoMap.NodupKeys m)
    (hp : es.Perm m) (k : K) : GoMap.get es k = GoMap.get m k := by
  have hn' : GoMap.NodupKeys es := (hp.map Prod.fst).nodup_iff.mpr hn
  cases hm : GoMap.get m k with
  | some v => exact GoMap.get_of_mem hn' (hp.mem_iff.mpr (GoMap.mem_of_get hm))
  | none =>
    rw [GoMap.get_eq_none_iff] at hm ⊢
    exact fun h => hm ((hp.map Prod.fst).mem_iff.mp h)

theorem foldl_loadBalanceLine (es : List (String × Nat))
    (h : ∀ e ∈ es, ' ' ∉ e.1.data ∧ e.2 < 2 ^ 64) :
    ∀ m₀ : tBalanceMap,
      (es.map fun e => e.1.data ++ ' ' :: formatUint e.2).foldl loadBalanceLine m₀ =
        es.foldl (fun m e => GoMap.set m e.1 e.2) m₀ := by
  induction es with
  | nil =>
    intro m₀
    rfl
  | cons e t ih =>
    intro m₀
    have he := h e (List.mem_cons_self _ _)
    simp only [List.map_cons, List.foldl_cons, loadBalanceLine_body m₀ e he.1 he.2]
    exact ih (fun x hx => h x (List.mem_cons_of_mem _ hx)) _

/-! ## C13: the round trip of the balance map -/

/-- C13 fails as stated: the entry of an address holding a space, as the string
of a raw script can, is written as a line of three fields, which `loadBalance`
skips. -/
theorem loadBalance_drops_address_with_space :
    loadBalance [] (balanceLines [("a", 5), ("b c", 7)]).flatten = [("a", 5)] ∧
    GoMap.get [("a", 5), ("b c", 7)] "b c" = some 7 := by
  refine ⟨by decide, by decide⟩

/-- C13, amended.  For every balance map (keys pairwise distinct, balances in
`uint64`) whose addresses hold neither a space nor a newline, reading with
`loadBalance`, into an empty map, the lines written by `saveBalance`, in
whatever order `sort.Sort` leaves them, gives back the map: every address has
the balance it had, and no other address is present. -/
theorem balance_round_trip (m : tBalanceMap) (written : List (List Char))
    (hn : GoMap.NodupKeys m)
    (haddr : ∀ e ∈ m, ' ' ∉ e.1.data ∧ '\n' ∉ e.1.data) (hval : ∀ e ∈ m, e.2 < 2 ^ 64)
    (hw : written.Perm (balanceLines m)) :
    ∀ a, GoMap.get (loadBalance [] written.flatten) a = GoMap.get m a := by
  intro a
  obtain ⟨es, hp, hmap⟩ := exists_perm_of_perm_map balanceLine hw m rfl
  have hes : ∀ e ∈ es, e ∈ m := fun e he => hp.mem_iff.mp he
  have hlines : written = (es.map fun e => e.1.data ++ ' ' :: formatUint e.2).map
      fun b => b ++ ['\n'] := by
    rw [← hmap, List.map_map]
    exact List.map_congr_left (fun e _ => balanceLine_eq e)
  have hscan : scanLines written.flatten =
      es.map fun e => e.1.data ++ ' ' :: formatUint e.2 := by
    rw [hlines]
    apply scanLines_lines
    intro b hb
    obtain ⟨e, he, rfl⟩ := List.mem_map.mp hb
    refine ⟨?_, dropCR_balance_body e⟩
    intro hmem
    rcases List.mem_append.mp hmem with h1 | h1
    · exact (haddr e (hes e he)).2 h1
    · rcases List.mem_cons.mp h1 with h2 | h2
      · exact absurd h2 (by decide)
      · exact not_mem_formatUint e.2 '\n' (by decide) h2
  unfold loadBalance
  rw [hscan, foldl_loadBalanceLine es
    (fun e he => ⟨(haddr e (hes e he)).1, hval e (hes e he)⟩) [],
    foldl_set_get es a [] ((hp.map Prod.fst).nodup_iff.mpr hn), get_perm hn hp a]
  cases GoMap.get m a <;> rfl

theorem balance_round_trip_witness :
    loadBalance [] ([balanceLine ("addrG", 9000000000), balanceLine ("addrB", 1000000000)]).flatten =
        [("addrG", 9000000000), ("addrB", 1000000000)] ∧
    ∀ a, GoMap.get (loadBalance []
        ([balanceLine ("addrG", 9000000000), balanceLine ("addrB", 1000000000)]).flatten) a =
      GoMap.get [("addrB", 1000000000), ("addrG", 9000000000)] a :=
  ⟨by decide,
    balance_round_trip [("addrB", 1000000000), ("addrG", 9000000000)]
      [balanceLine ("addrG", 9000000000), balanceLine ("addrB", 1000000000)]
      (by unfold GoMap.NodupKeys; decide) (by decide) (by decide)
      (List.Perm.swap _ _ [])⟩

/-! ## C12: the round trip of the unspent map -/

/-- C12 (code defect).  The unspent map held after `block1` and `block2` has
one transaction with one unspent output and one with two.  Of the two records
`saveUnspent` writes, `loadUnspent` reads back only the first: the record of
the transaction with two outputs splits at the commas into three fields, and
the test `len(tokens) == 2` skips it. -/
theorem loadUnspent_drops_record_of_two_outputs :
    (processBlock january [loadBlock block1, loadBlock block2]).map (fun st => st.unspentMap_) =
      some [(8, [(0, ⟨"addrG", 5000000000⟩)]),
        (9, [(0, ⟨"addrB", 1000000000⟩), (1, ⟨"addrG", 4000000000⟩)])] ∧
    loadUnspent [] (saveUnspent [(8, [(0, ⟨"addrG", 5000000000⟩)]),
        (9, [(0, ⟨"addrB", 1000000000⟩), (1, ⟨"addrG", 4000000000⟩)])]) =
      some [(8, [(0, ⟨"addrG", 5000000000⟩)])] ∧
    (split ',' (unspentRecord
      (9, [(0, ⟨"addrB", 1000000000⟩), (1, ⟨"addrG", 4000000000⟩)])).dropLast).length = 3 := by
  refine ⟨by decide, by decide, by decide⟩

/-! ## C14 and C20: the order of the records of `balance.gz` -/

theorem strictWeakOn_balanceLines (m : tBalanceMap) (haddr : ∀ e ∈ m, ' ' ∉ e.1.data)
    (hval : ∀ e ∈ m, e.2 < 2 ^ 64) :
    StrictWeakOn tSortedBalance.Less (balanceLines m) := by
  have key : ∀ a ∈ balanceLines m, ∀ b ∈ balanceLines m,
      ∃ e₁ e₂ : String × Nat, tSortedBalance.Less a b = decide (e₂.2 < e₁.2) ∧
        tSortedBalance.Less b a = decide (e₁.2 < e₂.2) ∧
        tSortedBalance.Less a a = decide (e₁.2 < e₁.2) ∧ a = balanceLine e₁ ∧
        b = balanceLine e₂ ∧ e₁ ∈ m ∧ e₂ ∈ m := by
    intro a ha b hb
    obtain ⟨e₁, h₁, rfl⟩ := List.mem_map.mp ha
    obtain ⟨e₂, h₂, rfl⟩ := List.mem_map.mp hb
    exact ⟨e₁, e₂,
      less_balanceLine e₁ e₂ (haddr e₁ h₁) (haddr e₂ h₂) (hval e₁ h₁) (hval e₂ h₂),
      less_balanceLine e₂ e₁ (haddr e₂ h₂) (haddr e₁ h₁) (hval e₂ h₂) (hval e₁ h₁),
      less_balanceLine e₁ e₁ (haddr e₁ h₁) (haddr e₁ h₁) (hval e₁ h₁) (hval e₁ h₁),
      rfl, rfl, h₁, h₂⟩
  refine ⟨?_, ?_, ?_, ?_⟩
  · intro a ha
    obtain ⟨e₁, _, _, _, h, _⟩ := key a ha a ha
    rw [h]
    simp
  · intro a ha b hb hab
    obtain ⟨e₁, e₂, h₁, h₂, _⟩ := key a ha b hb
    rw [h₁] at hab
    rw [h₂]
    simp only [decide_eq_true_eq, decide_eq_false_iff_not] at hab ⊢
    omega
  · intro a ha b hb c hc hab hbc
    obtain ⟨e₁, _, _, _, _, ea, _, h₁, _⟩ := key a ha b hb
    obtain ⟨e₂, _, _, _, _, eb, _, h₂, _⟩ := key b hb c hc
    obtain ⟨e₃, _, _, _, _, ec, _, h₃, _⟩ := key c hc a ha
    subst ea eb ec
    rw [less_balanceLine _ _ (haddr _ h₁) (haddr _ h₂) (hval _ h₁) (hval _ h₂)] at hab
    rw [less_balanceLine _ _ (haddr _ h₂) (haddr _ h₃) (hval _ h₂) (hval _ h₃)] at hbc
    rw [less_balanceLine _ _ (haddr _ h₁) (haddr _ h₃) (hval _ h₁) (hval _ h₃)]
    simp only [decide_eq_true_eq] at hab hbc ⊢
    omega
  · intro a ha b hb c hc hab hbc
    obtain ⟨e₁, _, _, _, _, ea, _, h₁, _⟩ := key a ha b hb
    obtain ⟨e₂, _, _, _, _, eb, _, h₂, _⟩ := key b hb c hc
    obtain ⟨e₃, _, _, _, _, ec, _, h₃, _⟩ := key c hc a ha
    subst ea eb ec
    rw [less_balanceLine _ _ (haddr _ h₁) (haddr _ h₂) (hval _ h₁) (hval _ h₂)] at hab
    rw [less_balanceLine _ _ (haddr _ h₂) (haddr _ h₃) (hval _ h₂) (hval _ h₃)] at hbc
    rw [less_balanceLine _ _ (haddr _ h₁) (haddr _ h₃) (hval _ h₁) (hval _ h₃)]
    simp only [decide_eq_false_iff_not] at hab hbc ⊢
    omega

/-- C14 fails as stated: two records of equal balance are not ordered by their
length; `Less` is false on them although the first is the shorter. -/
theorem less_ignores_length_on_equal_balances :
    tSortedBalance.Less (balanceLine ("a", 5)) (balanceLine ("bb", 5)) = false ∧
    (balanceLine ("a", 5)).length < (balanceLine ("bb", 5)).length := by
  refine ⟨by decide, by decide⟩

/-- C14, amended.  On two records `ADDR BAL` written by `saveBalance` for
addresses that hold no space, `Less(r1, r2)` is true exactly when
`BAL1 > BAL2`; on equal balances it is false, whatever the lengths.
Consequently the sequence `sort.Sort` leaves is the records of the entries in
an order in which every balance is at least each later one; the order of the
records of equal balance is left open. -/
theorem saveBalance_sorted (m : tBalanceMap) (written : List (List Char))
    (haddr : ∀ e ∈ m, ' ' ∉ e.1.data) (hval : ∀ e ∈ m, e.2 < 2 ^ 64)
    (hs : SortOutput tSortedBalance.Less (balanceLines m) written) :
    (∀ e₁ ∈ m, ∀ e₂ ∈ m,
      tSortedBalance.Less (balanceLine e₁) (balanceLine e₂) = decide (e₂.2 < e₁.2)) ∧
    ∃ es : List (String × Nat), es.Perm m ∧ es.map balanceLine = written ∧
      es.Pairwise fun e₁ e₂ => e₂.2 ≤ e₁.2 := by
  have hless : ∀ e₁ ∈ m, ∀ e₂ ∈ m,
      tSortedBalance.Less (balanceLine e₁) (balanceLine e₂) = decide (e₂.2 < e₁.2) :=
    fun e₁ h₁ e₂ h₂ =>
      less_balanceLine e₁ e₂ (haddr e₁ h₁) (haddr e₂ h₂) (hval e₁ h₁) (hval e₂ h₂)
  refine ⟨hless, ?_⟩
  obtain ⟨es, hp, hmap⟩ := exists_perm_of_perm_map balanceLine hs.1 m rfl
  refine ⟨es, hp, hmap, ?_⟩
  have hpw := hs.2 (strictWeakOn_balanceLines m haddr hval)
  rw [← hmap, List.pairwise_map] at hpw
  refine List.Pairwise.imp_of_mem ?_ hpw
  intro e₁ e₂ h₁ h₂ h
  rw [hless e₂ (hp.mem_iff.mp h₂) e₁ (hp.mem_iff.mp h₁)] at h
  simp only [decide_eq_false_iff_not] at h
  omega

theorem saveBalance_sorted_witness :
    tSortedBalance.Less (balanceLine ("b", 7)) (balanceLine ("a", 5)) = decide (5 < 7) ∧
    ∃ es : List (String × Nat), es.Perm [("a", 5), ("b", 7)] ∧
      es.map balanceLine = [balanceLine ("b", 7), balanceLine ("a", 5)] ∧
      es.Pairwise fun e₁ e₂ => e₂.2 ≤ e₁.2 :=
  have h := saveBalance_sorted [("a", 5), ("b", 7)] [balanceLine ("b", 7), balanceLine ("a", 5)]
    (by decide) (by decide) ⟨List.Perm.swap _ _ [], fun _ => by decide⟩
  ⟨h.1 ("b", 7) (by decide) ("a", 5) (by decide), h.2⟩

/-- C20 fails as stated: among the records of the addresses `a`, `b c` (a raw
script holding a space) and `dddd`, `Less` is not transitive: the record of
`dddd` is before that of `a` (balance `22 > 1`), that of `a` before that of
`b c` (shorter), yet that of `dddd` is not before that of `b c` (longer). -/
theorem less_not_transitive_with_spaces :
    tSortedBalance.Less (balanceLine ("dddd", 22)) (balanceLine ("a", 1)) = true ∧
    tSortedBalance.Less (balanceLine ("a", 1)) (balanceLine ("b c", 1)) = true ∧
    tSortedBalance.Less (balanceLine ("dddd", 22)) (balanceLine ("b c", 1)) = false ∧
    ¬ StrictWeakOn tSortedBalance.Less (balanceLines [("a", 1), ("b c", 1), ("dddd", 22)]) := by
  refine ⟨by decide, by decide, by decide, ?_⟩
  intro h
  have := h.2.2.1 (balanceLine ("dddd", 22)) (by simp [balanceLines])
    (balanceLine ("a", 1)) (by simp [balanceLines])
    (balanceLine ("b c", 1)) (by simp [balanceLines]) (by decide) (by decide)
  exact absurd this (by decide)

/-- C20, amended.  Over the record lines `saveBalance` produces for a balance
map whose addresses hold no space, `Less` is a strict weak ordering
(irreflexive, asymmetric, transitive, and with a transitive negation), so
that `sort.Sort` leaves a sequence in which no later record is `Less` than an
earlier one. -/
theorem less_strict_weak_ordering (m : tBalanceMap) (haddr : ∀ e ∈ m, ' ' ∉ e.1.data)
    (hval : ∀ e ∈ m, e.2 < 2 ^ 64) :
    StrictWeakOn tSortedBalance.Less (balanceLines m) ∧
    ∀ written, SortOutput tSortedBalance.Less (balanceLines m) written →
      written.Pairwise fun a b => tSortedBalance.Less b a = false :=
  ⟨strictWeakOn_balanceLines m haddr hval,
    fun _ hs => hs.2 (strictWeakOn_balanceLines m haddr hval)⟩

theorem less_strict_weak_ordering_witness :
    StrictWeakOn tSortedBalance.Less (balanceLines [("a", 5), ("b", 7)]) ∧
    [balanceLine ("b", 7), balanceLine ("a", 5)].Pairwise
      fun a b => tSortedBalance.Less b a = false :=
  have h := less_strict_weak_ordering [("a", 5), ("b", 7)] (by decide) (by decide)
  ⟨h.1, h.2 [balanceLine ("b", 7), balanceLine ("a", 5)]
    ⟨List.Perm.swap _ _ [], fun _ => by decide⟩⟩

/-! ## The applier on credits followed by debits -/

theorem countFor_eq_zero_sumFor (a : String) (ds : List tBalanceChange)
    (h : countFor a ds = 0) : sumFor a ds = 0 := by
  induction ds with
  | nil => rfl
  | cons d ds ih =>
    by_cases hd : d.addr = a
    · simp only [countFor, hd, if_true] at h
      omega
    · simp only [countFor, hd, if_false, Nat.zero_add] at h
      simp only [sumFor, hd, if_false, ih h]
      rfl

theorem sumFor_nonneg (a : String) (ds : List tBalanceChange) (h : ∀ d ∈ ds, 0 ≤ d.change) :
    0 ≤ sumFor a ds := by
  induction ds with
  | nil => exact le_refl _
  | cons d ds ih =>
    have h1 := h d (List.mem_cons_self _ _)
    have h2 := ih (fun x hx => h x (List.mem_cons_of_mem _ hx))
    by_cases hd : d.addr = a
    · simp only [sumFor, hd, if_true]
      omega
    · simp only [sumFor, hd, if_false]
      omega

theorem sumFor_nonpos (a : String) (ds : List tBalanceChange) (h : ∀ d ∈ ds, d.change ≤ 0) :
    sumFor a ds ≤ 0 := by
  induction ds with
  | nil => exact le_refl _
  | cons d ds ih =>
    have h1 := h d (List.mem_cons_self _ _)
    have h2 := ih (fun x hx => h x (List.mem_cons_of_mem _ hx))
    by_cases hd : d.addr = a
    · simp only [sumFor, hd, if_true]
      omega
    · simp only [sumFor, hd, if_false]
      omega

/-- A step whose result is in the range from `0` to `2 ^ 63` succeeds; the
address is then held with the new balance when it is positive and absent when
it is `0`, and the other addresses are untouched. -/
theorem processBalanceStep_get (m : tBalanceMap) (a : String) (d : Int)
    (hb : balanceOf m a < 2 ^ 63) (h0 : 0 ≤ (balanceOf m a : Int) + d)
    (h1 : (balanceOf m a : Int) + d < 2 ^ 63) :
    ∃ m', processBalanceStep m ⟨a, d⟩ = some m' ∧
      GoMap.get m' a =
        (if 0 < (balanceOf m a : Int) + d then some ((balanceOf m a : Int) + d).toNat
          else none) ∧
      ∀ a', a' ≠ a → GoMap.get m' a' = GoMap.get m a' := by
  have e1 : toInt64 (balanceOf m a : Int) = balanceOf m a := toInt64_of_lt _ hb
  have hnb : newBalance m ⟨a, d⟩ = balanceOf m a + d := by
    simp only [newBalance, e1]
    unfold toInt64
    omega
  by_cases hpos : 0 < (balanceOf m a : Int) + d
  · refine ⟨GoMap.set m a (newBalance m ⟨a, d⟩).toNat, ?_, ?_, ?_⟩
    · simp [processBalanceStep, hnb, hpos]
    · rw [GoMap.get_set_self, if_pos hpos, hnb]
    · intro a' ha'
      exact GoMap.get_set_ne _ _ _ _ ha'
  · have hz : newBalance m ⟨a, d⟩ = 0 := by omega
    refine ⟨GoMap.del m a, ?_, ?_, ?_⟩
    · simp [processBalanceStep, hz]
    · rw [GoMap.get_del_self, if_neg hpos]
    · intro a' ha'
      exact GoMap.get_del_ne _ _ _ ha'

theorem balanceOf_of_get (m' : tBalanceMap) (a : String) (x : Int) (hx : 0 ≤ x)
    (h : GoMap.get m' a = if 0 < x then some x.toNat else none) :
    (balanceOf m' a : Int) = x := by
  unfold balanceOf
  rw [h]
  by_cases hp : 0 < x
  · rw [if_pos hp]
    simp only [Option.getD_some]
    omega
  · rw [if_neg hp]
    simp only [Option.getD_none]
    omega

/-- The balances after a run of the applier in which every running balance
stays between `0` and `2 ^ 63`, in terms of the sum and the number of the
changes of each address. -/
theorem get_after_step (m m₁ m' : tBalanceMap) (d : tBalanceChange) (rest : List tBalanceChange)
    (h0 : 0 ≤ (balanceOf m d.addr : Int) + d.change)
    (hg : GoMap.get m₁ d.addr =
      if 0 < (balanceOf m d.addr : Int) + d.change then
        some ((balanceOf m d.addr : Int) + d.change).toNat
      else none)
    (hf : ∀ a', a' ≠ d.addr → GoMap.get m₁ a' = GoMap.get m a')
    (ih : ∀ a, GoMap.get m' a =
      if countFor a rest = 0 then GoMap.get m₁ a
      else if 0 < (balanceOf m₁ a : Int) + sumFor a rest then
        some ((balanceOf m₁ a : Int) + sumFor a rest).toNat
      else none) :
    ∀ a, GoMap.get m' a =
      if countFor a (d :: rest) = 0 then GoMap.get m a
      else if 0 < (balanceOf m a : Int) + sumFor a (d :: rest) then
        some ((balanceOf m a : Int) + sumFor a (d :: rest)).toNat
      else none := by
  intro a
  rw [ih a]
  by_cases ha : d.addr = a
  · subst ha
    have hb := balanceOf_of_get m₁ d.addr _ h0 hg
    have hc : ¬ countFor d.addr (d :: rest) = 0 := by
      simp only [countFor, if_true]
      omega
    have hs : sumFor d.addr (d :: rest) = d.change + sumFor d.addr rest := by
      simp only [sumFor, if_true]
    rw [if_neg hc, hs, hb]
    by_cases hr : countFor d.addr rest = 0
    · rw [if_pos hr, countFor_eq_zero_sumFor _ _ hr, hg]
      simp
    · rw [if_neg hr]
      have e : (balanceOf m d.addr : Int) + d.change + sumFor d.addr rest =
          balanceOf m d.addr + (d.change + sumFor d.addr rest) := by omega
      rw [e]
  · have hc : countFor a (d :: rest) = countFor a rest := by
      simp only [countFor, ha, if_false, Nat.zero_add]
    have hs : sumFor a (d :: rest) = sumFor a rest := by
      simp only [sumFor, ha, if_false]
      omega
    have hbal : balanceOf m₁ a = balanceOf m a := by
      unfold balanceOf
      rw [hf a (fun h => ha h.symm)]
    rw [hc, hs, hbal, hf a (fun h => ha h.symm)]

theorem sumFor_cons_addr (d : tBalanceChange) (rest : List tBalanceChange) :
    sumFor d.addr (d :: rest) = d.change + sumFor d.addr rest := by
  simp only [sumFor, if_true]

theorem balance_after_step (m m₁ : tBalanceMap) (d : tBalanceChange)
    (rest : List tBalanceChange)
    (h0 : 0 ≤ (balanceOf m d.addr : Int) + d.change)
    (hg : GoMap.get m₁ d.addr =
      if 0 < (balanceOf m d.addr : Int) + d.change then
        some ((balanceOf m d.addr : Int) + d.change).toNat
      else none)
    (hf : ∀ a', a' ≠ d.addr → GoMap.get m₁ a' = GoMap.get m a') :
    ∀ a, (balanceOf m₁ a : Int) + sumFor a rest = balanceOf m a + sumFor a (d :: rest) := by
  intro a
  by_cases ha : d.addr = a
  · subst ha
    rw [balanceOf_of_get m₁ d.addr _ h0 hg, sumFor_cons_addr]
    omega
  · have hs : sumFor a (d :: rest) = sumFor a rest := by
      simp only [sumFor, ha, if_false]
      omega
    have hbal : balanceOf m₁ a = balanceOf m a := by
      unfold balanceOf
      rw [hf a (fun h => ha h.symm)]
    rw [hs, hbal]

/-- Credits that do not overflow are all applied. -/
theorem processBalance_credits (cr : List tBalanceChange) :
    ∀ m : tBalanceMap, (∀ d ∈ cr, 0 ≤ d.change) →
      (∀ a, (balanceOf m a : Int) + sumFor a cr < 2 ^ 63) →
      ∃ m', processBalance m cr = some m' ∧
        ∀ a, GoMap.get m' a =
          if countFor a cr = 0 then GoMap.get m a
          else if 0 < (balanceOf m a : Int) + sumFor a cr then
            some ((balanceOf m a : Int) + sumFor a cr).toNat
          else none := by
  induction cr with
  | nil =>
    intro m _ _
    exact ⟨m, rfl, fun a => by simp [countFor]⟩
  | cons d rest ih =>
    intro m hpos hov
    have hd := hpos d (List.mem_cons_self _ _)
    have hrest : ∀ x ∈ rest, 0 ≤ x.change := fun x hx => hpos x (List.mem_cons_of_mem _ hx)
    have hs := sumFor_nonneg d.addr rest hrest
    have hov' := hov d.addr
    rw [sumFor_cons_addr] at hov'
    have h0 : 0 ≤ (balanceOf m d.addr : Int) + d.change := by omega
    obtain ⟨m₁, hstep, hg, hf⟩ := processBalanceStep_get m d.addr d.change (by omega) h0
      (by omega)
    have hbal := balance_after_step m m₁ d rest h0 hg hf
    obtain ⟨m', hrun, hget⟩ := ih m₁ hrest (fun a => by rw [hbal a]; exact hov a)
    refine ⟨m', ?_, get_after_step m m₁ m' d rest h0 hg hf hget⟩
    rw [processBalance.eq_2]
    have e : (⟨d.addr, d.change⟩ : tBalanceChange) = d := rfl
    rw [e] at hstep
    rw [hstep]
    exact hrun

/-- Debits that leave no balance negative are all applied. -/
theorem processBalance_debits (db : List tBalanceChange) :
    ∀ m : tBalanceMap, (∀ d ∈ db, d.change ≤ 0) → (∀ a, balanceOf m a < 2 ^ 63) →
      (∀ a, 0 ≤ (balanceOf m a : Int) + sumFor a db) →
      ∃ m', processBalance m db = some m' ∧
        ∀ a, GoMap.get m' a =
          if countFor a db = 0 then GoMap.get m a
          else if 0 < (balanceOf m a : Int) + sumFor a db then
            some ((balanceOf m a : Int) + sumFor a db).toNat
          else none := by
  induction db with
  | nil =>
    intro m _ _ _
    exact ⟨m, rfl, fun a => by simp [countFor]⟩
  | cons d rest ih =>
    intro m hneg hlt hok
    have hd := hneg d (List.mem_cons_self _ _)
    have hrest : ∀ x ∈ rest, x.change ≤ 0 := fun x hx => hneg x (List.mem_cons_of_mem _ hx)
    have hs := sumFor_nonpos d.addr rest hrest
    have hok' := hok d.addr
    rw [sumFor_cons_addr] at hok'
    have hb := hlt d.addr
    have h0 : 0 ≤ (balanceOf m d.addr : Int) + d.change := by omega
    obtain ⟨m₁, hstep, hg, hf⟩ := processBalanceStep_get m d.addr d.change hb h0 (by omega)
    have hbal := balance_after_step m m₁ d rest h0 hg hf
    have hlt₁ : ∀ a, balanceOf m₁ a < 2 ^ 63 := by
      intro a
      by_cases ha : d.addr = a
      · subst ha
        have := balanceOf_of_get m₁ d.addr _ h0 hg
        omega
      · have hbal' : balanceOf m₁ a = balanceOf m a := by
          unfold balanceOf
          rw [hf a (fun h => ha h.symm)]
        rw [hbal']
        exact hlt a
    obtain ⟨m', hrun, hget⟩ := ih m₁ hrest hlt₁ (fun a => by rw [hbal a]; exact hok a)
    refine ⟨m', ?_, get_after_step m m₁ m' d rest h0 hg hf hget⟩
    rw [processBalance.eq_2]
    have e : (⟨d.addr, d.change⟩ : tBalanceChange) = d := rfl
    rw [e] at hstep
    rw [hstep]
    exact hrun

/-- Debits that would leave some balance negative end in the fatal error. -/
theorem processBalance_debits_fatal (db : List tBalanceChange) :
    ∀ m : tBalanceMap, (∀ d ∈ db, -(2 : Int) ^ 63 < d.change ∧ d.change ≤ 0) →
      (∀ a, balanceOf m a < 2 ^ 63) →
      (∃ a, (balanceOf m a : Int) + sumFor a db < 0) →
      processBalance m db = none := by
  induction db with
  | nil =>
    intro m _ _ hex
    obtain ⟨a, ha⟩ := hex
    simp only [sumFor] at ha
    omega
  | cons d rest ih =>
    intro m hneg hlt hex
    have hd := hneg d (List.mem_cons_self _ _)
    have hrest : ∀ x ∈ rest, -(2 : Int) ^ 63 < x.change ∧ x.change ≤ 0 :=
      fun x hx => hneg x (List.mem_cons_of_mem _ hx)
    have hb := hlt d.addr
    rw [processBalance.eq_2]
    by_cases h0 : 0 ≤ (balanceOf m d.addr : Int) + d.change
    · obtain ⟨m₁, hstep, hg, hf⟩ := processBalanceStep_get m d.addr d.change hb h0 (by omega)
      have hbal := balance_after_step m m₁ d rest h0 hg hf
      have hlt₁ : ∀ a, balanceOf m₁ a < 2 ^ 63 := by
        intro a
        by_cases ha : d.addr = a
        · subst ha
          have := balanceOf_of_get m₁ d.addr _ h0 hg
          omega
        · have hbal' : balanceOf m₁ a = balanceOf m a := by
            unfold balanceOf
            rw [hf a (fun h => ha h.symm)]
          rw [hbal']
          exact hlt a
      have e : (⟨d.addr, d.change⟩ : tBalanceChange) = d := rfl
      rw [e] at hstep
      rw [hstep]
      obtain ⟨a, ha⟩ := hex
      exact ih m₁ hrest hlt₁ ⟨a, by rw [hbal a]; exact ha⟩
    · have e1 : toInt64 (balanceOf m d.addr : Int) = balanceOf m d.addr := toInt64_of_lt _ hb
      have hnb : newBalance m d = balanceOf m d.addr + d.change := by
        simp only [newBalance, e1]
        unfold toInt64
        omega
      have hstep : processBalanceStep m d = none := by
        have h1 : ¬ (0 < newBalance m d) := by omega
        have h2 : ¬ (newBalance m d = 0) := by omega
        simp [processBalanceStep, h1, h2]
      rw [hstep]

theorem balanceOf_after_credits (m n : tBalanceMap) (cr : List tBalanceChange)
    (hcr : ∀ d ∈ cr, 0 ≤ d.change)
    (hget : ∀ a, GoMap.get n a =
      if countFor a cr = 0 then GoMap.get m a
      else if 0 < (balanceOf m a : Int) + sumFor a cr then
        some ((balanceOf m a : Int) + sumFor a cr).toNat
      else none) :
    ∀ a, (balanceOf n a : Int) = balanceOf m a + sumFor a cr := by
  intro a
  have hs := sumFor_nonneg a cr hcr
  by_cases hc : countFor a cr = 0
  · have h := hget a
    rw [if_pos hc] at h
    unfold balanceOf
    rw [h, countFor_eq_zero_sumFor a cr hc]
    omega
  · have h := hget a
    rw [if_neg hc] at h
    exact balanceOf_of_get n a _ (by omega) h

/-- The outcome of the applier on credits followed by debits depends only on
the sum and the number of the credits and of the debits of each address. -/
theorem processBalance_credits_debits (m : tBalanceMap) (cr db cr' db' : List tBalanceChange)
    (hcr : ∀ d ∈ cr, 0 ≤ d.change) (hcr' : ∀ d ∈ cr', 0 ≤ d.change)
    (hdb : ∀ d ∈ db, -(2 : Int) ^ 63 < d.change ∧ d.change ≤ 0)
    (hdb' : ∀ d ∈ db', -(2 : Int) ^ 63 < d.change ∧ d.change ≤ 0)
    (hov : ∀ a, (balanceOf m a : Int) + sumFor a cr < 2 ^ 63)
    (hs : ∀ a, sumFor a cr' = sumFor a cr ∧ countFor a cr' = countFor a cr ∧
      sumFor a db' = sumFor a db ∧ countFor a db' = countFor a db) :
    (processBalance m (cr ++ db) = none ↔ processBalance m (cr' ++ db') = none) ∧
    ∀ m₁ m₂, processBalance m (cr ++ db) = some m₁ →
      processBalance m (cr' ++ db') = some m₂ → ∀ a, GoMap.get m₁ a = GoMap.get m₂ a := by
  obtain ⟨n, hn, hgn⟩ := processBalance_credits cr m hcr hov
  obtain ⟨n', hn', hgn'⟩ := processBalance_credits cr' m hcr'
    (fun a => by rw [(hs a).1]; exact hov a)
  have hbn := balanceOf_after_credits m n cr hcr hgn
  have hbn' := balanceOf_after_credits m n' cr' hcr' hgn'
  have hnn : ∀ a, GoMap.get n' a = GoMap.get n a := by
    intro a
    rw [hgn a, hgn' a, (hs a).1, (hs a).2.1]
  have hbal : ∀ a, balanceOf n' a = balanceOf n a := by
    intro a
    unfold balanceOf
    rw [hnn a]
  have hlt : ∀ a, balanceOf n a < 2 ^ 63 := by
    intro a
    have := hbn a
    have := hov a
    omega
  have e₁ : processBalance m (cr ++ db) = processBalance n db := by
    rw [processBalance_append, hn]
    rfl
  have e₂ : processBalance m (cr' ++ db') = processBalance n' db' := by
    rw [processBalance_append, hn']
    rfl
  rw [e₁, e₂]
  by_cases hall : ∀ a, 0 ≤ (balanceOf n a : Int) + sumFor a db
  · obtain ⟨r, hr, hgr⟩ := processBalance_debits db n (fun d hd => (hdb d hd).2) hlt hall
    obtain ⟨r', hr', hgr'⟩ := processBalance_debits db' n' (fun d hd => (hdb' d hd).2)
      (fun a => by rw [hbal a]; exact hlt a)
      (fun a => by rw [hbal a, (hs a).2.2.1]; exact hall a)
    rw [hr, hr']
    refine ⟨by simp, ?_⟩
    intro m₁ m₂ h₁ h₂ a
    cases h₁
    cases h₂
    rw [hgr a, hgr' a, (hs a).2.2.1, (hs a).2.2.2, hbal a, hnn a]
  · have hex : ∃ a, (balanceOf n a : Int) + sumFor a db < 0 := by
      by_contra hne
      apply hall
      intro a
      by_contra hlt0
      exact hne ⟨a, by omega⟩
    obtain ⟨a, ha⟩ := hex
    have h₁ := processBalance_debits_fatal db n hdb hlt ⟨a, ha⟩
    have h₂ := processBalance_debits_fatal db' n' hdb'
      (fun a => by rw [hbal a]; exact hlt a) ⟨a, by rw [hbal a, (hs a).2.2.1]; exact ha⟩
    rw [h₁, h₂]
    refine ⟨by simp, ?_⟩
    intro m₁ m₂ h
    cases h

/-! ## Credits and debits of a change set in another order -/

theorem sumFor_append (a : String) (l₁ l₂ : List tBalanceChange) :
    sumFor a (l₁ ++ l₂) = sumFor a l₁ + sumFor a l₂ := by
  induction l₁ with
  | nil => simp [sumFor]
  | cons d ds ih =>
    show (if d.addr = a then d.change else 0) + sumFor a (ds ++ l₂) =
      (if d.addr = a then d.change else 0) + sumFor a ds + sumFor a l₂
    rw [ih]
    omega

theorem countFor_append (a : String) (l₁ l₂ : List tBalanceChange) :
    countFor a (l₁ ++ l₂) = countFor a l₁ + countFor a l₂ := by
  induction l₁ with
  | nil => simp [countFor]
  | cons d ds ih =>
    show (if d.addr = a then 1 else 0) + countFor a (ds ++ l₂) =
      (if d.addr = a then 1 else 0) + countFor a ds + countFor a l₂
    rw [ih]
    omega

theorem sumFor_countFor_perm (a : String) {l₁ l₂ : List tBalanceChange} (h : l₁.Perm l₂) :
    sumFor a l₁ = sumFor a l₂ ∧ countFor a l₁ = countFor a l₂ := by
  induction h with
  | nil => exact ⟨rfl, rfl⟩
  | cons x _ ih =>
    constructor
    · show (if x.addr = a then x.change else 0) + _ = (if x.addr = a then x.change else 0) + _
      rw [ih.1]
    · show (if x.addr = a then 1 else 0) + _ = (if x.addr = a then 1 else 0) + _
      rw [ih.2]
  | swap x y l =>
    constructor
    · show (if y.addr = a then y.change else 0) + ((if x.addr = a then x.change else 0) + _) =
        (if x.addr = a then x.change else 0) + ((if y.addr = a then y.change else 0) + _)
      omega
    · show (if y.addr = a then 1 else 0) + ((if x.addr = a then 1 else 0) + _) =
        (if x.addr = a then 1 else 0) + ((if y.addr = a then 1 else 0) + _)
      omega
  | trans _ _ ih₁ ih₂ => exact ⟨ih₁.1.trans ih₂.1, ih₁.2.trans ih₂.2⟩

theorem eq_nil_of_get_none {K V : Type} [DecidableEq K] (m : List (K × V))
    (h : ∀ k, GoMap.get m k = none) : m = [] := by
  cases m with
  | nil => rfl
  | cons e t =>
    have := h e.1
    simp [GoMap.get] at this

/-- The total of a weight over a Go map does not depend on the order of the
list that holds the map. -/
theorem total_congr {K V : Type} [DecidableEq K] (w : V → Nat) (R : V → V → Prop)
    (hw : ∀ v v', R v v' → w v = w v') (m : List (K × V)) :
    ∀ m' : List (K × V), GoMap.NodupKeys m → GoMap.NodupKeys m' →
      (∀ k, GoMap.get m k = none ↔ GoMap.get m' k = none) →
      (∀ k v v', GoMap.get m k = some v → GoMap.get m' k = some v' → R v v') →
      GoMap.total w m = GoMap.total w m' := by
  induction m with
  | nil =>
    intro m' _ _ hnone _
    have : m' = [] := eq_nil_of_get_none m' (fun k => (hnone k).mp rfl)
    rw [this]
  | cons e t ih =>
    intro m' hn hn' hnone hrel
    obtain ⟨k, v⟩ := e
    have hnk : k ∉ t.map Prod.fst ∧ GoMap.NodupKeys t := by
      simpa [GoMap.NodupKeys] using hn
    have hgk : GoMap.get ((k, v) :: t) k = some v := by simp [GoMap.get]
    cases hg' : GoMap.get m' k with
    | none =>
      have := (hnone k).mpr hg'
      rw [hgk] at this
      cases this
    | some v' =>
      have ht := GoMap.total_del w k hn'
      simp only [hg', Option.map_some', Option.getD_some] at ht
      have hcons : ∀ k₂, k₂ ≠ k → GoMap.get ((k, v) :: t) k₂ = GoMap.get t k₂ := by
        intro k₂ hk
        have hne : ¬ k = k₂ := fun h => hk h.symm
        simp only [GoMap.get, hne, if_false]
      have hrec : GoMap.total w t = GoMap.total w (GoMap.del m' k) := by
        apply ih (GoMap.del m' k) hnk.2 (GoMap.nodupKeys_del k hn')
        · intro k₂
          by_cases hk : k₂ = k
          · subst hk
            rw [GoMap.get_del_self]
            simp [GoMap.get_eq_none_iff.mpr hnk.1]
          · rw [GoMap.get_del_ne _ _ _ hk, ← hnone k₂, hcons k₂ hk]
        · intro k₂ v₂ v₂' h₁ h₂
          have hk : k₂ ≠ k := by
            rintro rfl
            rw [GoMap.get_del_self] at h₂
            cases h₂
          rw [GoMap.get_del_ne _ _ _ hk] at h₂
          refine hrel k₂ v₂ v₂' ?_ h₂
          rw [hcons k₂ hk]
          exact h₁
      show w v + GoMap.total w t = GoMap.total w m'
      rw [hrec, hw v v' (hrel k v v' hgk hg')]
      omega

theorem creditPhase_changes (cm : List (Uint256 × tOutputMap)) :
    ∀ u : tUnspentMap, (creditPhase u cm).2 = (cm.map fun e => creditOutputs e.2).flatten := by
  induction cm with
  | nil =>
    intro u
    rfl
  | cons e rest ih =>
    intro u
    obtain ⟨k, o⟩ := e
    show creditOutputs o ++ (creditPhase (GoMap.set u k o) rest).2 = _
    rw [ih]
    simp

theorem creditOutputs_for (a : String) (outs : tOutputMap) (h : ∀ o ∈ outs, o.2.val < 2 ^ 63) :
    sumFor a (creditOutputs outs) =
        (GoMap.total (fun o : tOutput => if o.addr = a then o.val else 0) outs : Nat) ∧
    countFor a (creditOutputs outs) =
        GoMap.total (fun o : tOutput => if o.addr = a then 1 else 0) outs ∧
    ∀ d ∈ creditOutputs outs, 0 ≤ d.change := by
  induction outs with
  | nil =>
    refine ⟨rfl, rfl, ?_⟩
    intro d hd
    simp [creditOutputs] at hd
  | cons e t ih =>
    obtain ⟨i, o⟩ := e
    have ho : o.val < 2 ^ 63 := h (i, o) (List.mem_cons_self _ _)
    have ih' := ih (fun x hx => h x (List.mem_cons_of_mem _ hx))
    have hc : creditOutputs ((i, o) :: t) = ⟨o.addr, toInt64 o.val⟩ :: creditOutputs t := by
      simp [creditOutputs]
    rw [hc]
    refine ⟨?_, ?_, ?_⟩
    · show (if o.addr = a then toInt64 o.val else 0) + sumFor a (creditOutputs t) =
        (((if o.addr = a then o.val else 0) +
          GoMap.total (fun o : tOutput => if o.addr = a then o.val else 0) t : Nat) : Int)
      rw [ih'.1, toInt64_of_lt o.val ho]
      push_cast
      split_ifs <;> rfl
    · show (if o.addr = a then 1 else 0) + countFor a (creditOutputs t) =
        (if o.addr = a then 1 else 0) +
          GoMap.total (fun o : tOutput => if o.addr = a then 1 else 0) t
      rw [ih'.2.1]
    · intro d hd
      rcases List.mem_cons.mp hd with hd | hd
      · subst hd
        show 0 ≤ toInt64 o.val
        rw [toInt64_of_lt o.val ho]
        omega
      · exact ih'.2.2 d hd

theorem credits_for (a : String) (cm : List (Uint256 × tOutputMap)) (h : AllBelow cm) :
    sumFor a (cm.map fun e => creditOutputs e.2).flatten =
        (GoMap.total (fun outs : tOutputMap =>
          GoMap.total (fun o : tOutput => if o.addr = a then o.val else 0) outs) cm : Nat) ∧
    countFor a (cm.map fun e => creditOutputs e.2).flatten =
        GoMap.total (fun outs : tOutputMap =>
          GoMap.total (fun o : tOutput => if o.addr = a then 1 else 0) outs) cm ∧
    ∀ d ∈ (cm.map fun e => creditOutputs e.2).flatten, 0 ≤ d.change := by
  induction cm with
  | nil =>
    refine ⟨rfl, rfl, ?_⟩
    intro d hd
    simp at hd
  | cons e t ih =>
    obtain ⟨k, o⟩ := e
    have ho := creditOutputs_for a o (h (k, o) (List.mem_cons_self _ _))
    have ih' := ih (fun x hx => h x (List.mem_cons_of_mem _ hx))
    have hc : (((k, o) :: t).map fun e => creditOutputs e.2).flatten =
        creditOutputs o ++ (t.map fun e => creditOutputs e.2).flatten := by simp
    rw [hc, sumFor_append, countFor_append, ho.1, ho.2.1, ih'.1, ih'.2.1]
    refine ⟨?_, rfl, ?_⟩
    · show _ = ((GoMap.total (fun o : tOutput => if o.addr = a then o.val else 0) o +
        GoMap.total (fun outs : tOutputMap =>
          GoMap.total (fun o : tOutput => if o.addr = a then o.val else 0) outs) t : Nat) : Int)
      push_cast
      rfl
    · intro d hd
      rcases List.mem_append.mp hd with hd | hd
      · exact ho.2.2 d hd
      · exact ih'.2.2 d hd

theorem sameMap_total {V : Type} (w : V → Nat) {o o' : List (Nat × V)} (h : SameMap o o') :
    GoMap.total w o = GoMap.total w o' :=
  total_congr w Eq (fun _ _ e => congrArg w e) o o' h.1 h.2.1
    (fun k => by rw [h.2.2 k])
    (fun k v v' h₁ h₂ => by
      rw [h.2.2 k, h₂] at h₁
      cases h₁
      rfl)

theorem allBelow_of_sameOutputs {cm cm' : List (Uint256 × tOutputMap)} (h : SameOutputs cm cm')
    (hb : AllBelow cm) : AllBelow cm' := by
  intro e he o ho
  obtain ⟨k, outs'⟩ := e
  have hg' : GoMap.get cm' k = some outs' := GoMap.get_of_mem h.2.1 he
  cases hg : GoMap.get cm k with
  | none =>
    have := (h.2.2.1 k).mp hg
    rw [hg'] at this
    cases this
  | some outs =>
    have hsm := h.2.2.2 k outs outs' hg hg'
    obtain ⟨i, x⟩ := o
    have h1 : GoMap.get outs' i = some x := GoMap.get_of_mem hsm.2.1 ho
    rw [← hsm.2.2 i] at h1
    exact hb (k, outs) (GoMap.mem_of_get hg) (i, x) (GoMap.mem_of_get h1)

/-- The credits a change set sends have, for every address, the same sum and
the same number in whatever order its outputs are visited. -/
theorem credits_reordered (a : String) (u : tUnspentMap) (cm cm' : List (Uint256 × tOutputMap))
    (h : SameOutputs cm cm') (hb : AllBelow cm) :
    sumFor a (creditPhase u cm').2 = sumFor a (creditPhase u cm).2 ∧
    countFor a (creditPhase u cm').2 = countFor a (creditPhase u cm).2 ∧
    (∀ d ∈ (creditPhase u cm).2, 0 ≤ d.change) ∧
    ∀ d ∈ (creditPhase u cm').2, 0 ≤ d.change := by
  have hb' := allBelow_of_sameOutputs h hb
  have h₁ := credits_for a cm hb
  have h₂ := credits_for a cm' hb'
  rw [creditPhase_changes cm u, creditPhase_changes cm' u, h₁.1, h₂.1, h₁.2.1, h₂.2.1]
  refine ⟨?_, ?_, h₁.2.2, h₂.2.2⟩
  · congr 1
    exact (total_congr _ SameMap (fun _ _ hs => sameMap_total _ hs) cm cm' h.1 h.2.1
      h.2.2.1 h.2.2.2).symm
  · exact (total_congr _ SameMap (fun _ _ hs => sameMap_total _ hs) cm cm' h.1 h.2.1
      h.2.2.1 h.2.2.2).symm

theorem debitOutputs_bounds (idxs : List Nat) :
    ∀ outs : tOutputMap, (∀ o ∈ outs, o.2.val < 2 ^ 63) →
      (∀ d ∈ (debitOutputs outs idxs).2, -(2 : Int) ^ 63 < d.change ∧ d.change ≤ 0) ∧
      ∀ o ∈ (debitOutputs outs idxs).1, o ∈ outs := by
  induction idxs with
  | nil =>
    intro outs _
    refine ⟨?_, fun o ho => ho⟩
    intro d hd
    simp [debitOutputs] at hd
  | cons i is ih =>
    intro outs hv
    cases hget : GoMap.get outs i with
    | none =>
      simp only [debitOutputs, hget]
      exact ih outs hv
    | some output =>
      simp only [debitOutputs, hget]
      have hval : output.val < 2 ^ 63 := hv (i, output) (GoMap.mem_of_get hget)
      have ih' := ih (GoMap.del outs i) (fun o ho => hv o (GoMap.mem_del ho).1)
      refine ⟨?_, fun o ho => (GoMap.mem_del (ih'.2 o ho)).1⟩
      intro d hd
      rcases List.mem_cons.mp hd with hd | hd
      · subst hd
        simp only [toInt64_neg_of_lt output.val hval]
        omega
      · exact ih'.1 d hd

theorem debitTx_bounds (u : tUnspentMap) (k : Uint256) (idxs : List Nat) (h : AllBelow u) :
    (∀ d ∈ (debitTx u k idxs).2, -(2 : Int) ^ 63 < d.change ∧ d.change ≤ 0) ∧
    AllBelow (debitTx u k idxs).1 := by
  cases hget : GoMap.get u k with
  | none =>
    simp only [debitTx, hget]
    refine ⟨?_, h⟩
    intro d hd
    simp at hd
  | some unspent =>
    have hb := debitOutputs_bounds idxs unspent (h (k, unspent) (GoMap.mem_of_get hget))
    simp only [debitTx, hget]
    refine ⟨hb.1, ?_⟩
    by_cases hl : (debitOutputs unspent idxs).1.length = 0
    · simp only [hl, if_true]
      exact fun e he => h e (GoMap.mem_del he).1
    · simp only [hl, if_false]
      intro e he
      rcases GoMap.mem_set he with he | he
      · subst he
        exact fun o ho => h (k, unspent) (GoMap.mem_of_get hget) o (hb.2 o ho)
      · exact h e he

theorem debitPhase_bounds (sm : List (Uint256 × List Nat)) :
    ∀ u : tUnspentMap, AllBelow u →
      ∀ d ∈ (debitPhase u sm).2, -(2 : Int) ^ 63 < d.change ∧ d.change ≤ 0 := by
  induction sm with
  | nil =>
    intro u _ d hd
    simp [debitPhase] at hd
  | cons e rest ih =>
    intro u hu d hd
    obtain ⟨k, idxs⟩ := e
    have h1 := debitTx_bounds u k idxs hu
    simp only [debitPhase] at hd
    rcases List.mem_append.mp hd with hd | hd
    · exact h1.1 d hd
    · exact ih _ h1.2 d hd

theorem allBelow_creditPhase (cm : List (Uint256 × tOutputMap)) :
    ∀ u : tUnspentMap, AllBelow u → AllBelow cm → AllBelow (creditPhase u cm).1 := by
  induction cm with
  | nil =>
    intro u hu _
    exact hu
  | cons e rest ih =>
    intro u hu hc
    obtain ⟨k, o⟩ := e
    show AllBelow (creditPhase (GoMap.set u k o) rest).1
    refine ih _ ?_ (fun x hx => hc x (List.mem_cons_of_mem _ hx))
    intro x hx
    rcases GoMap.mem_set hx with hx | hx
    · subst hx
      exact hc (k, o) (List.mem_cons_self _ _)
    · exact hu x hx

theorem debitOutputs_congr (idxs : List Nat) :
    ∀ o o' : tOutputMap, (∀ i, GoMap.get o i = GoMap.get o' i) →
      (debitOutputs o idxs).2 = (debitOutputs o' idxs).2 ∧
      ∀ i, GoMap.get (debitOutputs o idxs).1 i = GoMap.get (debitOutputs o' idxs).1 i := by
  induction idxs with
  | nil =>
    intro o o' h
    exact ⟨rfl, h⟩
  | cons j js ih =>
    intro o o' h
    cases hget : GoMap.get o j with
    | none =>
      have hget' : GoMap.get o' j = none := by rw [← h j, hget]
      simp only [debitOutputs, hget, hget']
      exact ih o o' h
    | some x =>
      have hget' : GoMap.get o' j = some x := by rw [← h j, hget]
      simp only [debitOutputs, hget, hget']
      have hdel : ∀ i, GoMap.get (GoMap.del o j) i = GoMap.get (GoMap.del o' j) i := by
        intro i
        by_cases hij : i = j
        · rw [hij, GoMap.get_del_self, GoMap.get_del_self]
        · rw [GoMap.get_del_ne _ _ _ hij, GoMap.get_del_ne _ _ _ hij, h i]
      have ih' := ih _ _ hdel
      exact ⟨by rw [ih'.1], ih'.2⟩

theorem length_eq_zero_congr {V : Type} (r r' : List (Nat × V))
    (h : ∀ i, GoMap.get r i = GoMap.get r' i) : r.length = 0 ↔ r'.length = 0 := by
  constructor
  · intro hr
    have hnil : r = [] := List.length_eq_zero.mp hr
    have : r' = [] := eq_nil_of_get_none r' (fun i => by rw [← h i, hnil]; rfl)
    rw [this]
    rfl
  · intro hr
    have hnil : r' = [] := List.length_eq_zero.mp hr
    have : r = [] := eq_nil_of_get_none r (fun i => by rw [h i, hnil]; rfl)
    rw [this]
    rfl

theorem debitTx_get_self (u : tUnspentMap) (k : Uint256) (idxs : List Nat) :
    GoMap.get (debitTx u k idxs).1 k =
      match GoMap.get u k with
      | none => none
      | some o =>
        if (debitOutputs o idxs).1.length = 0 then none else some (debitOutputs o idxs).1 := by
  cases hget : GoMap.get u k with
  | none =>
    simp only [debitTx, hget]
  | some o =>
    simp only [debitTx, hget]
    by_cases hl : (debitOutputs o idxs).1.length = 0
    · simp only [hl, if_true]
      exact GoMap.get_del_self _ _
    · simp only [hl, if_false]
      exact GoMap.get_set_self _ _ _

theorem debitTx_snd_of_get (u u' : tUnspentMap) (k : Uint256) (idxs : List Nat)
    (h : GoMap.get u k = GoMap.get u' k) : (debitTx u k idxs).2 = (debitTx u' k idxs).2 := by
  unfold debitTx
  rw [h]
  cases GoMap.get u' k <;> rfl

/-- The debits sent for one entry of `spentMap`, and the entry of the
transaction afterwards, depend only on what the unspent map holds for the
transaction. -/
theorem debitTx_congr (u u' : tUnspentMap) (k : Uint256) (idxs : List Nat)
    (hnone : GoMap.get u k = none ↔ GoMap.get u' k = none)
    (hsome : ∀ o o', GoMap.get u k = some o → GoMap.get u' k = some o' →
      ∀ i, GoMap.get o i = GoMap.get o' i) :
    (debitTx u k idxs).2 = (debitTx u' k idxs).2 ∧
    (GoMap.get (debitTx u k idxs).1 k = none ↔ GoMap.get (debitTx u' k idxs).1 k = none) ∧
    ∀ r r', GoMap.get (debitTx u k idxs).1 k = some r →
      GoMap.get (debitTx u' k idxs).1 k = some r' → ∀ i, GoMap.get r i = GoMap.get r' i := by
  rw [debitTx_get_self u k idxs, debitTx_get_self u' k idxs]
  cases hg : GoMap.get u k with
  | none =>
    have hg' := hnone.mp hg
    have e : (debitTx u k idxs).2 = (debitTx u' k idxs).2 := by
      simp only [debitTx, hg, hg']
    rw [hg']
    refine ⟨e, by simp, ?_⟩
    intro r r' h
    cases h
  | some o =>
    cases hg' : GoMap.get u' k with
    | none =>
      have := hnone.mpr hg'
      rw [hg] at this
      cases this
    | some o' =>
      have hc := debitOutputs_congr idxs o o' (hsome o o' hg hg')
      have hl := length_eq_zero_congr _ _ hc.2
      have e : (debitTx u k idxs).2 = (debitTx u' k idxs).2 := by
        simp only [debitTx, hg, hg']
        exact hc.1
      refine ⟨e, ?_, ?_⟩
      · by_cases h0 : (debitOutputs o idxs).1.length = 0
        · have h0' := hl.mp h0
          simp only [h0, h0', if_true]
        · have h0' : ¬ (debitOutputs o' idxs).1.length = 0 := fun h => h0 (hl.mpr h)
          simp only [h0, h0', if_false]
          exact ⟨fun h => Option.noConfusion h, fun h => Option.noConfusion h⟩
      · intro r r' hr hr'
        by_cases h0 : (debitOutputs o idxs).1.length = 0
        · simp only [h0, if_true] at hr
          cases hr
        · have h0' : ¬ (debitOutputs o' idxs).1.length = 0 := fun h => h0 (hl.mpr h)
          simp only [h0, h0', if_false, Option.some.injEq] at hr hr'
          subst hr hr'
          exact hc.2

theorem debitPhase_changes (sm : List (Uint256 × List Nat)) :
    ∀ u : tUnspentMap, GoMap.NodupKeys sm →
      (debitPhase u sm).2 = (sm.map fun e => (debitTx u e.1 e.2).2).flatten := by
  induction sm with
  | nil =>
    intro u _
    rfl
  | cons e rest ih =>
    intro u hn
    obtain ⟨k, idxs⟩ := e
    have hn' : k ∉ rest.map Prod.fst ∧ GoMap.NodupKeys rest := by
      simpa [GoMap.NodupKeys] using hn
    show (debitTx u k idxs).2 ++ (debitPhase (debitTx u k idxs).1 rest).2 = _
    rw [ih _ hn'.2]
    have hmap : (rest.map fun e => (debitTx (debitTx u k idxs).1 e.1 e.2).2) =
        rest.map fun e => (debitTx u e.1 e.2).2 := by
      apply List.map_congr_left
      intro e he
      apply debitTx_snd_of_get
      apply debitTx_get_ne
      intro hk
      exact hn'.1 (hk ▸ List.mem_map_of_mem Prod.fst he)
    rw [hmap]
    simp

theorem debitPhase_get (sm : List (Uint256 × List Nat)) (k : Uint256) :
    ∀ u : tUnspentMap, GoMap.NodupKeys sm →
      GoMap.get (debitPhase u sm).1 k =
        match GoMap.get sm k with
        | none => GoMap.get u k
        | some idxs => GoMap.get (debitTx u k idxs).1 k := by
  induction sm with
  | nil =>
    intro u _
    rfl
  | cons e rest ih =>
    intro u hn
    obtain ⟨k', sp⟩ := e
    have hn' : k' ∉ rest.map Prod.fst ∧ GoMap.NodupKeys rest := by
      simpa [GoMap.NodupKeys] using hn
    show GoMap.get (debitPhase (debitTx u k' sp).1 rest).1 k = _
    by_cases hk : k' = k
    · subst hk
      rw [debitPhase_get_of_not_mem rest k' _ hn'.1]
      simp [GoMap.get]
    · have hne : k ≠ k' := fun h => hk h.symm
      rw [ih _ hn'.2]
      simp only [GoMap.get, hk, if_false]
      cases GoMap.get rest k with
      | none => exact debitTx_get_ne u k k' sp hne
      | some idxs =>
        show GoMap.get (debitTx (debitTx u k' sp).1 k idxs).1 k = GoMap.get (debitTx u k idxs).1 k
        rw [debitTx_get_self, debitTx_get_self, debitTx_get_ne u k k' sp hne]

theorem creditPhase_get_eq (cm : List (Uint256 × tOutputMap)) (k : Uint256) (u : tUnspentMap)
    (hn : GoMap.NodupKeys cm) :
    GoMap.get (creditPhase u cm).1 k =
      match GoMap.get cm k with
      | none => GoMap.get u k
      | some o => some o := by
  cases hg : GoMap.get cm k with
  | none => exact creditPhase_get_of_not_mem cm k u (GoMap.get_eq_none_iff.mp hg)
  | some o => exact creditPhase_get cm k o u hn hg

theorem eqUnspent_creditPhase (u : tUnspentMap) (cm cm' : List (Uint256 × tOutputMap))
    (h : SameOutputs cm cm') : EqUnspent (creditPhase u cm).1 (creditPhase u cm').1 := by
  constructor
  · intro k
    rw [creditPhase_get_eq cm k u h.1, creditPhase_get_eq cm' k u h.2.1]
    cases hg : GoMap.get cm k with
    | none => rw [(h.2.2.1 k).mp hg]
    | some o =>
      cases hg' : GoMap.get cm' k with
      | none =>
        have := (h.2.2.1 k).mpr hg'
        rw [hg] at this
        cases this
      | some o' => simp
  · intro k o o' ho ho' i
    rw [creditPhase_get_eq cm k u h.1] at ho
    rw [creditPhase_get_eq cm' k u h.2.1] at ho'
    cases hg : GoMap.get cm k with
    | none =>
      rw [hg] at ho
      rw [(h.2.2.1 k).mp hg] at ho'
      simp only at ho ho'
      rw [ho] at ho'
      cases ho'
      rfl
    | some x =>
      cases hg' : GoMap.get cm' k with
      | none =>
        have := (h.2.2.1 k).mpr hg'
        rw [hg] at this
        cases this
      | some x' =>
        rw [hg] at ho
        rw [hg'] at ho'
        simp only [Option.some.injEq] at ho ho'
        subst ho ho'
        exact (h.2.2.2 k x x' hg hg').2.2 i

theorem perm_of_sameMap {K V : Type} [DecidableEq K] {m m' : List (K × V)}
    (h : SameMap m m') : m.Perm m' := by
  refine (List.perm_ext_iff_of_nodup (List.Nodup.of_map _ h.1) (List.Nodup.of_map _ h.2.1)).mpr ?_
  intro e
  obtain ⟨k, v⟩ := e
  constructor
  · intro he
    have := GoMap.get_of_mem h.1 he
    rw [h.2.2 k] at this
    exact GoMap.mem_of_get this
  · intro he
    have := GoMap.get_of_mem h.2.1 he
    rw [← h.2.2 k] at this
    exact GoMap.mem_of_get this

theorem eqUnspent_debitPhase (u u' : tUnspentMap) (sm sm' : List (Uint256 × List Nat))
    (hu : EqUnspent u u') (hs : SameMap sm sm') :
    EqUnspent (debitPhase u sm).1 (debitPhase u' sm').1 ∧
    (debitPhase u' sm').2.Perm (debitPhase u sm).2 := by
  have hkey : ∀ k idxs, (debitTx u k idxs).2 = (debitTx u' k idxs).2 ∧
      (GoMap.get (debitTx u k idxs).1 k = none ↔ GoMap.get (debitTx u' k idxs).1 k = none) ∧
      ∀ r r', GoMap.get (debitTx u k idxs).1 k = some r →
        GoMap.get (debitTx u' k idxs).1 k = some r' → ∀ i, GoMap.get r i = GoMap.get r' i :=
    fun k idxs => debitTx_congr u u' k idxs (hu.1 k) (hu.2 k)
  refine ⟨⟨?_, ?_⟩, ?_⟩
  · intro k
    rw [debitPhase_get sm k u hs.1, debitPhase_get sm' k u' hs.2.1, ← hs.2.2 k]
    cases GoMap.get sm k with
    | none => exact hu.1 k
    | some idxs => exact (hkey k idxs).2.1
  · intro k o o' ho ho'
    rw [debitPhase_get sm k u hs.1] at ho
    rw [debitPhase_get sm' k u' hs.2.1, ← hs.2.2 k] at ho'
    cases hg : GoMap.get sm k with
    | none =>
      rw [hg] at ho ho'
      exact hu.2 k o o' ho ho'
    | some idxs =>
      rw [hg] at ho ho'
      exact (hkey k idxs).2.2 o o' ho ho'
  · rw [debitPhase_changes sm u hs.1, debitPhase_changes sm' u' hs.2.1]
    have hmap : (sm'.map fun e => (debitTx u' e.1 e.2).2) =
        sm'.map fun e => (debitTx u e.1 e.2).2 :=
      List.map_congr_left (fun e _ => (hkey e.1 e.2).1.symm)
    rw [hmap]
    exact ((perm_of_sameMap hs).symm.map _).flatten

theorem get_map_snd {K V W : Type} [DecidableEq K] (f : V → W) (m : List (K × V)) (k : K) :
    GoMap.get (m.map fun e => (e.1, f e.2)) k = (GoMap.get m k).map f := by
  induction m with
  | nil => rfl
  | cons e rest ih =>
    obtain ⟨k', v⟩ := e
    by_cases hk : k' = k
    · simp [GoMap.get, hk]
    · simpa [GoMap.get, hk] using ih

theorem sameMap_of_perm {K V : Type} [DecidableEq K] {m m' : List (K × V)}
    (hn : GoMap.NodupKeys m) (hp : m'.Perm m) : SameMap m m' :=
  ⟨hn, (hp.map Prod.fst).nodup_iff.mpr hn, fun k => (get_perm hn hp k).symm⟩

/-- A change set whose maps have pairwise distinct keys is `Reordered` into
its `reversed` change set. -/
theorem reordered_reversed (c : tChangeSet) (h₁ : GoMap.NodupKeys c.balanceMap)
    (h₂ : ∀ e ∈ c.balanceMap, GoMap.NodupKeys e.2) (h₃ : GoMap.NodupKeys c.spentMap) :
    Reordered c (reversed c) := by
  have hkeys : (c.balanceMap.map fun e => (e.1, e.2.reverse)).map Prod.fst =
      c.balanceMap.map Prod.fst := by
    rw [List.map_map]
    rfl
  have hn : GoMap.NodupKeys (c.balanceMap.map fun e => (e.1, e.2.reverse)) := by
    unfold GoMap.NodupKeys
    rw [hkeys]
    exact h₁
  have hget : ∀ k, GoMap.get (reversed c).balanceMap k =
      (GoMap.get c.balanceMap k).map List.reverse := by
    intro k
    show GoMap.get (c.balanceMap.map fun e => (e.1, e.2.reverse)).reverse k = _
    rw [get_perm hn (List.reverse_perm _) k, get_map_snd]
  refine ⟨rfl, rfl, ⟨h₁, ?_, ?_, ?_⟩, sameMap_of_perm h₃ (List.reverse_perm _)⟩
  · exact ((List.reverse_perm _).map Prod.fst).nodup_iff.mpr hn
  · intro k
    rw [hget k]
    cases GoMap.get c.balanceMap k <;> simp
  · intro k o o' ho ho'
    rw [hget k, ho] at ho'
    cases ho'
    exact sameMap_of_perm (h₂ (k, o) (GoMap.mem_of_get ho)) (List.reverse_perm _)

/-! ## C19: the order in which the maps of a change set are visited -/

/-- C19. Applying a change set gives the same unspent map, the same fatal
negative-balance outcome of the applier and the same balance map in whatever
order the entries of `balanceMap`, the outputs inside each output map and the
keys of `spentMap` are visited, when no 64-bit conversion or addition
overflows: every output value of the change set and of the unspent map is
below `2 ^ 63`, and every balance plus the credits of its address stays below
`2 ^ 63`. -/
theorem apply_order_independent (monthOf : Nat → Nat) (b : BalanceParser) (c c' : tChangeSet)
    (m : tBalanceMap) (hr : Reordered c c') (h1 : AllBelow c.balanceMap)
    (h2 : AllBelow b.unspentMap_)
    (h3 : ∀ a, (balanceOf m a : Int) +
      sumFor a (creditPhase b.unspentMap_ c.balanceMap).2 < 2 ^ 63) :
    EqUnspent (processBlockApply monthOf b c).unspentMap_
      (processBlockApply monthOf b c').unspentMap_ ∧
    (processBalance m (changes (applyEvents monthOf b c)) = none ↔
      processBalance m (changes (applyEvents monthOf b c')) = none) ∧
    ∀ m₁ m₂, processBalance m (changes (applyEvents monthOf b c)) = some m₁ →
      processBalance m (changes (applyEvents monthOf b c')) = some m₂ →
      ∀ a, GoMap.get m₁ a = GoMap.get m₂ a := by
  obtain ⟨_, _, hout, hsp⟩ := hr
  have hU := eqUnspent_creditPhase b.unspentMap_ c.balanceMap c'.balanceMap hout
  have hD := eqUnspent_debitPhase _ _ c.spentMap c'.spentMap hU hsp
  have hA := allBelow_creditPhase c.balanceMap b.unspentMap_ h2 h1
  have hA' := allBelow_creditPhase c'.balanceMap b.unspentMap_ h2
    (allBelow_of_sameOutputs hout h1)
  have hcr := fun a => credits_reordered a b.unspentMap_ c.balanceMap c'.balanceMap hout h1
  refine ⟨hD.1, ?_⟩
  rw [changes_applyEvents, changes_applyEvents]
  exact processBalance_credits_debits m _ _ _ _ (hcr "").2.2.1 (hcr "").2.2.2
    (debitPhase_bounds _ _ hA) (debitPhase_bounds _ _ hA') h3
    (fun a => ⟨(hcr a).1, (hcr a).2.1, (sumFor_countFor_perm a hD.2).1,
      (sumFor_countFor_perm a hD.2).2⟩)

theorem apply_order_independent_witness :
    EqUnspent
      (processBlockApply january (applyAll january initial [loadBlock block1, loadBlock block2])
        (loadBlock block3)).unspentMap_
      (processBlockApply january (applyAll january initial [loadBlock block1, loadBlock block2])
        (reversed (loadBlock block3))).unspentMap_ ∧
    (processBalance balances2 (changes (applyEvents january
        (applyAll january initial [loadBlock block1, loadBlock block2])
        (loadBlock block3))) = none ↔
      processBalance balances2 (changes (applyEvents january
        (applyAll january initial [loadBlock block1, loadBlock block2])
        (reversed (loadBlock block3)))) = none) ∧
    ∀ m₁ m₂, processBalance balances2 (changes (applyEvents january
        (applyAll january initial [loadBlock block1, loadBlock block2])
        (loadBlock block3))) = some m₁ →
      processBalance balances2 (changes (applyEvents january
        (applyAll january initial [loadBlock block1, loadBlock block2])
        (reversed (loadBlock block3)))) = some m₂ →
      ∀ a, GoMap.get m₁ a = GoMap.get m₂ a :=
  apply_order_independent january (applyAll january initial [loadBlock block1, loadBlock block2])
    (loadBlock block3) (reversed (loadBlock block3)) balances2
    (reordered_reversed (loadBlock block3) (by unfold GoMap.NodupKeys; decide)
      (by unfold GoMap.NodupKeys; decide) (by unfold GoMap.NodupKeys; decide))
    (by unfold AllBelow; decide) (by unfold AllBelow; decide)
    (fun a => by
      have e : (creditPhase
          (applyAll january initial [loadBlock block1, loadBlock block2]).unspentMap_
          (loadBlock block3).balanceMap).2 =
          [⟨"addrC", 1000000000⟩, ⟨"addrB", 3000000000⟩, ⟨"addrC", 6000000000⟩] := by decide
      rw [e]
      simp only [sumFor, balanceOf, balances2, GoMap.get]
      split_ifs <;> simp)

/-! ## C10: the reward schedule -/

theorem blockReward_applyAll (monthOf : Nat → Nat) (cs : List tChangeSet)
    (h : cs.length + 1 < 2 ^ 32) :
    blockReward (applyAll monthOf initial cs) =
      MAX_REWARD / 2 ^ ((cs.length + 1) / HALVING_BLOCKS) := by
  have h1 := applyAll_height monthOf cs initial
    (by show 0 + cs.length < 2 ^ 32; omega) (by decide)
  have hno : (applyAll monthOf initial cs).blockNO_ = cs.length := by
    rw [h1.1]
    show 0 + cs.length = cs.length
    omega
  have hhalv : (applyAll monthOf initial cs).halvings_ =
      (applyAll monthOf initial cs).blockNO_ / HALVING_BLOCKS := by
    rw [h1.2, hno]
    show (0 + cs.length) / HALVING_BLOCKS = cs.length / HALVING_BLOCKS
    rw [Nat.zero_add]
  unfold blockReward
  rw [nextHalvings_eq _ (by rw [hno]; exact h) hhalv, hno]

theorem reports_applyEvents (monthOf : Nat → Nat) (b : BalanceParser) (c : tChangeSet) :
    reports (applyEvents monthOf b c) =
      if monthOf c.block.BlockTime ≠ b.lastMonth then
        [(c.block.BlockTime, (b.sumReward_ + blockReward b) % 2 ^ 64,
          (b.sumFee_ + blockFee b c) % 2 ^ 64)]
      else [] := by
  unfold applyEvents
  rw [reports_append, reports_map_change, List.append_nil]
  by_cases h : monthOf c.block.BlockTime ≠ b.lastMonth
  · rw [if_pos h, if_pos h]
    rfl
  · rw [if_neg h, if_neg h]
    rfl

/-- Applying a change set adds the reward of the block to the reward
accounted so far, while the running sum does not overflow. -/
theorem totalReward_apply (monthOf : Nat → Nat) (b : BalanceParser) (c : tChangeSet)
    (h : b.sumReward_ + blockReward b < 2 ^ 64) :
    totalReward (processBlockApply monthOf b c) = totalReward b + blockReward b := by
  have hmod : (b.sumReward_ + blockReward b) % 2 ^ 64 = b.sumReward_ + blockReward b :=
    Nat.mod_eq_of_lt h
  have hout : (processBlockApply monthOf b c).out = b.out ++ applyEvents monthOf b c := rfl
  unfold totalReward
  rw [hout, reports_append, reports_applyEvents, List.map_append, List.sum_append]
  by_cases hm : monthOf c.block.BlockTime ≠ b.lastMonth
  · have hs : (processBlockApply monthOf b c).sumReward_ = 0 := by
      show (if monthOf c.block.BlockTime ≠ b.lastMonth then 0
        else (b.sumReward_ + blockReward b) % 2 ^ 64) = 0
      rw [if_pos hm]
    rw [hs, if_pos hm, hmod]
    simp only [List.map_cons, List.map_nil, List.sum_cons, List.sum_nil]
    omega
  · have hs : (processBlockApply monthOf b c).sumReward_ =
        (b.sumReward_ + blockReward b) % 2 ^ 64 := by
      show (if monthOf c.block.BlockTime ≠ b.lastMonth then 0
        else (b.sumReward_ + blockReward b) % 2 ^ 64) = _
      rw [if_neg hm]
    rw [hs, if_neg hm, hmod]
    simp only [List.map_nil, List.sum_nil]
    omega

theorem rewardSum_le (n : Nat) :
    ((List.range n).map fun k => MAX_REWARD / 2 ^ ((k + 1) / HALVING_BLOCKS)).sum ≤
      min n 6930000 * 5000000000 := by
  induction n with
  | zero => simp
  | succ n ih =>
    rw [List.range_succ, List.map_append, List.sum_append]
    simp only [List.map_cons, List.map_nil, List.sum_cons, List.sum_nil, Nat.add_zero]
    by_cases hn : n < 6930000
    · have hr : MAX_REWARD / 2 ^ ((n + 1) / HALVING_BLOCKS) ≤ 5000000000 :=
        Nat.div_le_self _ _
      have h1 : min n 6930000 = n := Nat.min_eq_left (by omega)
      have h2 : min (n + 1) 6930000 = n + 1 := Nat.min_eq_left (by omega)
      rw [h1] at ih
      rw [h2]
      omega
    · have he : 33 ≤ (n + 1) / HALVING_BLOCKS := by
        unfold HALVING_BLOCKS
        omega
      have hp : 2 ^ 33 ≤ 2 ^ ((n + 1) / HALVING_BLOCKS) :=
        Nat.pow_le_pow_right (by decide) he
      have hr : MAX_REWARD / 2 ^ ((n + 1) / HALVING_BLOCKS) = 0 :=
        Nat.div_eq_of_lt (lt_of_lt_of_le (by decide) hp)
      have h1 : min n 6930000 = 6930000 := Nat.min_eq_right (by omega)
      have h2 : min (n + 1) 6930000 = 6930000 := Nat.min_eq_right (by omega)
      rw [h1] at ih
      rw [h2, hr]
      omega

theorem totalReward_applyAll (monthOf : Nat → Nat) (cs : List tChangeSet) :
    cs.length + 1 < 2 ^ 32 →
      totalReward (applyAll monthOf initial cs) =
        ((List.range cs.length).map fun k => MAX_REWARD / 2 ^ ((k + 1) / HALVING_BLOCKS)).sum := by
  induction cs using List.reverseRecOn with
  | nil =>
    intro _
    rfl
  | append_singleton cs c ih =>
    intro h
    rw [List.length_append, List.length_singleton] at h
    have ih' := ih (by omega)
    have hstep : applyAll monthOf initial (cs ++ [c]) =
        processBlockApply monthOf (applyAll monthOf initial cs) c := by
      unfold applyAll
      rw [List.foldl_append]
      rfl
    have hr := blockReward_applyAll monthOf cs (by omega)
    have hle := rewardSum_le cs.length
    have hmin : min cs.length 6930000 * 5000000000 ≤ 6930000 * 5000000000 :=
      Nat.mul_le_mul_right _ (Nat.min_le_right _ _)
    have hb : blockReward (applyAll monthOf initial cs) ≤ 5000000000 := by
      rw [hr]
      exact Nat.div_le_self _ _
    have hsum : (applyAll monthOf initial cs).sumReward_ ≤
        totalReward (applyAll monthOf initial cs) := Nat.le_add_left _ _
    rw [hstep, totalReward_apply monthOf _ c (by rw [ih'] at hsum; omega), ih', hr,
      List.length_append, List.length_singleton, List.range_succ, List.map_append,
      List.sum_append]
    simp only [List.map_cons, List.map_nil, List.sum_cons, List.sum_nil, Nat.add_zero]

/-- C10 fails as stated: the block at height `209999` (applied after `209999`
others) is accounted the reward `2500000000`, where the claim gives
`MAX_REWARD / 2 ^ (209999 / 210000) = 5000000000`. -/
theorem reward_halved_at_height_209999 :
    blockReward (applyAll january initial (List.replicate 209999 (loadBlock block1))) =
        2500000000 ∧
    MAX_REWARD / 2 ^ (209999 / HALVING_BLOCKS) = 5000000000 := by
  constructor
  · rw [blockReward_applyAll january (List.replicate 209999 (loadBlock block1))
      (by rw [List.length_replicate]; decide), List.length_replicate]
    decide
  · decide

/-- C10, amended.  The reward the code accounts for the block at height `k`
(the block applied after `k` others, for `k + 1 < 2 ^ 32`) is
`MAX_REWARD / 2 ^ ((k + 1) / HALVING_BLOCKS)`: the halving takes effect at the
heights `209999`, `419999`, ..., one block before the multiples of `210000`.
The reward accounted over the blocks applied, that is the sums reported at the
month rollovers plus the running sum, is the sum of these rewards. -/
theorem blockReward_at_height (monthOf : Nat → Nat) (cs : List tChangeSet)
    (h : cs.length + 1 < 2 ^ 32) :
    blockReward (applyAll monthOf initial cs) =
      MAX_REWARD / 2 ^ ((cs.length + 1) / HALVING_BLOCKS) ∧
    totalReward (applyAll monthOf initial cs) =
      ((List.range cs.length).map fun k => MAX_REWARD / 2 ^ ((k + 1) / HALVING_BLOCKS)).sum :=
  ⟨blockReward_applyAll monthOf cs h, totalReward_applyAll monthOf cs h⟩

theorem blockReward_at_height_witness :
    blockReward (applyAll january initial (List.replicate 209999 (loadBlock block1))) =
        2500000000 ∧
    blockReward (applyAll january initial (List.replicate 210000 (loadBlock block1))) =
        2500000000 ∧
    blockReward (applyAll january initial (List.replicate 210001 (loadBlock block1))) =
        2500000000 ∧
    blockReward (applyAll january initial (List.replicate 419999 (loadBlock block1))) =
        1250000000 ∧
    blockReward (applyAll january initial (List.replicate 420000 (loadBlock block1))) =
        1250000000 ∧
    totalReward (applyAll january initial [loadBlock block1, loadBlock block2]) =
        10000000000 :=
  ⟨(blockReward_at_height january (List.replicate 209999 (loadBlock block1))
      (by rw [List.length_replicate]; decide)).1.trans
      (by rw [List.length_replicate]; decide),
    (blockReward_at_height january (List.replicate 210000 (loadBlock block1))
      (by rw [List.length_replicate]; decide)).1.trans
      (by rw [List.length_replicate]; decide),
    (blockReward_at_height january (List.replicate 210001 (loadBlock block1))
      (by rw [List.length_replicate]; decide)).1.trans
      (by rw [List.length_replicate]; decide),
    (blockReward_at_height january (List.replicate 419999 (loadBlock block1))
      (by rw [List.length_replicate]; decide)).1.trans
      (by rw [List.length_replicate]; decide),
    (blockReward_at_height january (List.replicate 420000 (loadBlock block1))
      (by rw [List.length_replicate]; decide)).1.trans
      (by rw [List.length_replicate]; decide),
    (blockReward_at_height january [loadBlock block1, loadBlock block2] (by decide)).2.trans
      (by decide)⟩

end Parsers
